import Mathlib

/-!
UFML (acomagu/go-ufml): decoder and encoder.

A shallow embedding of `decoder.go` and `encoder.go`, and theorems about it.

Modelling conventions.

* A Go `string` is a list of Unicode characters (`Str`). The replacements done
  by `escape` and the comparisons done by the decoder only concern ASCII
  characters, so working on characters instead of bytes changes nothing for
  them; `len` of a string is its UTF-8 byte length (`strLen`).
* `text/scanner.Scanner` is used by the decoder only through `Peek` and
  `Next`. It is modelled by the list of runes it has yet to deliver; `Peek` of
  the empty list is `none` (`scanner.EOF`). A `Decoder` value holds the runes
  that `Peek`/`Next` have yet to deliver. `NewDecoder` takes the text of the
  reader: `text/scanner` discards a byte-order mark U+FEFF that is the first
  character of the source (`scannerInit`). A source that is not valid UTF-8
  is not a list of characters and lies outside the model.
* `strconv.ParseFloat`, the `%v` rendering of a `float64` and `==` on
  `float64` belong to the Go library; they are the fields of `FloatOps` and
  the embedding is parametric in them.
* A Go map is the list of its entries; where the code ranges over a map the
  model ranges over the list. `mapSet` keeps the position of a key that is
  already present and appends a new key.
* Recursion that Go does on the call stack without a bound known beforehand
  (`decodeLine`, `kvsToMap`, `makeKeyStringOrCvtSlice`) takes a `fuel`
  argument; the result `none` means that the call depth exceeded `fuel`.
* A Go `panic` is the outcome `Result.panic`.
* `Decode` and `DecodeNLines` are modelled up to the generic value that they
  hand to `mapdecode.Decode`, which belongs to another library.
* The sink of an `Encoder` is the text written to it so far; a write to it
  does not fail.
-/

namespace Ufml

/-- A Go string, as the list of its characters. -/
abbrev Str := List Char

/-- The float64 operations of the Go library that the code calls:
`strconv.ParseFloat(s, 64)` (`none` when it returns an error), the text that
`fmt` writes for the verb `%v`, and `==`. -/
structure FloatOps (F : Type) where
  ParseFloat : Str → Option F
  FormatFloat : F → Str
  eq : F → F → Bool

/-- `Token` (an `interface{}`): what `Decoder.Token` returns. `eol` is the rune
constant `EOL`; `str []` is also what the empty bracket gives; `null` is the Go
`nil`. -/
inductive Tok (F : Type)
  | eol
  | str (s : Str)
  | int (i : Int)
  | float (f : F)
  | bool (b : Bool)
  | null
  deriving DecidableEq, Repr

/-- The errors that the decoder returns.
`invalidMap` is "invalid map", `invalidBracketValue` is "invalid bracket value",
`unexpected r` is "unexpected '%c'", `badKeyword s` is "could not parse bracket
value: %s", `badFloat s` is "could not parse %s as float64" around the error of
`strconv.ParseFloat`, `badInt s` is the error of `strconv.ParseInt`, and
`expectedEOL` is "expected EOL character". -/
inductive DecodeError
  | invalidMap
  | invalidBracketValue
  | unexpected (r : Option Char)
  | badKeyword (s : Str)
  | badFloat (s : Str)
  | badInt (s : Str)
  | expectedEOL
  deriving DecidableEq, Repr

/-- Outcome of a decoder call that may return an error or panic. -/
inductive Result (α : Type)
  | ok (a : α)
  | error (e : DecodeError)
  | panic (msg : String)
  deriving DecidableEq, Repr

/-- `Decoder`: the scanner (the runes not yet read) and the flag `hasMore`. -/
structure Decoder where
  s : List Char
  hasMore : Bool
  deriving DecidableEq, Repr

/-- `scanner.Peek`: the next rune, `none` at the end of the source. -/
def Peek (s : List Char) : Option Char := s.head?

/-- `scanner.Next`: advance by one rune (no effect at the end of the source). -/
def Next (s : List Char) : List Char := s.tail

/-- `Decoder.isBrank`. -/
def isBrank (r : Option Char) : Bool := r == some ' '

/-- `Decoder.skipBrank`: `for d.isBrank(d.s.Peek()) { d.s.Next() }`. -/
def skipBrank : List Char → List Char
  | [] => []
  | c :: cs => if isBrank (some c) then skipBrank cs else c :: cs

/-- `Decoder.isStrChar`. -/
def isStrChar (r : Option Char) : Bool :=
  !isBrank r && r != some '\n' && r != none

/-- `Decoder.scanStr`. It returns the string read and the scanner. After a
backslash the next rune is taken as it is, except `n`, which gives a newline;
at the end of the source `string(scanner.EOF)` is U+FFFD. -/
def scanStr : List Char → Str × List Char
  | [] => ([], [])
  | c :: cs =>
    if isStrChar (some c) then
      if c = '\\' then
        match cs with
        | [] => ([Char.ofNat 0xFFFD], [])
        | c2 :: cs2 =>
          let r := scanStr cs2
          ((if c2 = 'n' then '\n' else c2) :: r.1, r.2)
      else
        let r := scanStr cs
        (c :: r.1, r.2)
    else ([], c :: cs)

/-- `Decoder.isIntChar`: `strconv.Atoi(string(r))` succeeds, that is, `r` is
one of the digits `0` to `9`. -/
def isIntChar (r : Option Char) : Bool :=
  match r with
  | some c => c.isDigit
  | none => false

/-- The loop `for p(d.s.Peek()) { s += string(d.s.Peek()); d.s.Next() }`:
the run read and the scanner behind it. -/
def scanWhile (p : Option Char → Bool) : List Char → Str × List Char
  | [] => ([], [])
  | c :: cs =>
    if p (some c) then
      let r := scanWhile p cs
      (c :: r.1, r.2)
    else ([], c :: cs)

/-- Value of a run of decimal digits. -/
def digitsVal (s : Str) : Nat := s.foldl (fun a c => 10 * a + (c.toNat - 48)) 0

/-- `strconv.ParseInt(s, 10, 64)` on a run of decimal digits: an error on the
empty run and on a value above the largest int64. -/
def ParseInt (s : Str) : Option Int :=
  if s = [] then none
  else if digitsVal s < 2 ^ 63 then some (digitsVal s : Int) else none

/-- `Decoder.scanInt`. -/
def scanInt {F : Type} (s : List Char) : Except DecodeError (Tok F × List Char) :=
  let r := scanWhile isIntChar s
  match ParseInt r.1 with
  | some i => .ok (.int i, r.2)
  | none => .error (.badInt r.1)

/-- `Decoder.scanArrIndex`. -/
def scanArrIndex {F : Type} (s : List Char) : Except DecodeError (Tok F × List Char) :=
  scanInt (Next s)

/-- `Decoder.isKwdChar`: `strings.ContainsRune("truefalsenull", r)`. -/
def isKwdChar (r : Option Char) : Bool :=
  match r with
  | some c => "truefalsenull".toList.contains c
  | none => false

/-- `Decoder.scanKwd`. -/
def scanKwd {F : Type} (s : List Char) : Except DecodeError (Tok F × List Char) :=
  let r := scanWhile isKwdChar s
  if r.1 = "true".toList then .ok (.bool true, r.2)
  else if r.1 = "false".toList then .ok (.bool false, r.2)
  else if r.1 = "null".toList then .ok (.null, r.2)
  else .error (.badKeyword r.1)

/-- `Decoder.isNumChar`. -/
def isNumChar (r : Option Char) : Bool :=
  match r with
  | some c => ".e+-".toList.contains c || c.isDigit
  | none => false

/-- `Decoder.scanNum`. -/
def scanNum {F : Type} (L : FloatOps F) (s : List Char) :
    Except DecodeError (Tok F × List Char) :=
  let r := scanWhile isNumChar s
  match L.ParseFloat r.1 with
  | some f => .ok (.float f, r.2)
  | none => .error (.badFloat r.1)

/-- `Decoder.scanBracket`. -/
def scanBracket {F : Type} (L : FloatOps F) (s : List Char) :
    Except DecodeError (Tok F × List Char) :=
  let s1 := Next s
  let r : Except DecodeError (Tok F × List Char) :=
    if isNumChar (Peek s1) then scanNum L s1
    else if isKwdChar (Peek s1) then scanKwd s1
    else if Peek s1 = some '>' then .ok (.str [], s1)
    else .error .invalidBracketValue
  match r with
  | .error e => .error e
  | .ok (v, s2) =>
    if Peek s2 ≠ some '>' then .error (.unexpected (Peek s2))
    else .ok (v, Next s2)

/-- `Decoder.isEOLChar`. -/
def isEOLChar (r : Option Char) : Bool := r == some '\n'

/-- `Decoder.scanEOL`. -/
def scanEOL {F : Type} (s : List Char) : Except DecodeError (Tok F × List Char) :=
  if !isEOLChar (Peek s) then .error .expectedEOL
  else .ok (.eol, (scanWhile isEOLChar s).2)

/-- `Decoder.Token`. -/
def Token {F : Type} (L : FloatOps F) (d : Decoder) : Except DecodeError (Tok F × Decoder) :=
  let r : Except DecodeError (Tok F × List Char) :=
    if Peek d.s = some '<' then scanBracket L d.s
    else if Peek d.s = some '#' then scanArrIndex d.s
    else if Peek d.s = some '\n' then scanEOL d.s
    else .ok (.str (scanStr d.s).1, (scanStr d.s).2)
  match r with
  | .error e => .error e
  | .ok (v, s1) =>
    let s2 := skipBrank s1
    .ok (v, { s := s2, hasMore := !isEOLChar (Peek s2) })

/-- `Decoder.More`. -/
def More (d : Decoder) : Bool := d.hasMore

/-- What `decodeLine` returns: a token, or a `*kv` (a key and what follows). -/
inductive Path (F : Type)
  | leaf (t : Tok F)
  | kv (key : Tok F) (value : Path F)
  deriving DecidableEq, Repr

/-- The struct `kv`. -/
abbrev KV (F : Type) := Tok F × Path F

/-- `Decoder.decodeLine`. The result of the call `d.Token() // EOL` is dropped
by the code; it cannot be an error, since `More()` is false only in front of a
newline, where `Token` is `scanEOL`. -/
def decodeLine {F : Type} (L : FloatOps F) :
    Nat → Decoder → Option (Except DecodeError (Path F × Decoder))
  | 0, _ => none
  | fuel + 1, d =>
    match Token L d with
    | .error e => some (.error e)
    | .ok (v, d1) =>
      if !More d1 then
        match Token L d1 with
        | .ok (_, d2) => some (.ok (.leaf v, d2))
        | .error _ => some (.ok (.leaf v, d1))
      else
        match decodeLine L fuel d1 with
        | none => none
        | some (.error e) => some (.error e)
        | some (.ok (deeper, d2)) => some (.ok (.kv v deeper, d2))

/-- Equality of two tokens as keys of a `map[interface{}]interface{}`: the same
dynamic type and equal values. -/
def Tok.keyEq {F : Type} (L : FloatOps F) : Tok F → Tok F → Bool
  | .eol, .eol => true
  | .str a, .str b => a == b
  | .int a, .int b => a == b
  | .float a, .float b => L.eq a b
  | .bool a, .bool b => a == b
  | .null, .null => true
  | _, _ => false

/-- `m[k]` with the comma-ok form: the value stored under `k`, if any. -/
def mapGet {κ α : Type} (eq : κ → κ → Bool) : List (κ × α) → κ → Option α
  | [], _ => none
  | (k1, v) :: rest, k => if eq k1 k then some v else mapGet eq rest k

/-- `m[k] = v`. -/
def mapSet {κ α : Type} (eq : κ → κ → Bool) : List (κ × α) → κ → α → List (κ × α)
  | [], k, v => [(k, v)]
  | (k1, v1) :: rest, k, v =>
    if eq k1 k then (k1, v) :: rest else (k1, v1) :: mapSet eq rest k v

/-- What the map of `kvsToMap` holds under a key after its first loop: a token
(the leaf of a line) or a `[]kv`. -/
inductive Slot (F : Type)
  | value (t : Tok F)
  | kvs (l : List (KV F))
  deriving DecidableEq, Repr

/-- What `kvsToMap` and `decodeToMapOrV` return: a token, or a
`map[interface{}]interface{}` of such values. -/
inductive RawVal (F : Type)
  | tok (t : Tok F)
  | map (m : List (Tok F × RawVal F))
  deriving Repr

/-- The generic value tree, the result of `decode`: a token, a
`map[string]interface{}` or a `[]interface{}`. -/
inductive Tree (F : Type)
  | leaf (t : Tok F)
  | mapping (m : List (Str × Tree F))
  | seq (l : List (Tree F))
  deriving Repr

instance {F : Type} : Inhabited (Tok F) := ⟨.null⟩

instance {F : Type} : Inhabited (RawVal F) := ⟨.tok .null⟩

instance {F : Type} : Inhabited (Tree F) := ⟨.leaf .null⟩

/-- One step of the first loop of `kvsToMap`; `none` is `panic("not kvs")`. -/
def kvsInsert {F : Type} (L : FloatOps F) (m : List (Tok F × Slot F)) (s : KV F) :
    Option (List (Tok F × Slot F)) :=
  match s.2 with
  | .kv k v =>
    match mapGet (Tok.keyEq L) m s.1 with
    | some (.kvs skvs) => some (mapSet (Tok.keyEq L) m s.1 (.kvs (skvs ++ [(k, v)])))
    | some (.value _) => none
    | none => some (mapSet (Tok.keyEq L) m s.1 (.kvs [(k, v)]))
  | .leaf t => some (mapSet (Tok.keyEq L) m s.1 (.value t))

/-- The first loop of `kvsToMap`, `for _, s := range kvs`, from the map `m`. -/
def kvsInsertAll {F : Type} (L : FloatOps F) :
    List (KV F) → List (Tok F × Slot F) → Option (List (Tok F × Slot F))
  | [], m => some m
  | s :: rest, m =>
    match kvsInsert L m s with
    | none => none
    | some m1 => kvsInsertAll L rest m1

/-- The second loop of `kvsToMap`, `for k, v := range m`, where `rec` is the
recursive call of `kvsToMap`. -/
def kvsResolve {F : Type} (rec : List (KV F) → Option (Result (List (Tok F × RawVal F)))) :
    List (Tok F × Slot F) → Option (Result (List (Tok F × RawVal F)))
  | [] => some (.ok [])
  | (k, .value t) :: rest =>
    match kvsResolve rec rest with
    | some (.ok r) => some (.ok ((k, .tok t) :: r))
    | other => other
  | (k, .kvs l) :: rest =>
    match rec l with
    | none => none
    | some (.error e) => some (.error e)
    | some (.panic msg) => some (.panic msg)
    | some (.ok mm) =>
      match kvsResolve rec rest with
      | some (.ok r) => some (.ok ((k, .map mm) :: r))
      | other => other

/-- `Decoder.kvsToMap`. -/
def kvsToMap {F : Type} (L : FloatOps F) :
    Nat → List (KV F) → Option (Result (List (Tok F × RawVal F)))
  | 0, _ => none
  | fuel + 1, kvs =>
    match kvsInsertAll L kvs [] with
    | none => some (.panic "not kvs")
    | some m => kvsResolve (kvsToMap L fuel) m

/-- The second loop of `decodeToMapOrV`, `for _, path := range paths`, where
`len` is `len(paths)`: the `[]kv` collected, or the bare token returned. -/
def collectKvs {F : Type} (len : Nat) :
    List (Path F) → List (KV F) → Except DecodeError (Tok F ⊕ List (KV F))
  | [], kvs => .ok (.inr kvs)
  | .kv k v :: rest, kvs => collectKvs len rest (kvs ++ [(k, v)])
  | .leaf t :: _, _ => if len > 1 then .error .invalidMap else .ok (.inl t)

/-- The first loop of `decodeToMapOrV`:
`for ; d.s.Peek() != scanner.EOF && n != 0; n--`. -/
def decodeLines {F : Type} (L : FloatOps F) :
    Nat → Int → Decoder → Option (Except DecodeError (List (Path F) × Decoder))
  | 0, _, _ => none
  | fuel + 1, n, d =>
    if Peek d.s ≠ none ∧ n ≠ 0 then
      match decodeLine L fuel { d with s := skipBrank d.s } with
      | none => none
      | some (.error e) => some (.error e)
      | some (.ok (path, d1)) =>
        match decodeLines L fuel (n - 1) d1 with
        | none => none
        | some (.error e) => some (.error e)
        | some (.ok (paths, d2)) => some (.ok (path :: paths, d2))
    else some (.ok ([], d))

/-- `Decoder.decodeToMapOrV`. -/
def decodeToMapOrV {F : Type} (L : FloatOps F) (fuel : Nat) (n : Int) (d : Decoder) :
    Option (Result (RawVal F × Decoder)) :=
  match decodeLines L fuel n d with
  | none => none
  | some (.error e) => some (.error e)
  | some (.ok (paths, d1)) =>
    match collectKvs paths.length paths [] with
    | .error e => some (.error e)
    | .ok (.inl t) => some (.ok (.tok t, d1))
    | .ok (.inr kvs) =>
      match kvsToMap L fuel kvs with
      | none => none
      | some (.error e) => some (.error e)
      | some (.panic msg) => some (.panic msg)
      | some (.ok m) => some (.ok (.map m, d1))

/-- `Decoder.tryMakeKeyString`, from the map `r` built so far. -/
def tryMakeKeyString {F : Type} :
    List (Tok F × RawVal F) → List (Str × RawVal F) → Option (List (Str × RawVal F))
  | [], r => some r
  | (.str sk, v) :: rest, r => tryMakeKeyString rest (mapSet (fun a b => a == b) r sk v)
  | _ :: _, _ => none

/-- The first loop of `tryCvtSlice`: the keys, when all of them are `int64`. -/
def intKeys {F α : Type} : List (Tok F × α) → Option (List Int)
  | [] => some []
  | (.int ik, _) :: rest =>
    match intKeys rest with
    | some keys => some (ik :: keys)
    | none => none
  | _ :: _ => none

/-- `Decoder.tryCvtSlice`: the keys sorted ascending, then `m[k]` for each. -/
def tryCvtSlice {F : Type} (L : FloatOps F) (m : List (Tok F × RawVal F)) :
    Option (List (RawVal F)) :=
  match intKeys m with
  | none => none
  | some keys =>
    some ((keys.insertionSort (fun a b => a ≤ b)).map
      (fun k => (mapGet (Tok.keyEq L) m (.int k)).getD (.tok .null)))

/-- The loop `for k, vv := range sm` of `makeKeyStringOrCvtSlice`, where `rec`
is the recursive call. -/
def normEntries {F : Type} (rec : RawVal F → Option (Except DecodeError (Tree F))) :
    List (Str × RawVal F) → Option (Except DecodeError (List (Str × Tree F)))
  | [] => some (.ok [])
  | (k, vv) :: rest =>
    match rec vv with
    | none => none
    | some (.error e) => some (.error e)
    | some (.ok nv) =>
      match normEntries rec rest with
      | some (.ok r) => some (.ok ((k, nv) :: r))
      | other => other

/-- The loop `for i, vv := range sl` of `makeKeyStringOrCvtSlice`. -/
def normItems {F : Type} (rec : RawVal F → Option (Except DecodeError (Tree F))) :
    List (RawVal F) → Option (Except DecodeError (List (Tree F)))
  | [] => some (.ok [])
  | vv :: rest =>
    match rec vv with
    | none => none
    | some (.error e) => some (.error e)
    | some (.ok nv) =>
      match normItems rec rest with
      | some (.ok r) => some (.ok (nv :: r))
      | other => other

/-- `Decoder.makeKeyStringOrCvtSlice`. -/
def makeKeyStringOrCvtSlice {F : Type} (L : FloatOps F) :
    Nat → RawVal F → Option (Except DecodeError (Tree F))
  | 0, _ => none
  | _ + 1, .tok t => some (.ok (.leaf t))
  | fuel + 1, .map m =>
    match tryMakeKeyString m [] with
    | some sm =>
      match normEntries (makeKeyStringOrCvtSlice L fuel) sm with
      | none => none
      | some (.error e) => some (.error e)
      | some (.ok r) => some (.ok (.mapping r))
    | none =>
      match tryCvtSlice L m with
      | some sl =>
        match normItems (makeKeyStringOrCvtSlice L fuel) sl with
        | none => none
        | some (.error e) => some (.error e)
        | some (.ok r) => some (.ok (.seq r))
      | none => some (.error .invalidMap)

/-- `Decoder.decode`: the tree and the decoder after the call. -/
def decode {F : Type} (L : FloatOps F) (fuel : Nat) (n : Int) (d : Decoder) :
    Option (Result (Tree F × Decoder)) :=
  match decodeToMapOrV L fuel n d with
  | none => none
  | some (.error e) => some (.error e)
  | some (.panic msg) => some (.panic msg)
  | some (.ok (v, d1)) =>
    match makeKeyStringOrCvtSlice L fuel v with
    | none => none
    | some (.error e) => some (.error e)
    | some (.ok t) => some (.ok (t, d1))

/-- A fragment of the float64 library for closed examples: it knows the values
0 to 999999 written as a run of digits, which `strconv.ParseFloat` reads and
`%v` writes exactly so; on every other text it answers as a failed parse. -/
def digitFloats : FloatOps Nat where
  ParseFloat := fun s =>
    if s ≠ [] ∧ s.all Char.isDigit ∧ digitsVal s < 1000000 then some (digitsVal s) else none
  FormatFloat := fun n => (Nat.repr n).toList
  eq := fun a b => a == b

/-- A `reflect.Value`, by kind. `invalid` is the zero Value (`reflect.ValueOf(nil)`,
`Elem()` of a nil pointer or interface, `MapIndex` of a key that is not found);
`ptr none` and `iface none` are the nil pointer and the nil interface; a map is
the list of its keys in the order of `MapKeys()`, each with `MapIndex(key)`; a
struct is the list of its fields in declaration order, each with its name;
`float` carries `rv.Float()`; `int` stands for the signed integer kinds and
`other` for every remaining kind (unsigned integers, complex numbers, arrays,
channels, functions, unsafe pointers). Values are finite trees: there is no
cyclic value. -/
inductive GoVal (F : Type)
  | invalid
  | ptr (elem : Option (GoVal F))
  | iface (elem : Option (GoVal F))
  | slice (items : List (GoVal F))
  | map (entries : List (GoVal F × GoVal F))
  | struct (fields : List (Str × GoVal F))
  | string (s : Str)
  | bool (b : Bool)
  | float (f : F)
  | int (n : Int)
  | other
  deriving Repr

instance {F : Type} : Inhabited (GoVal F) := ⟨.invalid⟩

/-- The errors that `toRows` returns: "unsupported type %t as key of map" and
"unsupported type %#+v: %v". -/
inductive EncodeError
  | unsupportedKey
  | unsupportedType
  deriving DecidableEq, Repr

/-- `strings.Replace(s, old, new, -1)` for a one-character `old`. -/
def Replace (s : Str) (old : Char) (new : Str) : Str :=
  match s with
  | [] => []
  | c :: cs => if c = old then new ++ Replace cs old new else c :: Replace cs old new

/-- `escape`. -/
def escape (s : Str) : Str :=
  if s.length = 0 then "<>".toList
  else
    let s1 := Replace s '\\' "\\\\".toList
    let s2 := Replace s1 ' ' "\\ ".toList
    let s3 := Replace s2 '\n' "\\n".toList
    if s3.head? = some '<' ∨ s3.head? = some '#' then '\\' :: s3 else s3

/-- `notatePrim`; `none` is the result `("", false)`. -/
def notatePrim {F : Type} (L : FloatOps F) : GoVal F → Option Str
  | .ptr none => some "<null>".toList
  | .ptr (some v) => notatePrim L v
  | .string s => some (escape s)
  | .bool b => some ("<".toList ++ (if b then "true".toList else "false".toList) ++ ">".toList)
  | .float f => some ("<".toList ++ L.FormatFloat f ++ ">".toList)
  | _ => none

/-- `prefixSl`. -/
def prefixSl (p : Str) (ss : List (List Str)) : List (List Str) :=
  ss.map (fun s => p :: s)

/-- `fmt.Sprintf("#%d", i)` for an index `i`. -/
def indexToken (i : Nat) : Str := '#' :: Nat.toDigits 10 i

/-- The `default` case of `toRows`. -/
def primRows {F : Type} (L : FloatOps F) (rv : GoVal F) :
    Except EncodeError (List (List Str)) :=
  match notatePrim L rv with
  | some nt => .ok [[nt]]
  | none => .error .unsupportedType

mutual
/-- `toRows`. For a nil pointer or interface `rv.Elem()` is the zero Value, on
which `toRows` takes its `default` case. -/
def toRows {F : Type} (L : FloatOps F) : GoVal F → Except EncodeError (List (List Str))
  | .ptr (some v) => toRows L v
  | .ptr none => primRows L .invalid
  | .iface (some v) => toRows L v
  | .iface none => primRows L .invalid
  | .slice items => toRowsSlice L 0 items
  | .map entries => toRowsMap L entries
  | .struct fields => toRowsStruct L fields
  | .invalid => primRows L .invalid
  | .string s => primRows L (.string s)
  | .bool b => primRows L (.bool b)
  | .float f => primRows L (.float f)
  | .int n => primRows L (.int n)
  | .other => primRows L .other
/-- The loop of the case `reflect.Slice`, from index `i`. -/
def toRowsSlice {F : Type} (L : FloatOps F) :
    Nat → List (GoVal F) → Except EncodeError (List (List Str))
  | _, [] => .ok []
  | i, item :: rest =>
    match toRows L item with
    | .error e => .error e
    | .ok prows =>
      match toRowsSlice L (i + 1) rest with
      | .error e => .error e
      | .ok ret => .ok (prefixSl (indexToken i) prows ++ ret)
/-- The loop of the case `reflect.Map`. -/
def toRowsMap {F : Type} (L : FloatOps F) :
    List (GoVal F × GoVal F) → Except EncodeError (List (List Str))
  | [] => .ok []
  | (key, item) :: rest =>
    match notatePrim L key with
    | none => .error .unsupportedKey
    | some skey =>
      match toRows L item with
      | .error e => .error e
      | .ok prows =>
        match toRowsMap L rest with
        | .error e => .error e
        | .ok ret => .ok (prefixSl (escape skey) prows ++ ret)
/-- The loop of the case `reflect.Struct`. -/
def toRowsStruct {F : Type} (L : FloatOps F) :
    List (Str × GoVal F) → Except EncodeError (List (List Str))
  | [] => .ok []
  | (key, item) :: rest =>
    match toRows L item with
    | .error e => .error e
    | .ok prows =>
      match toRowsStruct L rest with
      | .error e => .error e
      | .ok ret => .ok (prefixSl (escape key) prows ++ ret)
end

/-- `len(s)` of a Go string: the number of bytes of its UTF-8 encoding. -/
def strLen (s : Str) : Nat := (s.map Char.utf8Size).sum

/-- The struct `strWithWidth`. -/
structure strWithWidth where
  s : Str
  w : Nat
  deriving DecidableEq, Repr

/-- `rows[i][0]`. -/
def col0 (row : List Str) : Str := row.headD []

/-- The second loop of `toStrWithWidthNotTable`, `for i := 0; i < len(rows); `:
`colv` is the first column of the run being read and `subRows` the rows of the
run read so far, without their first column; `rec` is the recursive call. When
the run ends, its rows are emitted behind `colv` with the width `width`. -/
def groupRuns (rec : List (List Str) → List (List strWithWidth)) (width : Nat)
    (colv : Str) (subRows : List (List Str)) : List (List Str) → List (List strWithWidth)
  | [] => (rec subRows).map (fun subret => { s := colv, w := width } :: subret)
  | row :: rest =>
    if col0 row ≠ colv then
      (rec subRows).map (fun subret => { s := colv, w := width } :: subret)
        ++ groupRuns rec width (col0 row) [row.tail] rest
    else groupRuns rec width colv (subRows ++ [row.tail]) rest

/-- `maxInt`. -/
def maxInt (a b : Nat) : Nat := if a > b then a else b

/-- `toStrWithWidthNotTable`, with the depth of the recursion bounded by
`fuel`. -/
def toStrWithWidthNotTableAux : Nat → List (List Str) → List (List strWithWidth)
  | 0, rows => rows.map (fun _ => [])
  | fuel + 1, rows =>
    if rows.any (fun row => row.length == 0) then rows.map (fun _ => [])
    else
      match rows with
      | [] => []
      | row :: rest =>
        groupRuns (toStrWithWidthNotTableAux fuel)
          (rows.foldl (fun width r => maxInt width (strLen (col0 r))) 0)
          (col0 row) [row.tail] rest

/-- Length of the longest row. -/
def maxRowLen (rows : List (List Str)) : Nat := (rows.map List.length).foldr max 0

/-- `toStrWithWidthNotTable`. The recursion is on rows that are one column
shorter, so its depth is at most the length of the longest row. -/
def toStrWithWidthNotTable (rows : List (List Str)) : List (List strWithWidth) :=
  toStrWithWidthNotTableAux (maxRowLen rows + 1) rows

/-- `createMargin`. -/
def createMargin (n : Nat) : Str := List.replicate n ' '

/-- `putMargin`; `width - len(orig)` below zero gives no margin. -/
def putMargin (orig : Str) (width : Nat) : Str := orig ++ createMargin (width - strLen orig)

/-- `Encoder`: `w` is what has been written to the sink so far. -/
structure Encoder where
  w : Str
  hasPadding : Bool
  deriving DecidableEq, Repr

/-- `Encoder.SetJustifyColumn`. -/
def SetJustifyColumn (e : Encoder) (b : Bool) : Encoder := { e with hasPadding := b }

/-- The inner loop of `Encode`, `for ic, col := range row`, from column `ic`:
the text written for the columns. -/
def writeCols (hasPadding : Bool) : Nat → List strWithWidth → Str
  | _, [] => []
  | ic, col :: rest =>
    (if ic > 0 then " ".toList else [])
      ++ (if hasPadding then putMargin col.s col.w else col.s)
      ++ writeCols hasPadding (ic + 1) rest

/-- The outer loop of `Encode`, `for _, row := range sw`: the text written. -/
def writeRows (hasPadding : Bool) : List (List strWithWidth) → Str
  | [] => []
  | row :: rest => writeCols hasPadding 0 row ++ "\n".toList ++ writeRows hasPadding rest

/-- `Encoder.Encode` on `reflect.ValueOf(v)`: the encoder afterwards and the
error returned, if any. -/
def Encode {F : Type} (L : FloatOps F) (e : Encoder) (rv : GoVal F) :
    Encoder × Option EncodeError :=
  match toRows L rv with
  | .error err => (e, some err)
  | .ok rows =>
    ({ e with w := e.w ++ writeRows e.hasPadding (toStrWithWidthNotTable rows) }, none)

/-- `NewEncoder` on an empty sink. -/
def NewEncoder : Encoder := { w := [], hasPadding := false }

/-- The text of a token in a document: the escaped string, `#` and the decimal
index, or the bracketed primitive. -/
def Tok.render {F : Type} (L : FloatOps F) : Tok F → Str
  | .eol => ['\n']
  | .str s => escape s
  | .int i => indexToken i.toNat
  | .float f => '<' :: (L.FormatFloat f ++ ['>'])
  | .bool b => if b then "<true>".toList else "<false>".toList
  | .null => "<null>".toList

/-- A token that can be written with `Tok.render`: any string, boolean or
null, an index that is a non-negative int64, and a float whose `%v` text is a
non-empty run of number characters that `strconv.ParseFloat` reads back. -/
def Tok.canon {F : Type} (L : FloatOps F) : Tok F → Prop
  | .eol => False
  | .str _ => True
  | .int i => 0 ≤ i ∧ i < 2 ^ 63
  | .float f => L.FormatFloat f ≠ [] ∧ (∀ c ∈ L.FormatFloat f, isNumChar (some c) = true) ∧
      L.ParseFloat (L.FormatFloat f) = some f
  | .bool _ => True
  | .null => True

/-- One line of a document: the keys of the path and the leaf. -/
structure Line (F : Type) where
  keys : List (Tok F)
  leaf : Tok F

/-- The text of a line: every key followed by one blank, the leaf, a newline. -/
def Line.text {F : Type} (L : FloatOps F) (l : Line F) : Str :=
  l.keys.flatMap (fun k => k.render L ++ [' ']) ++ (l.leaf.render L ++ ['\n'])

/-- The text of a document: its lines one after the other. -/
def docText {F : Type} (L : FloatOps F) (lines : List (Line F)) : Str :=
  lines.flatMap (Line.text L)

/-- The chain that a line stands for: `kv{k1, kv{k2, ... leaf}}`. -/
def Line.path {F : Type} (l : Line F) : Path F :=
  l.keys.foldr Path.kv (.leaf l.leaf)

/-- Every token of the line can be written with `Tok.render`. -/
def Line.canon {F : Type} (L : FloatOps F) (l : Line F) : Prop :=
  (∀ k ∈ l.keys, k.canon L) ∧ l.leaf.canon L

/-- A scanner stands at the start of a line or at the end of the source: the
next rune is neither a blank nor a newline. -/
def lineStart (rest : List Char) : Prop :=
  rest.head? ≠ some ' ' ∧ rest.head? ≠ some '\n'

/-- What `escape` writes for one character of a non-empty string. -/
def escChar (c : Char) : Str :=
  if c = '\\' then ['\\', '\\'] else if c = ' ' then ['\\', ' ']
  else if c = '\n' then ['\\', 'n'] else [c]

mutual
/-- `reflect.ValueOf(x)` for a generic value tree `x`, whose mappings are
`map[string]interface{}` and whose sequences are `[]interface{}`. -/
def Tree.reflect {F : Type} : Tree F → GoVal F
  | .leaf .eol => .int 10
  | .leaf (.str s) => .string s
  | .leaf (.int i) => .int i
  | .leaf (.float f) => .float f
  | .leaf (.bool b) => .bool b
  | .leaf .null => .invalid
  | .mapping m => .map (reflectEntries m)
  | .seq l => .slice (reflectItems l)
/-- A value held in an `interface{}` slot of a map or slice: of kind Interface,
nil for the null value. -/
def Tree.reflectElem {F : Type} : Tree F → GoVal F
  | .leaf .null => .iface none
  | .leaf .eol => .iface (some (.int 10))
  | .leaf (.str s) => .iface (some (.string s))
  | .leaf (.int i) => .iface (some (.int i))
  | .leaf (.float f) => .iface (some (.float f))
  | .leaf (.bool b) => .iface (some (.bool b))
  | .mapping m => .iface (some (.map (reflectEntries m)))
  | .seq l => .iface (some (.slice (reflectItems l)))
/-- The entries of a `map[string]interface{}`. -/
def reflectEntries {F : Type} : List (Str × Tree F) → List (GoVal F × GoVal F)
  | [] => []
  | (k, v) :: rest => (.string k, Tree.reflectElem v) :: reflectEntries rest
/-- The items of a `[]interface{}`. -/
def reflectItems {F : Type} : List (Tree F) → List (GoVal F)
  | [] => []
  | v :: rest => Tree.reflectElem v :: reflectItems rest
end

mutual
/-- Number of primitive leaves (strings, booleans, floats) of a value. -/
def leafCount {F : Type} : GoVal F → Nat
  | .ptr (some v) => leafCount v
  | .iface (some v) => leafCount v
  | .slice items => leafCountItems items
  | .map entries => leafCountEntries entries
  | .struct fields => leafCountFields fields
  | .string _ => 1
  | .bool _ => 1
  | .float _ => 1
  | _ => 0
/-- Leaves of the items of a slice. -/
def leafCountItems {F : Type} : List (GoVal F) → Nat
  | [] => 0
  | item :: rest => leafCount item + leafCountItems rest
/-- Leaves of the values of a map. -/
def leafCountEntries {F : Type} : List (GoVal F × GoVal F) → Nat
  | [] => 0
  | (_, item) :: rest => leafCount item + leafCountEntries rest
/-- Leaves of the fields of a struct. -/
def leafCountFields {F : Type} : List (Str × GoVal F) → Nat
  | [] => 0
  | (_, item) :: rest => leafCount item + leafCountFields rest
end

/-- The line of a row: its tokens joined by single blanks, and a newline. -/
def rowText (row : List Str) : Str := List.intercalate [' '] row ++ ['\n']

/-- The lines of the rows, in order. -/
def rowsText (rows : List (List Str)) : Str := rows.flatMap rowText

/-- No row is a proper prefix of another row. -/
def prefixFree {α : Type} (rows : List (List α)) : Prop :=
  ∀ r1 ∈ rows, ∀ r2 ∈ rows, r1 <+: r2 → r1 = r2

/-- The tokens of aligned rows, without the widths. -/
def stripWidths (sw : List (List strWithWidth)) : List (List Str) :=
  sw.map (fun row => row.map (fun col => col.s))

/-- A token that is a string or an index, the two kinds of key of a valid
document. -/
def Tok.isKey {F : Type} : Tok F → Bool
  | .str _ => true
  | .int _ => true
  | _ => false

/-- The keys of a chain, from the outermost. -/
def Path.keys {F : Type} : Path F → List (Tok F)
  | .leaf _ => []
  | .kv k v => k :: v.keys

/-- The leaf at the end of a chain. -/
def Path.leafTok {F : Type} : Path F → Tok F
  | .leaf t => t
  | .kv _ v => v.leafTok

/-- Number of keys of a chain. -/
def Path.depth {F : Type} : Path F → Nat
  | .leaf _ => 0
  | .kv _ v => v.depth + 1

/-- The keys of a `kv`: its key and the keys of its value. -/
def kvKeys {F : Type} (e : KV F) : List (Tok F) := e.1 :: e.2.keys

/-- `*kv` type assertion: the `kv` behind a path that is one. -/
def Path.asKV {F : Type} : Path F → Option (KV F)
  | .kv k v => some (k, v)
  | .leaf _ => none

/-- A key is added behind the keys seen so far, unless it is among them. -/
def addKey {κ : Type} (eq : κ → κ → Bool) (acc : List κ) (k : κ) : List κ :=
  if acc.any (fun a => eq a k) then acc else acc ++ [k]

/-- The different keys of a list, in the order of their first occurrence. -/
def firstKeys {κ : Type} (eq : κ → κ → Bool) (ks : List κ) : List κ :=
  ks.foldl (addKey eq) []

/-- The values of the `kv`s with key `k`, in order. -/
def entriesOf {F : Type} (L : FloatOps F) (k : Tok F) (kvs : List (KV F)) : List (Path F) :=
  (kvs.filter (fun e => Tok.keyEq L e.1 k)).map Prod.snd

/-- What the first loop of `kvsToMap` leaves under the key `k` when the values
under `k` are all leaves or all chains: the last leaf, or the chains. -/
def slotFor {F : Type} (L : FloatOps F) (k : Tok F) (kvs : List (KV F)) : Slot F :=
  match (entriesOf L k kvs).getLast? with
  | some (.leaf t) => .value t
  | _ => .kvs ((entriesOf L k kvs).filterMap Path.asKV)

/-- The second loop of `kvsToMap` on one value, `r` being the map built for a
`[]kv`. -/
def resolveSlot {F : Type} (r : List (KV F) → List (Tok F × RawVal F)) : Slot F → RawVal F
  | .value t => .tok t
  | .kvs l => .map (r l)

/-- The map that `kvsToMap` builds when no line clashes with another: the keys
in the order of their first occurrence, each with its leaf or with the map of
the chains under it. -/
def build {F : Type} (L : FloatOps F) : Nat → List (KV F) → List (Tok F × RawVal F)
  | 0, _ => []
  | fuel + 1, kvs =>
    (firstKeys (Tok.keyEq L) (kvs.map Prod.fst)).map
      (fun k => (k, resolveSlot (build L fuel) (slotFor L k kvs)))

/-- Under every key the values are all leaves or all chains. -/
def levelOK {F : Type} (L : FloatOps F) (kvs : List (KV F)) : Prop :=
  ∀ k, (∀ p ∈ entriesOf L k kvs, ∃ t, p = .leaf t) ∨
    (∀ p ∈ entriesOf L k kvs, ∃ k1 v1, p = .kv k1 v1)

/-- No key path is a proper prefix of another key path. -/
def noClash {F : Type} (kvs : List (KV F)) : Prop :=
  ∀ a ∈ kvs, ∀ b ∈ kvs, kvKeys a <+: kvKeys b → kvKeys a = kvKeys b

/-- Every key, at every depth, is a string or an index. -/
def keysPlain {F : Type} (kvs : List (KV F)) : Prop :=
  ∀ e ∈ kvs, ∀ k ∈ kvKeys e, k.isKey = true

/-- The `kv` of a line that has a key. -/
def Line.toKV {F : Type} (l : Line F) : KV F :=
  (l.keys.headD .null, l.keys.tail.foldr Path.kv (.leaf l.leaf))

/-- The `[]kv` that `decodeToMapOrV` hands to `kvsToMap` for lines with keys. -/
def kvsOfLines {F : Type} (lines : List (Line F)) : List (KV F) := lines.map Line.toKV

/-- Length of the longest key path of the lines. -/
def maxKeys {F : Type} (lines : List (Line F)) : Nat :=
  (lines.map (fun l => l.keys.length)).foldr max 0

/-- The string of a string token (empty for another token). -/
def Tok.strOf {F : Type} : Tok F → Str
  | .str s => s
  | _ => []

/-- The index of an index token (zero for another token). -/
def Tok.intOf {F : Type} : Tok F → Int
  | .int i => i
  | _ => 0

/-- A call has returned, with a value or with the error "invalid map". -/
def Settled {α : Type} (x : Option (Except DecodeError α)) : Prop :=
  ∃ r, x = some r ∧ ∀ err, r = .error err → err = .invalidMap

/-- The chains under the key `k`. -/
def subKvs {F : Type} (L : FloatOps F) (k : Tok F) (kvs : List (KV F)) : List (KV F) :=
  (entriesOf L k kvs).filterMap Path.asKV

/-- Below the key path `p` there are a string key and an index key. -/
def mixedAt {F : Type} (p : List (Tok F)) (kvs : List (KV F)) : Prop :=
  ∃ a ∈ kvs, ∃ b ∈ kvs, ∃ s i ra rb,
    kvKeys a = p ++ Tok.str s :: ra ∧ kvKeys b = p ++ Tok.int i :: rb

/-- The line `#i v` of an index and a leaf. -/
def indexLine {F : Type} (e : Int × Tok F) : Line F := ⟨[.int e.1], e.2⟩

/-- The tree of a token that is a leaf of the grouped map. -/
def leafOf {F : Type} : RawVal F → Tree F
  | .tok t => .leaf t
  | .map _ => .leaf .null

/-- The line `k1 ... km v` of string keys and a string leaf. -/
def strLine {F : Type} (l : List Str × Str) : Line F := ⟨l.1.map Tok.str, .str l.2⟩

/-- Following the keys from a node of a tree: the node reached, if every key
is found in a mapping. -/
def Tree.get {F : Type} : List Str → Tree F → Option (Tree F)
  | [], t => some t
  | k :: ks, .mapping m => (mapGet (fun a b => a == b) m k).bind (Tree.get ks)
  | _ :: _, _ => none

mutual
/-- A leaf, or a non-empty mapping with different keys whose values are such
trees again: a tree without sequences and without empty mappings. -/
def Tree.nested {F : Type} : Tree F → Prop
  | .leaf _ => True
  | .mapping m => (m.map Prod.fst).Nodup ∧ m ≠ [] ∧ nestedEntries m
  | .seq _ => False
/-- The values of the entries are nested trees. -/
def nestedEntries {F : Type} : List (Str × Tree F) → Prop
  | [] => True
  | (_, v) :: rest => Tree.nested v ∧ nestedEntries rest
end

/-- The tree that `makeKeyStringOrCvtSlice` returns for a value, when it
returns one. -/
def normOr {F : Type} (L : FloatOps F) (fuel : Nat) (v : RawVal F) : Tree F :=
  match makeKeyStringOrCvtSlice L fuel v with
  | some (.ok t) => t
  | _ => .leaf .null

/-- Every key, at every depth, is a string. -/
def keysStr {F : Type} (kvs : List (KV F)) : Prop :=
  ∀ e ∈ kvs, ∀ k ∈ kvKeys e, ∃ s, k = Tok.str s

/-- Lines with the same key path have the same leaf. -/
def sameLeaf {F : Type} (kvs : List (KV F)) : Prop :=
  ∀ a ∈ kvs, ∀ b ∈ kvs, kvKeys a = kvKeys b → a.2.leafTok = b.2.leafTok

/-- A string without the characters that `escape` and the tokenizer treat
specially: backslash, blank, newline, `<` and `#`. -/
def reservedFree (s : Str) : Prop :=
  ∀ c ∈ s, c ≠ '\\' ∧ c ≠ ' ' ∧ c ≠ '\n' ∧ c ≠ '<' ∧ c ≠ '#'

/-- A leaf of a value that round-trips: a string free of reserved characters,
a boolean, or a float whose `%v` text is a non-empty run of number characters
that `strconv.ParseFloat` reads back (as is the case for a finite float64). -/
def leafOK {F : Type} (L : FloatOps F) : Tok F → Prop
  | .str s => reservedFree s
  | .bool _ => True
  | .float f => (Tok.float f).canon L
  | _ => False

mutual
/-- A value that round-trips: a leaf as in `leafOK`, a non-empty mapping with
different, non-empty keys free of reserved characters, or a non-empty
sequence (of fewer than 2^63 items, as every Go slice), of such values again. -/
def Tree.plain {F : Type} (L : FloatOps F) : Tree F → Prop
  | .leaf t => leafOK L t
  | .mapping m => m ≠ [] ∧ (m.map Prod.fst).Nodup ∧ plainEntries L m
  | .seq l => l ≠ [] ∧ l.length < 2 ^ 63 ∧ plainItems L l
/-- The entries of a mapping that round-trips. -/
def plainEntries {F : Type} (L : FloatOps F) : List (Str × Tree F) → Prop
  | [] => True
  | (k, v) :: rest => (k ≠ [] ∧ reservedFree k) ∧ Tree.plain L v ∧ plainEntries L rest
/-- The items of a sequence that round-trips. -/
def plainItems {F : Type} (L : FloatOps F) : List (Tree F) → Prop
  | [] => True
  | v :: rest => Tree.plain L v ∧ plainItems L rest
end

mutual
/-- Height of a tree: 0 for a leaf. -/
def Tree.height {F : Type} : Tree F → Nat
  | .leaf _ => 0
  | .mapping m => heightEntries m + 1
  | .seq l => heightItems l + 1
/-- Largest height of the values of the entries. -/
def heightEntries {F : Type} : List (Str × Tree F) → Nat
  | [] => 0
  | (_, v) :: rest => max (Tree.height v) (heightEntries rest)
/-- Largest height of the items. -/
def heightItems {F : Type} : List (Tree F) → Nat
  | [] => 0
  | v :: rest => max (Tree.height v) (heightItems rest)
end

/-- A line with one more key in front. -/
def Line.push {F : Type} (k : Tok F) (l : Line F) : Line F := ⟨k :: l.keys, l.leaf⟩

mutual
/-- The lines of a tree, one per leaf, in depth-first order: the keys are the
mapping keys and the sequence indices on the way to the leaf. -/
def Tree.lines {F : Type} : Tree F → List (Line F)
  | .leaf t => [⟨[], t⟩]
  | .mapping m => linesEntries m
  | .seq l => linesItems 0 l
/-- The lines of the entries of a mapping. -/
def linesEntries {F : Type} : List (Str × Tree F) → List (Line F)
  | [] => []
  | (k, v) :: rest => (Tree.lines v).map (Line.push (.str k)) ++ linesEntries rest
/-- The lines of the items of a sequence, from index `i`. -/
def linesItems {F : Type} : Nat → List (Tree F) → List (Line F)
  | _, [] => []
  | i, v :: rest => (Tree.lines v).map (Line.push (.int i)) ++ linesItems (i + 1) rest
end

/-- The children of a node, each with the key token under which it stands. -/
def Tree.groups {F : Type} : Tree F → List (Tok F × Tree F)
  | .leaf _ => []
  | .mapping m => m.map (fun e => (Tok.str e.1, e.2))
  | .seq l => (l.enumFrom 0).map (fun p => (Tok.int p.1, p.2))

/-- The tokens of the row of a line, as `toRows` writes them. -/
def Line.row {F : Type} (L : FloatOps F) (l : Line F) : List Str :=
  l.keys.map (Tok.render L) ++ [l.leaf.render L]

/-- What the grouped map holds for a child: its token, or the grouped map of
its lines. -/
def rawOf {F : Type} (L : FloatOps F) (fuel : Nat) : Tree F → RawVal F
  | .leaf t => .tok t
  | v => .map (build L fuel (kvsOfLines (Tree.lines v)))

/-- A scanner stands in front of the end of a token: at the end of the source,
at a blank or at a newline. -/
def atTokenEnd (rest : List Char) : Prop :=
  rest = [] ∨ rest.head? = some ' ' ∨ rest.head? = some '\n'

/-- `Decoder.Decode`, up to the generic value `orig` that it hands to
`mapdecode.Decode`. -/
def Decode {F : Type} (L : FloatOps F) (fuel : Nat) (d : Decoder) :
    Option (Result (Tree F × Decoder)) :=
  decode L fuel (-1) d

/-- `Decoder.DecodeNLines`, up to the generic value `orig` that it hands to
`mapdecode.Decode`. -/
def DecodeNLines {F : Type} (L : FloatOps F) (fuel : Nat) (n : Int) (d : Decoder) :
    Option (Result (Tree F × Decoder)) :=
  if n < 0 then some (.panic "negative n") else decode L fuel n d

/-- The outcome of `decode` with the tree, error or panic `r` and the decoder
`d`. -/
def outcome {F : Type} (r : Result (Tree F)) (d : Decoder) : Result (Tree F × Decoder) :=
  match r with
  | .ok t => .ok (t, d)
  | .error e => .error e
  | .panic msg => .panic msg

/-- What `decode` does with the paths that its first loop has read: the second
loop of `decodeToMapOrV`, `kvsToMap` and `makeKeyStringOrCvtSlice`. -/
def decodePaths {F : Type} (L : FloatOps F) (fuel : Nat) (paths : List (Path F)) :
    Option (Result (Tree F)) :=
  match collectKvs paths.length paths [] with
  | .error e => some (.error e)
  | .ok (.inl t) =>
    match makeKeyStringOrCvtSlice L fuel (.tok t) with
    | none => none
    | some (.error e) => some (.error e)
    | some (.ok v) => some (.ok v)
  | .ok (.inr kvs) =>
    match kvsToMap L fuel kvs with
    | none => none
    | some (.error e) => some (.error e)
    | some (.panic msg) => some (.panic msg)
    | some (.ok m) =>
      match makeKeyStringOrCvtSlice L fuel (.map m) with
      | none => none
      | some (.error e) => some (.error e)
      | some (.ok v) => some (.ok v)

/-- The rows are the root-to-leaf paths of a tree, in depth-first order: the
single row of a leaf token, or the rows of one or more groups with pairwise
different first tokens, the rest of the rows of each group being such rows
again. -/
inductive TreeRows : List (List Str) → Prop
  | leaf (t : Str) : TreeRows [[t]]
  | node (groups : List (Str × List (List Str))) :
      groups ≠ [] → (groups.map Prod.fst).Nodup → (∀ g ∈ groups, TreeRows g.2) →
      TreeRows (groups.flatMap (fun g => g.2.map (fun r => g.1 :: r)))

/-- The width of position `j` of the row `r`, in the words of the
specification: the largest length, measured by `len`, of the tokens at position
`j` among all rows that share the first `j` tokens with `r`. -/
def colWidth (len : Str → Nat) (rows : List (List Str)) (r : List Str) (j : Nat) : Nat :=
  ((rows.filter (fun r2 => decide (r2.take j = r.take j))).map
    (fun r2 => len (r2.getD j []))).foldr max 0

/-- A token padded on the right with blanks up to the width `w`. -/
def padTo (len : Str → Nat) (t : Str) (w : Nat) : Str := t ++ List.replicate (w - len t) ' '

/-- The tokens of the row `r` from position `j` on, as the specification
renders them with justify enabled: every token but the last padded to the width
of its position. -/
def alignedTokens (len : Str → Nat) (rows : List (List Str)) (r : List Str) :
    Nat → List Str → List Str
  | _, [] => []
  | _, [t] => [t]
  | j, t :: u :: rest =>
    padTo len t (colWidth len rows r j) :: alignedTokens len rows r (j + 1) (u :: rest)

/-- The line of the row `r` with justify enabled, in the words of the
specification: the aligned tokens joined by single blanks, and a newline. -/
def alignedLine (len : Str → Nat) (rows : List (List Str)) (r : List Str) : Str :=
  List.intercalate [' '] (alignedTokens len rows r 0 r) ++ ['\n']

/-- The text of the rows with justify enabled, in the words of the
specification. -/
def alignedText (len : Str → Nat) (rows : List (List Str)) : Str :=
  rows.flatMap (alignedLine len rows)

/-- The tokens of the row `r` from position `j` on, each with the width of its
position. -/
def annotFrom (rows : List (List Str)) (r : List Str) : Nat → List Str → List strWithWidth
  | _, [] => []
  | j, t :: rest => { s := t, w := colWidth strLen rows r j } :: annotFrom rows r (j + 1) rest

/-- The row `r` with the width of every position. -/
def annotate (rows : List (List Str)) (r : List Str) : List strWithWidth :=
  annotFrom rows r 0 r

/-- The byte-order mark U+FEFF. -/
def bom : Char := Char.ofNat 0xFEFF

/-- `scanner.Scanner.Init` and the first `Peek` or `Next` after it: the runes
that the scanner delivers for the source text `src`. The first `Peek` reads the
first character and, `if s.ch == '\uFEFF'`, reads the next one in its place;
`Next` starts with a `Peek`. -/
def scannerInit (src : Str) : List Char :=
  match src with
  | [] => []
  | c :: rest => if c = bom then rest else c :: rest

/-- `NewDecoder` on a reader that holds the text `src`. -/
def NewDecoder (src : Str) : Decoder := { s := scannerInit src, hasMore := false }

/-- The rests of the key paths that go on after the key `k`. -/
def subPaths {F : Type} (L : FloatOps F) (k : Tok F) (ctx : List (List (Tok F))) :
    List (List (Tok F)) :=
  ctx.filterMap (fun p =>
    match p with
    | k1 :: k2 :: rest => if Tok.keyEq L k1 k then some (k2 :: rest) else none
    | _ => none)

/-- The different indices with which the key paths begin, in ascending order. -/
def levelInts {F : Type} (L : FloatOps F) (ctx : List (List (Tok F))) : List Int :=
  ((firstKeys (Tok.keyEq L) (ctx.filterMap List.head?)).filterMap
    (fun k => match k with
      | .int i => some i
      | _ => none)).insertionSort (fun a b => a ≤ b)

/-- Following the keys of a line from a node of the tree, `ctx` being the key
paths of the lines below that node: a string key selects the entry of a
mapping, an index selects the item of a sequence at the position that the index
has among the different indices of the lines, in ascending order. -/
def Tree.follow {F : Type} (L : FloatOps F) :
    List (List (Tok F)) → List (Tok F) → Tree F → Option (Tree F)
  | _, [], t => some t
  | ctx, .str s :: ks, .mapping m =>
    (mapGet (fun a b => a == b) m s).bind (Tree.follow L (subPaths L (.str s) ctx) ks)
  | ctx, .int i :: ks, .seq l =>
    (l[(levelInts L ctx).indexOf i]?).bind (Tree.follow L (subPaths L (.int i) ctx) ks)
  | _, _ :: _, _ => none

/-- A fragment of the float64 library for closed examples: it knows positive
infinity alone, which `%v` writes as `+Inf` and which `strconv.ParseFloat`
reads from `+Inf`; on every other text it answers as a failed parse. -/
def infFloats : FloatOps Unit where
  ParseFloat := fun s => if s = "+Inf".toList then some () else none
  FormatFloat := fun _ => "+Inf".toList
  eq := fun _ _ => true

theorem Replace_append (a b : Str) (old : Char) (new : Str) :
    Replace (a ++ b) old new = Replace a old new ++ Replace b old new := by
  induction a with
  | nil => rfl
  | cons c cs ih =>
    by_cases h : c = old <;> simp [Replace, h, ih]

theorem Replace_all (s : Str) :
    Replace (Replace (Replace s '\\' "\\\\".toList) ' ' "\\ ".toList) '\n' "\\n".toList
      = s.flatMap escChar := by
  show Replace (Replace (Replace s '\\' ['\\', '\\']) ' ' ['\\', ' ']) '\n' ['\\', 'n']
      = s.flatMap escChar
  induction s with
  | nil => rfl
  | cons c cs ih =>
    by_cases h1 : c = '\\'
    · subst h1
      simp [Replace, Replace_append, ih, escChar]
    · by_cases h2 : c = ' '
      · subst h2
        simp [Replace, Replace_append, ih, escChar]
      · by_cases h3 : c = '\n'
        · subst h3
          simp [Replace, Replace_append, ih, escChar]
        · simp [Replace, h1, h2, h3, ih, escChar]

theorem escape_cons (c : Char) (cs : Str) :
    escape (c :: cs) =
      if c = '<' ∨ c = '#' then '\\' :: (c :: cs).flatMap escChar
      else (c :: cs).flatMap escChar := by
  have hh : ((c :: cs).flatMap escChar).head? = (escChar c).head? := by
    rw [List.flatMap_cons, List.head?_append]
    unfold escChar
    split_ifs <;> rfl
  have hc : ((escChar c).head? = some '<' ∨ (escChar c).head? = some '#') ↔
      (c = '<' ∨ c = '#') := by
    unfold escChar
    split_ifs with h1 h2 h3
    · subst h1; decide
    · subst h2; decide
    · subst h3; decide
    · simp
  unfold escape
  simp only [List.length_cons, Nat.succ_ne_zero, if_false, Replace_all, hh, hc]

theorem scanStr_blank (cs : List Char) : scanStr (' ' :: cs) = ([], ' ' :: cs) := by
  rw [scanStr.eq_def]; simp [isStrChar, isBrank]

theorem scanStr_newline (cs : List Char) : scanStr ('\n' :: cs) = ([], '\n' :: cs) := by
  rw [scanStr.eq_def]; simp [isStrChar, isBrank]

theorem scanStr_backslash (c2 : Char) (cs2 : List Char) :
    scanStr ('\\' :: c2 :: cs2) =
      ((if c2 = 'n' then '\n' else c2) :: (scanStr cs2).1, (scanStr cs2).2) := by
  rw [scanStr.eq_def]; simp [isStrChar, isBrank]

theorem scanStr_plain (c : Char) (cs : List Char) (h1 : c ≠ '\\') (h2 : c ≠ ' ')
    (h3 : c ≠ '\n') : scanStr (c :: cs) = (c :: (scanStr cs).1, (scanStr cs).2) := by
  rw [scanStr.eq_def]; simp [isStrChar, isBrank, h1, h2, h3]

theorem scanStr_flatMap (s rest : Str) :
    scanStr (s.flatMap escChar ++ rest) = (s ++ (scanStr rest).1, (scanStr rest).2) := by
  induction s with
  | nil => rfl
  | cons c cs ih =>
    rw [List.flatMap_cons, List.append_assoc]
    by_cases h1 : c = '\\'
    · subst h1
      simp [escChar, scanStr_backslash, ih]
    · by_cases h2 : c = ' '
      · subst h2
        simp [escChar, scanStr_backslash, ih]
      · by_cases h3 : c = '\n'
        · subst h3
          simp [escChar, scanStr_backslash, ih]
        · simp [escChar, h1, h2, h3, scanStr_plain, ih]

theorem scanStr_atTokenEnd (rest : List Char) (h : atTokenEnd rest) :
    scanStr rest = ([], rest) := by
  cases rest with
  | nil => rfl
  | cons c cs =>
    rcases h with h | h | h
    · cases h
    · simp only [List.head?_cons, Option.some.injEq] at h; subst h; exact scanStr_blank cs
    · simp only [List.head?_cons, Option.some.injEq] at h; subst h; exact scanStr_newline cs

theorem scanStr_escape (s rest : Str) (hs : s ≠ []) (h : atTokenEnd rest) :
    scanStr (escape s ++ rest) = (s, rest) := by
  cases s with
  | nil => exact absurd rfl hs
  | cons c cs =>
    rw [escape_cons]
    have key := scanStr_flatMap (c :: cs) rest
    rw [scanStr_atTokenEnd rest h] at key
    simp only [List.append_nil] at key
    split_ifs with hc
    · have hesc : escChar c = [c] := by
        rcases hc with hc | hc <;> subst hc <;> decide
      have hn : c ≠ 'n' := by
        rcases hc with hc | hc <;> subst hc <;> decide
      have h1 : c ≠ '\\' := by
        rcases hc with hc | hc <;> subst hc <;> decide
      have h2 : c ≠ ' ' := by
        rcases hc with hc | hc <;> subst hc <;> decide
      have h3 : c ≠ '\n' := by
        rcases hc with hc | hc <;> subst hc <;> decide
      rw [List.flatMap_cons, hesc] at key ⊢
      simp only [List.cons_append, List.nil_append] at key ⊢
      rw [scanStr_backslash, if_neg hn]
      rw [scanStr_plain c _ h1 h2 h3] at key
      exact key
    · exact key

theorem Peek_escape (s rest : Str) (hs : s ≠ []) :
    Peek (escape s ++ rest) ≠ some '<' ∧ Peek (escape s ++ rest) ≠ some '#' ∧
      Peek (escape s ++ rest) ≠ some '\n' ∧ Peek (escape s ++ rest) ≠ some ' ' ∧
      Peek (escape s ++ rest) ≠ none := by
  cases s with
  | nil => exact absurd rfl hs
  | cons c cs =>
    rw [escape_cons]
    split_ifs with hc
    · simp [Peek]
    · rw [List.flatMap_cons, List.append_assoc]
      simp only [not_or] at hc
      unfold escChar
      split_ifs with h1 h2 h3
      · simp [Peek]
      · simp [Peek]
      · simp [Peek]
      · simp [Peek, hc.1, hc.2, h2, h3]

/-! ## Reading back one token -/

theorem scanWhile_append (p : Option Char → Bool) (a rest : List Char)
    (ha : ∀ c ∈ a, p (some c) = true) (hr : rest = [] ∨ ∃ c cs, rest = c :: cs ∧ p (some c) = false) :
    scanWhile p (a ++ rest) = (a, rest) := by
  induction a with
  | nil =>
    rcases hr with hr | ⟨c, cs, hr, hp⟩
    · subst hr; rfl
    · subst hr; simp [scanWhile, hp]
  | cons x xs ih =>
    have hx : p (some x) = true := ha x (List.mem_cons_self _ _)
    have := ih (fun c hc => ha c (List.mem_cons_of_mem _ hc))
    simp [scanWhile, hx, this]

theorem digitChar_spec (k : Nat) (hk : k < 10) :
    (Nat.digitChar k).isDigit = true ∧ (Nat.digitChar k).toNat - 48 = k := by
  interval_cases k <;> decide

theorem digitsVal_append_single (D : Str) (d : Char) :
    digitsVal (D ++ [d]) = 10 * digitsVal D + (d.toNat - 48) := by
  simp [digitsVal, List.foldl_append]

theorem toDigitsCore_spec (fuel n : Nat) (ds : List Char) (h : n < fuel) :
    ∃ D, Nat.toDigitsCore 10 fuel n ds = D ++ ds ∧ D ≠ [] ∧
      (∀ c ∈ D, c.isDigit = true) ∧ digitsVal D = n := by
  induction fuel generalizing n ds with
  | zero => omega
  | succ fuel ih =>
    have hd := digitChar_spec (n % 10) (Nat.mod_lt _ (by norm_num))
    by_cases h0 : n / 10 = 0
    · refine ⟨[Nat.digitChar (n % 10)], ?_, by simp, ?_, ?_⟩
      · simp [Nat.toDigitsCore, h0]
      · intro c hc
        simp only [List.mem_singleton] at hc
        rw [hc]; exact hd.1
      · have : n % 10 = n := by omega
        show 10 * 0 + ((Nat.digitChar (n % 10)).toNat - 48) = n
        rw [hd.2]; omega
    · have hlt : n / 10 < fuel := by omega
      obtain ⟨D, hD, _, hall, hval⟩ := ih (n / 10) (Nat.digitChar (n % 10) :: ds) hlt
      refine ⟨D ++ [Nat.digitChar (n % 10)], ?_, by simp, ?_, ?_⟩
      · simp [Nat.toDigitsCore, h0, hD]
      · intro c hc
        rcases List.mem_append.1 hc with hc | hc
        · exact hall c hc
        · simp only [List.mem_singleton] at hc
          rw [hc]; exact hd.1
      · rw [digitsVal_append_single, hval, hd.2]; omega

theorem toDigits_spec (n : Nat) :
    Nat.toDigits 10 n ≠ [] ∧ (∀ c ∈ Nat.toDigits 10 n, c.isDigit = true) ∧
      digitsVal (Nat.toDigits 10 n) = n := by
  obtain ⟨D, hD, hne, hall, hval⟩ := toDigitsCore_spec (n + 1) n [] (Nat.lt_succ_self n)
  have : Nat.toDigits 10 n = D := by simp [Nat.toDigits, hD]
  rw [this]; exact ⟨hne, hall, hval⟩

theorem atTokenEnd_not (rest : List Char) (h : atTokenEnd rest) (p : Option Char → Bool)
    (h1 : p (some ' ') = false) (h2 : p (some '\n') = false) :
    rest = [] ∨ ∃ c cs, rest = c :: cs ∧ p (some c) = false := by
  cases rest with
  | nil => exact Or.inl rfl
  | cons c cs =>
    right
    rcases h with h | h | h
    · cases h
    · simp only [List.head?_cons, Option.some.injEq] at h; subst h; exact ⟨_, _, rfl, h1⟩
    · simp only [List.head?_cons, Option.some.injEq] at h; subst h; exact ⟨_, _, rfl, h2⟩

theorem Token_bracket {F : Type} (L : FloatOps F) (s : List Char) (hm : Bool) :
    Token L ⟨'<' :: s, hm⟩ =
      match scanBracket L ('<' :: s) with
      | .error e => .error e
      | .ok (v, s1) => .ok (v, ⟨skipBrank s1, !isEOLChar (Peek (skipBrank s1))⟩) := by
  simp [Token, Peek]

theorem scanBracket_float {F : Type} (L : FloatOps F) (f : F) (ht : (Tok.float f).canon L)
    (rest : List Char) :
    scanBracket L ('<' :: (L.FormatFloat f ++ '>' :: rest)) = .ok (.float f, rest) := by
  obtain ⟨hne, hall, hparse⟩ := ht
  have hsw : scanWhile isNumChar (L.FormatFloat f ++ '>' :: rest) =
      (L.FormatFloat f, '>' :: rest) :=
    scanWhile_append _ _ _ hall (Or.inr ⟨_, _, rfl, by decide⟩)
  obtain ⟨c, cs, hc⟩ := List.exists_cons_of_ne_nil hne
  have hc1 : isNumChar (some c) = true := hall c (by rw [hc]; exact List.mem_cons_self _ _)
  have hpk : Peek (L.FormatFloat f ++ '>' :: rest) = some c := by simp [hc, Peek]
  unfold scanBracket
  simp only [Next, List.tail_cons]
  rw [if_pos (by rw [hpk]; exact hc1)]
  simp [scanNum, hsw, hparse, Peek]

theorem scanBracket_true {F : Type} (L : FloatOps F) (rest : List Char) :
    scanBracket L ('<' :: 't' :: 'r' :: 'u' :: 'e' :: '>' :: rest) = .ok (.bool true, rest) := by
  have hsw : scanWhile isKwdChar (['t', 'r', 'u', 'e'] ++ '>' :: rest) =
      (['t', 'r', 'u', 'e'], '>' :: rest) :=
    scanWhile_append _ _ _ (by decide) (Or.inr ⟨_, _, rfl, by decide⟩)
  have h1 : isNumChar (some 't') = false := by decide
  have h2 : isKwdChar (some 't') = true := by decide
  simp only [List.cons_append, List.nil_append] at hsw
  simp [scanBracket, Next, Peek, h1, h2, scanKwd, hsw]

theorem scanBracket_false {F : Type} (L : FloatOps F) (rest : List Char) :
    scanBracket L ('<' :: 'f' :: 'a' :: 'l' :: 's' :: 'e' :: '>' :: rest) =
      .ok (.bool false, rest) := by
  have hsw : scanWhile isKwdChar (['f', 'a', 'l', 's', 'e'] ++ '>' :: rest) =
      (['f', 'a', 'l', 's', 'e'], '>' :: rest) :=
    scanWhile_append _ _ _ (by decide) (Or.inr ⟨_, _, rfl, by decide⟩)
  have h1 : isNumChar (some 'f') = false := by decide
  have h2 : isKwdChar (some 'f') = true := by decide
  simp only [List.cons_append, List.nil_append] at hsw
  simp [scanBracket, Next, Peek, h1, h2, scanKwd, hsw]

theorem scanBracket_null {F : Type} (L : FloatOps F) (rest : List Char) :
    scanBracket L ('<' :: 'n' :: 'u' :: 'l' :: 'l' :: '>' :: rest) = .ok (.null, rest) := by
  have hsw : scanWhile isKwdChar (['n', 'u', 'l', 'l'] ++ '>' :: rest) =
      (['n', 'u', 'l', 'l'], '>' :: rest) :=
    scanWhile_append _ _ _ (by decide) (Or.inr ⟨_, _, rfl, by decide⟩)
  have h1 : isNumChar (some 'n') = false := by decide
  have h2 : isKwdChar (some 'n') = true := by decide
  simp only [List.cons_append, List.nil_append] at hsw
  simp [scanBracket, Next, Peek, h1, h2, scanKwd, hsw]

/-- `Token` reads back a rendered token that is followed by a blank, a newline
or the end of the source, and skips the blanks behind it. -/
theorem Token_render {F : Type} (L : FloatOps F) (t : Tok F) (ht : t.canon L)
    (rest : List Char) (hr : atTokenEnd rest) (hm : Bool) :
    Token L ⟨t.render L ++ rest, hm⟩ =
      .ok (t, ⟨skipBrank rest, !isEOLChar (Peek (skipBrank rest))⟩) := by
  cases t with
  | eol => exact absurd ht (by simp [Tok.canon])
  | str s =>
    by_cases hs : s = []
    · subst hs
      rfl
    · obtain ⟨p1, p2, p3, _, _⟩ := Peek_escape s rest hs
      simp only [Token, Tok.render, p1, p2, p3, if_false, scanStr_escape s rest hs hr]
  | int i =>
    obtain ⟨hne, hall, hval⟩ := toDigits_spec i.toNat
    have hsw : scanWhile isIntChar (Nat.toDigits 10 i.toNat ++ rest) =
        (Nat.toDigits 10 i.toNat, rest) :=
      scanWhile_append _ _ _ (fun c hc => by simpa [isIntChar] using hall c hc)
        (atTokenEnd_not rest hr _ (by decide) (by decide))
    have hi : ((i.toNat : Nat) : Int) = i := Int.toNat_of_nonneg ht.1
    have hlt : i.toNat < 9223372036854775808 := by
      have := ht.2
      omega
    simp [Token, Tok.render, indexToken, Peek, scanArrIndex, Next, scanInt, hsw, ParseInt,
      hne, hval, hlt, hi]
  | float f =>
    show Token L ⟨'<' :: ((L.FormatFloat f ++ ['>']) ++ rest), hm⟩ = _
    rw [List.append_assoc, Token_bracket]
    simp only [List.singleton_append, scanBracket_float L f ht rest]
  | bool b =>
    cases b
    · show Token L ⟨'<' :: 'f' :: 'a' :: 'l' :: 's' :: 'e' :: '>' :: rest, hm⟩ = _
      rw [Token_bracket, scanBracket_false]
    · show Token L ⟨'<' :: 't' :: 'r' :: 'u' :: 'e' :: '>' :: rest, hm⟩ = _
      rw [Token_bracket, scanBracket_true]
  | null =>
    show Token L ⟨'<' :: 'n' :: 'u' :: 'l' :: 'l' :: '>' :: rest, hm⟩ = _
    rw [Token_bracket, scanBracket_null]

/-! ## Reading back one line and a whole document -/

theorem render_head {F : Type} (L : FloatOps F) (t : Tok F) (ht : t.canon L) :
    ∃ c cs, t.render L = c :: cs ∧ c ≠ ' ' ∧ c ≠ '\n' := by
  cases t with
  | eol => exact absurd ht (by simp [Tok.canon])
  | str s =>
    by_cases hs : s = []
    · subst hs
      exact ⟨'<', ['>'], rfl, by decide, by decide⟩
    · obtain ⟨_, _, p3, p4, p5⟩ := Peek_escape s [] hs
      simp only [List.append_nil, Tok.render] at p3 p4 p5 ⊢
      cases hE : escape s with
      | nil => simp [hE, Peek] at p5
      | cons c cs =>
        simp only [hE, Peek, List.head?_cons, ne_eq, Option.some.injEq] at p3 p4
        exact ⟨c, cs, rfl, p4, p3⟩
  | int i => exact ⟨'#', _, rfl, by decide, by decide⟩
  | float f => exact ⟨'<', _, rfl, by decide, by decide⟩
  | bool b => cases b <;> exact ⟨'<', _, rfl, by decide, by decide⟩
  | null => exact ⟨'<', _, rfl, by decide, by decide⟩

theorem lineStart_skipBrank (rest : List Char) (h : lineStart rest) : skipBrank rest = rest := by
  cases rest with
  | nil => rfl
  | cons c cs =>
    have : c ≠ ' ' := by simpa [lineStart] using h.1
    simp [skipBrank, isBrank, this]

theorem lineStart_isEOL (rest : List Char) (h : lineStart rest) :
    isEOLChar (Peek rest) = false := by
  cases rest with
  | nil => rfl
  | cons c cs =>
    have : c ≠ '\n' := by simpa [lineStart] using h.2
    simp [isEOLChar, Peek, this]

theorem lineStart_of_cons (c : Char) (cs : List Char) (h1 : c ≠ ' ') (h2 : c ≠ '\n') :
    lineStart (c :: cs) := by
  simp [lineStart, h1, h2]

theorem lineStart_render {F : Type} (L : FloatOps F) (t : Tok F) (ht : t.canon L)
    (rest : List Char) : lineStart (t.render L ++ rest) := by
  obtain ⟨c, cs, hc, h1, h2⟩ := render_head L t ht
  rw [hc]
  exact lineStart_of_cons c _ h1 h2

theorem lineStart_lineText {F : Type} (L : FloatOps F) (l : Line F) (hl : l.canon L)
    (rest : List Char) : lineStart (l.text L ++ rest) := by
  obtain ⟨keys, leaf⟩ := l
  cases keys with
  | nil =>
    simp only [Line.text, List.flatMap_nil, List.nil_append, List.append_assoc]
    exact lineStart_render L leaf hl.2 _
  | cons k ks =>
    simp only [Line.text, List.flatMap_cons, List.append_assoc]
    exact lineStart_render L k (hl.1 k (List.mem_cons_self _ _)) _

theorem lineStart_docText {F : Type} (L : FloatOps F) (lines : List (Line F))
    (hl : ∀ l ∈ lines, l.canon L) : lineStart (docText L lines) := by
  cases lines with
  | nil => simp [docText, lineStart]
  | cons l ls =>
    simp only [docText, List.flatMap_cons]
    exact lineStart_lineText L l (hl l (List.mem_cons_self _ _)) _

theorem Token_newline {F : Type} (L : FloatOps F) (rest : List Char) (h : lineStart rest)
    (hm : Bool) : Token L ⟨'\n' :: rest, hm⟩ = (.ok (.eol, ⟨rest, true⟩) : Except _ (Tok F × _)) := by
  have hsw : scanWhile isEOLChar ('\n' :: rest) = (['\n'], rest) := by
    have := scanWhile_append isEOLChar ['\n'] rest (by decide) (by
      cases rest with
      | nil => exact Or.inl rfl
      | cons c cs =>
        right
        have hc : c ≠ '\n' := by simpa [lineStart] using h.2
        exact ⟨c, cs, rfl, by simp [isEOLChar, hc]⟩)
    simpa using this
  simp [Token, Peek, scanEOL, isEOLChar, hsw, lineStart_skipBrank rest h]
  exact h.2

/-- `decodeLine` reads back one rendered line and stops behind its newline. -/
theorem decodeLine_text {F : Type} (L : FloatOps F) (keys : List (Tok F)) (leaf : Tok F)
    (hk : ∀ k ∈ keys, k.canon L) (hl : leaf.canon L) (rest : List Char) (hr : lineStart rest)
    (extra : Nat) (hm : Bool) :
    decodeLine L (keys.length + 1 + extra) ⟨Line.text L ⟨keys, leaf⟩ ++ rest, hm⟩ =
      some (.ok (Line.path ⟨keys, leaf⟩, ⟨rest, true⟩)) := by
  induction keys generalizing hm with
  | nil =>
    have h1 : Token L ⟨leaf.render L ++ ('\n' :: rest), hm⟩ = .ok (leaf, ⟨'\n' :: rest, false⟩) := by
      rw [Token_render L leaf hl ('\n' :: rest) (Or.inr (Or.inr rfl))]
      rfl
    simp only [Line.text, List.flatMap_nil, List.nil_append, List.append_assoc,
      List.singleton_append, List.length_nil, Nat.zero_add, Line.path, List.foldr_nil]
    rw [Nat.add_comm 1 extra, decodeLine, h1]
    simp [More, Token_newline L rest hr]
  | cons k ks ih =>
    have hks : ∀ k ∈ ks, k.canon L := fun x hx => hk x (List.mem_cons_of_mem _ hx)
    have hls : lineStart (Line.text L ⟨ks, leaf⟩ ++ rest) :=
      lineStart_lineText L ⟨ks, leaf⟩ ⟨hks, hl⟩ rest
    have h1 : Token L ⟨k.render L ++ (' ' :: (Line.text L ⟨ks, leaf⟩ ++ rest)), hm⟩ =
        .ok (k, ⟨Line.text L ⟨ks, leaf⟩ ++ rest, true⟩) := by
      rw [Token_render L k (hk k (List.mem_cons_self _ _)) (' ' :: (Line.text L ⟨ks, leaf⟩ ++ rest))
        (Or.inr (Or.inl rfl))]
      have : skipBrank (' ' :: (Line.text L ⟨ks, leaf⟩ ++ rest)) =
          Line.text L ⟨ks, leaf⟩ ++ rest := by
        simp [skipBrank, isBrank, lineStart_skipBrank _ hls]
      rw [this, lineStart_isEOL _ hls]
      rfl
    have htxt : Line.text L ⟨k :: ks, leaf⟩ ++ rest =
        k.render L ++ (' ' :: (Line.text L ⟨ks, leaf⟩ ++ rest)) := by
      simp [Line.text, List.append_assoc]
    have hfuel : (k :: ks).length + 1 + extra = (ks.length + 1 + extra) + 1 := by
      simp only [List.length_cons]; omega
    rw [htxt, hfuel, decodeLine, h1]
    simp only [More, Bool.not_true, Bool.false_eq_true, if_false]
    rw [ih hks true]
    rfl

theorem lineText_ne_nil {F : Type} (L : FloatOps F) (l : Line F) (rest : List Char) :
    l.text L ++ rest ≠ [] := by
  simp [Line.text]

/-- The first loop of `decodeToMapOrV` reads back the lines of a rendered
document, to its end. -/
theorem decodeLines_doc {F : Type} (L : FloatOps F) (lines : List (Line F))
    (hc : ∀ l ∈ lines, l.canon L) (M : Nat) (hM : ∀ l ∈ lines, l.keys.length ≤ M)
    (n : Int) (hn : n < 0 ∨ (lines.length : Int) ≤ n) (f : Nat)
    (hf : lines.length + M + 2 ≤ f) (hm : Bool) :
    decodeLines L f n ⟨docText L lines, hm⟩ =
      some (.ok (lines.map Line.path, ⟨[], lines.isEmpty && hm || !lines.isEmpty⟩)) := by
  induction lines generalizing f n hm with
  | nil =>
    obtain ⟨f1, rfl⟩ : ∃ f1, f = f1 + 1 := ⟨f - 1, by omega⟩
    simp [decodeLines, docText, Peek]
  | cons l ls ih =>
    obtain ⟨f1, rfl⟩ : ∃ f1, f = f1 + 1 := ⟨f - 1, by omega⟩
    have hcl : l.canon L := hc l (List.mem_cons_self _ _)
    have hcs : ∀ x ∈ ls, x.canon L := fun x hx => hc x (List.mem_cons_of_mem _ hx)
    have hMl : l.keys.length ≤ M := hM l (List.mem_cons_self _ _)
    have hMs : ∀ x ∈ ls, x.keys.length ≤ M := fun x hx => hM x (List.mem_cons_of_mem _ hx)
    have hdoc : docText L (l :: ls) = l.text L ++ docText L ls := by
      simp [docText]
    have hpk : Peek (docText L (l :: ls)) ≠ none := by
      rw [hdoc]
      cases h : l.text L ++ docText L ls with
      | nil => exact absurd h (lineText_ne_nil L l _)
      | cons c cs => simp [Peek]
    have hn0 : n ≠ 0 := by
      rcases hn with hn | hn
      · omega
      · simp only [List.length_cons] at hn
        push_cast at hn
        omega
    have hsk : skipBrank (docText L (l :: ls)) = l.text L ++ docText L ls := by
      rw [lineStart_skipBrank _ (lineStart_docText L (l :: ls) hc), hdoc]
    simp only [List.length_cons] at hf
    obtain ⟨extra, hextra⟩ : ∃ extra, f1 = l.keys.length + 1 + extra :=
      ⟨f1 - (l.keys.length + 1), by omega⟩
    have hline := decodeLine_text L l.keys l.leaf hcl.1 hcl.2 (docText L ls)
      (lineStart_docText L ls hcs) extra hm
    rw [← hextra] at hline
    have hrest := ih hcs hMs (n - 1) (by
      rcases hn with hn | hn
      · left; omega
      · right
        simp only [List.length_cons] at hn
        push_cast at hn
        omega) f1 (by omega) true
    rw [decodeLines]
    simp only [hpk, hn0, ne_eq, not_false_eq_true, and_self, if_true, hsk]
    rw [hline]
    simp only [hrest]
    simp

/-! ## Maps as lists of entries -/

theorem keyEq_iff {F : Type} (L : FloatOps F) (a b : Tok F) (ha : a.isKey = true) :
    Tok.keyEq L a b = true ↔ a = b := by
  cases a <;> cases b <;> simp_all [Tok.keyEq, Tok.isKey]

theorem any_eq_iff_mem {κ : Type} (eq : κ → κ → Bool) (P : κ → Prop)
    (hl : ∀ a b, P a → (eq a b = true ↔ a = b)) (acc : List κ) (hacc : ∀ a ∈ acc, P a)
    (k : κ) : acc.any (fun a => eq a k) = true ↔ k ∈ acc := by
  rw [List.any_eq_true]
  constructor
  · rintro ⟨a, ha, h⟩
    rw [← (hl a k (hacc a ha)).1 h]; exact ha
  · intro h
    exact ⟨k, h, (hl k k (hacc k h)).2 rfl⟩

theorem addKey_of_mem {κ : Type} (eq : κ → κ → Bool) (P : κ → Prop)
    (hl : ∀ a b, P a → (eq a b = true ↔ a = b)) (acc : List κ) (hacc : ∀ a ∈ acc, P a)
    (k : κ) (hk : k ∈ acc) : addKey eq acc k = acc := by
  simp [addKey, (any_eq_iff_mem eq P hl acc hacc k).2 hk]

theorem addKey_of_not_mem {κ : Type} (eq : κ → κ → Bool) (P : κ → Prop)
    (hl : ∀ a b, P a → (eq a b = true ↔ a = b)) (acc : List κ) (hacc : ∀ a ∈ acc, P a)
    (k : κ) (hk : k ∉ acc) : addKey eq acc k = acc ++ [k] := by
  have : ¬ acc.any (fun a => eq a k) = true := fun h =>
    hk ((any_eq_iff_mem eq P hl acc hacc k).1 h)
  simp [addKey, this]

theorem firstKeys_snoc {κ : Type} (eq : κ → κ → Bool) (ks : List κ) (k : κ) :
    firstKeys eq (ks ++ [k]) = addKey eq (firstKeys eq ks) k := by
  simp [firstKeys, List.foldl_append]

theorem firstKeys_spec {κ : Type} (eq : κ → κ → Bool) (P : κ → Prop)
    (hl : ∀ a b, P a → (eq a b = true ↔ a = b)) (ks : List κ) (hks : ∀ a ∈ ks, P a) :
    (∀ k, k ∈ firstKeys eq ks ↔ k ∈ ks) ∧ (firstKeys eq ks).Nodup := by
  induction ks using List.reverseRecOn with
  | nil => simp [firstKeys]
  | append_singleton ks k ih =>
    have hks' : ∀ a ∈ ks, P a := fun a ha => hks a (List.mem_append_left _ ha)
    obtain ⟨hmem, hnd⟩ := ih hks'
    have hacc : ∀ a ∈ firstKeys eq ks, P a := fun a ha => hks' a ((hmem a).1 ha)
    rw [firstKeys_snoc]
    by_cases hk : k ∈ firstKeys eq ks
    · rw [addKey_of_mem eq P hl _ hacc k hk]
      refine ⟨fun x => ?_, hnd⟩
      rw [hmem x, List.mem_append, List.mem_singleton]
      constructor
      · exact Or.inl
      · rintro (h | h)
        · exact h
        · rw [h]; exact (hmem k).1 hk
    · rw [addKey_of_not_mem eq P hl _ hacc k hk]
      refine ⟨fun x => ?_, ?_⟩
      · simp [List.mem_append, hmem x]
      · rw [List.nodup_append]
        refine ⟨hnd, List.nodup_singleton k, ?_⟩
        intro a ha hb
        rw [List.mem_singleton] at hb
        subst hb
        exact hk ha

theorem mapGet_keyed_mem {κ α : Type} (eq : κ → κ → Bool) (P : κ → Prop)
    (hl : ∀ a b, P a → (eq a b = true ↔ a = b)) (l : List κ) (hP : ∀ a ∈ l, P a)
    (f : κ → α) (k : κ) (hk : k ∈ l) :
    mapGet eq (l.map (fun x => (x, f x))) k = some (f k) := by
  induction l with
  | nil => cases hk
  | cons x xs ih =>
    by_cases hx : eq x k = true
    · have : x = k := (hl x k (hP x (List.mem_cons_self _ _))).1 hx
      subst this
      simp [mapGet, hx]
    · have hne : x ≠ k := fun h => hx ((hl x k (hP x (List.mem_cons_self _ _))).2 h)
      have hk' : k ∈ xs := by
        rcases List.mem_cons.1 hk with h | h
        · exact absurd h.symm hne
        · exact h
      simp [mapGet, hx, ih (fun a ha => hP a (List.mem_cons_of_mem _ ha)) hk']

theorem mapGet_keyed_not_mem {κ α : Type} (eq : κ → κ → Bool) (P : κ → Prop)
    (hl : ∀ a b, P a → (eq a b = true ↔ a = b)) (l : List κ) (hP : ∀ a ∈ l, P a)
    (f : κ → α) (k : κ) (hk : k ∉ l) :
    mapGet eq (l.map (fun x => (x, f x))) k = none := by
  induction l with
  | nil => rfl
  | cons x xs ih =>
    have hne : x ≠ k := fun h => hk (h ▸ List.mem_cons_self _ _)
    have hx : ¬ eq x k = true := fun h =>
      hne ((hl x k (hP x (List.mem_cons_self _ _))).1 h)
    simp [mapGet, hx, ih (fun a ha => hP a (List.mem_cons_of_mem _ ha))
      (fun h => hk (List.mem_cons_of_mem _ h))]

theorem mapSet_keyed_mem {κ α : Type} (eq : κ → κ → Bool) (P : κ → Prop)
    (hl : ∀ a b, P a → (eq a b = true ↔ a = b)) (l : List κ) (hP : ∀ a ∈ l, P a)
    (hnd : l.Nodup) (f g : κ → α) (k : κ) (v : α) (hk : k ∈ l) (hgk : g k = v)
    (hgo : ∀ x ∈ l, x ≠ k → g x = f x) :
    mapSet eq (l.map (fun x => (x, f x))) k v = l.map (fun x => (x, g x)) := by
  induction l with
  | nil => cases hk
  | cons x xs ih =>
    have hPx := hP x (List.mem_cons_self _ _)
    rw [List.nodup_cons] at hnd
    by_cases hx : eq x k = true
    · have : x = k := (hl x k hPx).1 hx
      subst this
      have hrest : xs.map (fun y => (y, f y)) = xs.map (fun y => (y, g y)) := by
        apply List.map_congr_left
        intro y hy
        have : y ≠ x := fun h => hnd.1 (h ▸ hy)
        rw [hgo y (List.mem_cons_of_mem _ hy) this]
      simp [mapSet, hx, hgk, hrest]
    · have hne : x ≠ k := fun h => hx ((hl x k hPx).2 h)
      have hk' : k ∈ xs := by
        rcases List.mem_cons.1 hk with h | h
        · exact absurd h.symm hne
        · exact h
      have := ih (fun a ha => hP a (List.mem_cons_of_mem _ ha)) hnd.2 hk'
        (fun y hy hyk => hgo y (List.mem_cons_of_mem _ hy) hyk)
      simp [mapSet, hx, this, hgo x (List.mem_cons_self _ _) hne]

theorem mapSet_keyed_not_mem {κ α : Type} (eq : κ → κ → Bool) (P : κ → Prop)
    (hl : ∀ a b, P a → (eq a b = true ↔ a = b)) (l : List κ) (hP : ∀ a ∈ l, P a)
    (f g : κ → α) (k : κ) (v : α) (hk : k ∉ l) (hgk : g k = v)
    (hgo : ∀ x ∈ l, g x = f x) :
    mapSet eq (l.map (fun x => (x, f x))) k v = (l ++ [k]).map (fun x => (x, g x)) := by
  induction l with
  | nil => simp [mapSet, hgk]
  | cons x xs ih =>
    have hPx := hP x (List.mem_cons_self _ _)
    have hne : x ≠ k := fun h => hk (h ▸ List.mem_cons_self _ _)
    have hx : ¬ eq x k = true := fun h => hne ((hl x k hPx).1 h)
    have := ih (fun a ha => hP a (List.mem_cons_of_mem _ ha))
      (fun h => hk (List.mem_cons_of_mem _ h))
      (fun y hy => hgo y (List.mem_cons_of_mem _ hy))
    simp [mapSet, hx, this, hgo x (List.mem_cons_self _ _)]

/-! ## The first loop of `kvsToMap` -/

theorem kvsInsertAll_append {F : Type} (L : FloatOps F) (a b : List (KV F))
    (m : List (Tok F × Slot F)) :
    kvsInsertAll L (a ++ b) m =
      match kvsInsertAll L a m with
      | none => none
      | some m1 => kvsInsertAll L b m1 := by
  induction a generalizing m with
  | nil => rfl
  | cons x xs ih =>
    simp only [List.cons_append, kvsInsertAll]
    cases kvsInsert L m x with
    | none => rfl
    | some m1 => exact ih m1

theorem entriesOf_append {F : Type} (L : FloatOps F) (k : Tok F) (a b : List (KV F)) :
    entriesOf L k (a ++ b) = entriesOf L k a ++ entriesOf L k b := by
  simp [entriesOf]

theorem entriesOf_single_eq {F : Type} (L : FloatOps F) (k : Tok F) (p : Path F)
    (hk : k.isKey = true) : entriesOf L k [(k, p)] = [p] := by
  simp [entriesOf, (keyEq_iff L k k hk).2 rfl]

theorem entriesOf_single_ne {F : Type} (L : FloatOps F) (k x : Tok F) (p : Path F)
    (hk : k.isKey = true) (hne : x ≠ k) : entriesOf L x [(k, p)] = [] := by
  have : ¬ Tok.keyEq L k x = true := fun h => hne ((keyEq_iff L k x hk).1 h).symm
  simp [entriesOf, this]

theorem entriesOf_eq_nil {F : Type} (L : FloatOps F) (k : Tok F) (kvs : List (KV F))
    (hP : ∀ e ∈ kvs, e.1.isKey = true) (hk : k ∉ kvs.map Prod.fst) :
    entriesOf L k kvs = [] := by
  simp only [entriesOf, List.map_eq_nil_iff, List.filter_eq_nil_iff]
  intro e he h
  apply hk
  rw [← (keyEq_iff L e.1 k (hP e he)).1 h]
  exact List.mem_map_of_mem _ he

theorem mem_entriesOf {F : Type} (L : FloatOps F) (k : Tok F) (kvs : List (KV F))
    (hP : ∀ e ∈ kvs, e.1.isKey = true) (p : Path F) :
    p ∈ entriesOf L k kvs ↔ (k, p) ∈ kvs := by
  simp only [entriesOf, List.mem_map, List.mem_filter]
  constructor
  · rintro ⟨e, ⟨he, h⟩, rfl⟩
    have : e.1 = k := (keyEq_iff L e.1 k (hP e he)).1 h
    rw [← this]; exact he
  · intro h
    exact ⟨(k, p), ⟨h, (keyEq_iff L k k (hP _ h)).2 rfl⟩, rfl⟩

theorem entriesOf_ne_nil {F : Type} (L : FloatOps F) (k : Tok F) (kvs : List (KV F))
    (hP : ∀ e ∈ kvs, e.1.isKey = true) (hk : k ∈ kvs.map Prod.fst) :
    entriesOf L k kvs ≠ [] := by
  obtain ⟨e, he, rfl⟩ := List.mem_map.1 hk
  intro h
  have := (mem_entriesOf L e.1 kvs hP e.2).2 he
  rw [h] at this
  cases this

theorem slotFor_snoc_ne {F : Type} (L : FloatOps F) (kvs : List (KV F)) (k x : Tok F)
    (p : Path F) (hk : k.isKey = true) (hne : x ≠ k) :
    slotFor L x (kvs ++ [(k, p)]) = slotFor L x kvs := by
  simp [slotFor, entriesOf_append, entriesOf_single_ne L k x p hk hne]

theorem slotFor_snoc_leaf {F : Type} (L : FloatOps F) (kvs : List (KV F)) (k : Tok F)
    (t : Tok F) (hk : k.isKey = true) :
    slotFor L k (kvs ++ [(k, .leaf t)]) = .value t := by
  simp [slotFor, entriesOf_append, entriesOf_single_eq L k _ hk]

theorem slotFor_snoc_kv {F : Type} (L : FloatOps F) (kvs : List (KV F)) (k k1 : Tok F)
    (v1 : Path F) (hk : k.isKey = true) :
    slotFor L k (kvs ++ [(k, .kv k1 v1)])
      = .kvs ((entriesOf L k kvs).filterMap Path.asKV ++ [(k1, v1)]) := by
  simp [slotFor, entriesOf_append, entriesOf_single_eq L k _ hk, List.filterMap_append,
    Path.asKV]

theorem slotFor_of_all_kv {F : Type} (L : FloatOps F) (kvs : List (KV F)) (k : Tok F)
    (h : ∀ p ∈ entriesOf L k kvs, ∃ k1 v1, p = .kv k1 v1) :
    slotFor L k kvs = .kvs ((entriesOf L k kvs).filterMap Path.asKV) := by
  unfold slotFor
  cases hl : (entriesOf L k kvs).getLast? with
  | none => rfl
  | some p =>
    obtain ⟨k1, v1, rfl⟩ := h p (List.mem_of_getLast?_eq_some hl)
    rfl

theorem levelOK_of_snoc {F : Type} (L : FloatOps F) (kvs : List (KV F)) (s : KV F)
    (h : levelOK L (kvs ++ [s])) : levelOK L kvs := by
  intro k
  rcases h k with h | h
  · left
    intro p hp
    exact h p (by rw [entriesOf_append]; exact List.mem_append_left _ hp)
  · right
    intro p hp
    exact h p (by rw [entriesOf_append]; exact List.mem_append_left _ hp)

/-- The first loop of `kvsToMap` does not panic and builds the grouped map, when
the keys are strings or indices and under every key the values are all leaves
or all chains. -/
theorem kvsInsertAll_spec {F : Type} (L : FloatOps F) (kvs : List (KV F))
    (hP : ∀ e ∈ kvs, e.1.isKey = true) (hok : levelOK L kvs) :
    kvsInsertAll L kvs [] =
      some ((firstKeys (Tok.keyEq L) (kvs.map Prod.fst)).map
        (fun k => (k, slotFor L k kvs))) := by
  induction kvs using List.reverseRecOn with
  | nil => rfl
  | append_singleton kvs s ih =>
    obtain ⟨k, p⟩ := s
    have hP' : ∀ e ∈ kvs, e.1.isKey = true := fun e he => hP e (List.mem_append_left _ he)
    have hk : k.isKey = true := hP (k, p) (by simp)
    have hkeysP : ∀ a ∈ kvs.map Prod.fst, a.isKey = true := by
      intro a ha
      obtain ⟨e, he, rfl⟩ := List.mem_map.1 ha
      exact hP' e he
    obtain ⟨hmem, hnd⟩ := firstKeys_spec (Tok.keyEq L) (fun a => a.isKey = true)
      (fun a b ha => keyEq_iff L a b ha) (kvs.map Prod.fst) hkeysP
    have hfkP : ∀ a ∈ firstKeys (Tok.keyEq L) (kvs.map Prod.fst), a.isKey = true :=
      fun a ha => hkeysP a ((hmem a).1 ha)
    rw [kvsInsertAll_append, ih hP' (levelOK_of_snoc L kvs _ hok)]
    simp only [kvsInsertAll, List.map_append, List.map_cons, List.map_nil, firstKeys_snoc]
    by_cases hin : k ∈ firstKeys (Tok.keyEq L) (kvs.map Prod.fst)
    · rw [addKey_of_mem _ _ (fun a b ha => keyEq_iff L a b ha) _ hfkP k hin]
      have hget := mapGet_keyed_mem (Tok.keyEq L) (fun a => a.isKey = true)
        (fun a b ha => keyEq_iff L a b ha) _ hfkP (fun x => slotFor L x kvs) k hin
      cases p with
      | leaf t =>
        simp only [kvsInsert]
        rw [mapSet_keyed_mem (Tok.keyEq L) (fun a => a.isKey = true)
          (fun a b ha => keyEq_iff L a b ha) _ hfkP hnd _
          (fun x => slotFor L x (kvs ++ [(k, Path.leaf t)])) k _ hin
          (slotFor_snoc_leaf L kvs k t hk)
          (fun x _ hx => slotFor_snoc_ne L kvs k x _ hk hx)]
      | kv k1 v1 =>
        have hallkv : ∀ q ∈ entriesOf L k kvs, ∃ k2 v2, q = .kv k2 v2 := by
          rcases hok k with h | h
          · exfalso
            obtain ⟨t, ht⟩ := h (.kv k1 v1) (by
              rw [entriesOf_append, entriesOf_single_eq L k _ hk]; simp)
            cases ht
          · intro q hq
            exact h q (by rw [entriesOf_append]; exact List.mem_append_left _ hq)
        simp only [kvsInsert, hget, slotFor_of_all_kv L kvs k hallkv]
        rw [mapSet_keyed_mem (Tok.keyEq L) (fun a => a.isKey = true)
          (fun a b ha => keyEq_iff L a b ha) _ hfkP hnd _
          (fun x => slotFor L x (kvs ++ [(k, Path.kv k1 v1)])) k _ hin
          (slotFor_snoc_kv L kvs k k1 v1 hk)
          (fun x _ hx => slotFor_snoc_ne L kvs k x _ hk hx)]
    · rw [addKey_of_not_mem _ _ (fun a b ha => keyEq_iff L a b ha) _ hfkP k hin]
      have hget := mapGet_keyed_not_mem (Tok.keyEq L) (fun a => a.isKey = true)
        (fun a b ha => keyEq_iff L a b ha) _ hfkP (fun x => slotFor L x kvs) k hin
      have hnil : entriesOf L k kvs = [] :=
        entriesOf_eq_nil L k kvs hP' (fun h => hin ((hmem k).2 h))
      cases p with
      | leaf t =>
        simp only [kvsInsert]
        rw [mapSet_keyed_not_mem (Tok.keyEq L) (fun a => a.isKey = true)
          (fun a b ha => keyEq_iff L a b ha) _ hfkP _
          (fun x => slotFor L x (kvs ++ [(k, Path.leaf t)])) k _ hin
          (slotFor_snoc_leaf L kvs k t hk)
          (fun x hx => slotFor_snoc_ne L kvs k x _ hk (fun h => hin (h ▸ hx)))]
      | kv k1 v1 =>
        simp only [kvsInsert, hget]
        rw [mapSet_keyed_not_mem (Tok.keyEq L) (fun a => a.isKey = true)
          (fun a b ha => keyEq_iff L a b ha) _ hfkP _
          (fun x => slotFor L x (kvs ++ [(k, Path.kv k1 v1)])) k _ hin
          (by show slotFor L k (kvs ++ [(k, Path.kv k1 v1)]) = _
              rw [slotFor_snoc_kv L kvs k k1 v1 hk, hnil]; rfl)
          (fun x hx => slotFor_snoc_ne L kvs k x _ hk (fun h => hin (h ▸ hx)))]

/-! ## `kvsToMap` builds the grouped map -/

theorem kvsResolve_ok {F : Type}
    (rec : List (KV F) → Option (Result (List (Tok F × RawVal F))))
    (r : List (KV F) → List (Tok F × RawVal F)) (m : List (Tok F × Slot F))
    (h : ∀ e ∈ m, ∀ l, e.2 = .kvs l → rec l = some (.ok (r l))) :
    kvsResolve rec m = some (.ok (m.map (fun e => (e.1, resolveSlot r e.2)))) := by
  induction m with
  | nil => rfl
  | cons e rest ih =>
    obtain ⟨k, sl⟩ := e
    have ih' := ih (fun e he => h e (List.mem_cons_of_mem _ he))
    cases sl with
    | value t => simp [kvsResolve, ih', resolveSlot]
    | kvs l =>
      have := h (k, .kvs l) (List.mem_cons_self _ _) l rfl
      simp [kvsResolve, ih', resolveSlot, this]

theorem keysPlain_head {F : Type} (kvs : List (KV F)) (hP : keysPlain kvs) :
    ∀ e ∈ kvs, e.1.isKey = true :=
  fun e he => hP e he e.1 (List.mem_cons_self _ _)

theorem levelOK_of_noClash {F : Type} (L : FloatOps F) (kvs : List (KV F))
    (hP : keysPlain kvs) (hnc : noClash kvs) : levelOK L kvs := by
  intro k
  by_cases h : ∃ p ∈ entriesOf L k kvs, ∃ t, p = Path.leaf t
  · left
    obtain ⟨p, hp, t, rfl⟩ := h
    intro q hq
    cases q with
    | leaf t2 => exact ⟨t2, rfl⟩
    | kv k1 v1 =>
      exfalso
      have h1 := (mem_entriesOf L k kvs (keysPlain_head kvs hP) _).1 hp
      have h2 := (mem_entriesOf L k kvs (keysPlain_head kvs hP) _).1 hq
      have := hnc _ h1 _ h2 (by simp [kvKeys, Path.keys])
      simp [kvKeys, Path.keys] at this
  · right
    intro q hq
    cases q with
    | leaf t => exact absurd ⟨_, hq, t, rfl⟩ h
    | kv k1 v1 => exact ⟨k1, v1, rfl⟩

theorem mem_subKvs {F : Type} (L : FloatOps F) (k : Tok F) (kvs : List (KV F))
    (hP : ∀ e ∈ kvs, e.1.isKey = true) (k1 : Tok F) (v1 : Path F) :
    (k1, v1) ∈ (entriesOf L k kvs).filterMap Path.asKV ↔ (k, Path.kv k1 v1) ∈ kvs := by
  rw [List.mem_filterMap]
  constructor
  · rintro ⟨p, hp, h⟩
    cases p with
    | leaf t => simp [Path.asKV] at h
    | kv k2 v2 =>
      simp only [Path.asKV, Option.some.injEq, Prod.mk.injEq] at h
      obtain ⟨rfl, rfl⟩ := h
      exact (mem_entriesOf L k kvs hP _).1 hp
  · intro h
    exact ⟨.kv k1 v1, (mem_entriesOf L k kvs hP _).2 h, rfl⟩

theorem subKvs_keysPlain {F : Type} (L : FloatOps F) (k : Tok F) (kvs : List (KV F))
    (hP : keysPlain kvs) : keysPlain ((entriesOf L k kvs).filterMap Path.asKV) := by
  rintro ⟨k1, v1⟩ he x hx
  have h := (mem_subKvs L k kvs (keysPlain_head kvs hP) k1 v1).1 he
  exact hP _ h x (by
    simp only [kvKeys, Path.keys, List.mem_cons] at hx ⊢
    exact Or.inr hx)

theorem subKvs_noClash {F : Type} (L : FloatOps F) (k : Tok F) (kvs : List (KV F))
    (hP : keysPlain kvs) (hnc : noClash kvs) :
    noClash ((entriesOf L k kvs).filterMap Path.asKV) := by
  rintro ⟨k1, v1⟩ ha ⟨k2, v2⟩ hb hpre
  have h1 := (mem_subKvs L k kvs (keysPlain_head kvs hP) k1 v1).1 ha
  have h2 := (mem_subKvs L k kvs (keysPlain_head kvs hP) k2 v2).1 hb
  have := hnc _ h1 _ h2 (by
    simp only [kvKeys, Path.keys] at hpre ⊢
    rw [List.cons_prefix_cons]
    exact ⟨rfl, hpre⟩)
  simpa [kvKeys, Path.keys] using this

theorem subKvs_depth {F : Type} (L : FloatOps F) (k : Tok F) (kvs : List (KV F))
    (hP : keysPlain kvs) (f : Nat) (hd : ∀ e ∈ kvs, e.2.depth < f + 1) :
    ∀ e ∈ (entriesOf L k kvs).filterMap Path.asKV, e.2.depth < f := by
  rintro ⟨k1, v1⟩ he
  have h := (mem_subKvs L k kvs (keysPlain_head kvs hP) k1 v1).1 he
  have := hd _ h
  simp only [Path.depth] at this
  show v1.depth < f
  omega

/-- What the first loop leaves under a key of the map is a leaf or the
non-empty list of the chains under the key. -/
theorem slotFor_cases {F : Type} (L : FloatOps F) (k : Tok F) (kvs : List (KV F))
    (hP : keysPlain kvs) (hnc : noClash kvs) (hk : k ∈ kvs.map Prod.fst) :
    (∃ t, slotFor L k kvs = .value t ∧ (k, Path.leaf t) ∈ kvs) ∨
      (slotFor L k kvs = .kvs ((entriesOf L k kvs).filterMap Path.asKV) ∧
        (entriesOf L k kvs).filterMap Path.asKV ≠ []) := by
  have hne := entriesOf_ne_nil L k kvs (keysPlain_head kvs hP) hk
  rcases levelOK_of_noClash L kvs hP hnc k with h | h
  · left
    obtain ⟨p, hp⟩ : ∃ p, (entriesOf L k kvs).getLast? = some p := by
      cases hl : (entriesOf L k kvs).getLast? with
      | none => exact absurd (List.getLast?_eq_none_iff.1 hl) hne
      | some p => exact ⟨p, rfl⟩
    have hpm := List.mem_of_getLast?_eq_some hp
    obtain ⟨t, rfl⟩ := h p hpm
    refine ⟨t, ?_, (mem_entriesOf L k kvs (keysPlain_head kvs hP) _).1 hpm⟩
    simp [slotFor, hp]
  · right
    refine ⟨slotFor_of_all_kv L kvs k h, ?_⟩
    obtain ⟨p, hp⟩ := List.exists_mem_of_ne_nil _ hne
    obtain ⟨k1, v1, rfl⟩ := h p hp
    intro hnil
    have : (k1, v1) ∈ (entriesOf L k kvs).filterMap Path.asKV :=
      List.mem_filterMap.2 ⟨_, hp, rfl⟩
    rw [hnil] at this
    cases this

/-- `kvsToMap` returns the grouped map `build`, without a panic, when the keys
are strings or indices and no key path is a proper prefix of another. -/
theorem kvsToMap_build {F : Type} (L : FloatOps F) (f : Nat) (kvs : List (KV F))
    (hf : 0 < f) (hd : ∀ e ∈ kvs, e.2.depth < f) (hP : keysPlain kvs) (hnc : noClash kvs) :
    kvsToMap L f kvs = some (.ok (build L f kvs)) := by
  induction f generalizing kvs with
  | zero => omega
  | succ f ih =>
    have hkeysP : ∀ a ∈ kvs.map Prod.fst, a.isKey = true := by
      intro a ha
      obtain ⟨e, he, rfl⟩ := List.mem_map.1 ha
      exact keysPlain_head kvs hP e he
    obtain ⟨hmem, _⟩ := firstKeys_spec (Tok.keyEq L) (fun a => a.isKey = true)
      (fun a b ha => keyEq_iff L a b ha) (kvs.map Prod.fst) hkeysP
    rw [kvsToMap, kvsInsertAll_spec L kvs (keysPlain_head kvs hP)
      (levelOK_of_noClash L kvs hP hnc)]
    simp only
    rw [kvsResolve_ok (kvsToMap L f) (build L f)]
    · simp [build, List.map_map, Function.comp_def]
    · intro e he l hl
      obtain ⟨k, hk, rfl⟩ := List.mem_map.1 he
      simp only at hl
      rcases slotFor_cases L k kvs hP hnc ((hmem k).1 hk) with ⟨t, ht, _⟩ | ⟨hs, hne⟩
      · rw [ht] at hl; cases hl
      · rw [hs] at hl
        simp only [Slot.kvs.injEq] at hl
        subst hl
        have hdl := subKvs_depth L k kvs hP f hd
        have hf0 : 0 < f := by
          obtain ⟨e1, he1⟩ := List.exists_mem_of_ne_nil _ hne
          have := hdl e1 he1
          omega
        exact ih _ hf0 hdl (subKvs_keysPlain L k kvs hP) (subKvs_noClash L k kvs hP hnc)

/-! ## From the document to the grouped map -/

theorem Line.path_eq_kv {F : Type} (l : Line F) (h : l.keys ≠ []) :
    l.path = .kv l.toKV.1 l.toKV.2 := by
  obtain ⟨keys, leaf⟩ := l
  cases keys with
  | nil => exact absurd rfl h
  | cons k ks => rfl

theorem foldr_kv_keys {F : Type} (ks : List (Tok F)) (leaf : Tok F) :
    (ks.foldr Path.kv (.leaf leaf)).keys = ks ∧
      (ks.foldr Path.kv (.leaf leaf)).depth = ks.length ∧
      (ks.foldr Path.kv (.leaf leaf)).leafTok = leaf := by
  induction ks with
  | nil => exact ⟨rfl, rfl, rfl⟩
  | cons k ks ih => simp [Path.keys, Path.depth, Path.leafTok, ih]

theorem Line.kvKeys_toKV {F : Type} (l : Line F) (h : l.keys ≠ []) :
    kvKeys l.toKV = l.keys ∧ l.toKV.2.depth + 1 = l.keys.length ∧
      l.toKV.2.leafTok = l.leaf := by
  obtain ⟨keys, leaf⟩ := l
  cases keys with
  | nil => exact absurd rfl h
  | cons k ks =>
    obtain ⟨h1, h2, h3⟩ := foldr_kv_keys ks leaf
    simp [kvKeys, Line.toKV, h1, h2, h3]

theorem collectKvs_all_kv {F : Type} (len : Nat) (lines : List (Line F))
    (h : ∀ l ∈ lines, l.keys ≠ []) (acc : List (KV F)) :
    collectKvs len (lines.map Line.path) acc = .ok (.inr (acc ++ kvsOfLines lines)) := by
  induction lines generalizing acc with
  | nil => simp [collectKvs, kvsOfLines]
  | cons l ls ih =>
    rw [List.map_cons, Line.path_eq_kv l (h l (List.mem_cons_self _ _)), collectKvs,
      ih (fun x hx => h x (List.mem_cons_of_mem _ hx))]
    simp [kvsOfLines]

theorem le_maxKeys {F : Type} (lines : List (Line F)) (l : Line F) (hl : l ∈ lines) :
    l.keys.length ≤ maxKeys lines := by
  induction lines with
  | nil => cases hl
  | cons x xs ih =>
    simp only [maxKeys, List.map_cons, List.foldr_cons]
    rcases List.mem_cons.1 hl with h | h
    · subst h; exact Nat.le_max_left _ _
    · exact le_trans (ih h) (Nat.le_max_right _ _)

theorem lineText_length {F : Type} (L : FloatOps F) (l : Line F) :
    l.keys.length + 1 ≤ (l.text L).length := by
  obtain ⟨keys, leaf⟩ := l
  simp only [Line.text, List.length_append, List.length_singleton]
  have : keys.length ≤ (keys.flatMap (fun k => k.render L ++ [' '])).length := by
    induction keys with
    | nil => simp
    | cons k ks ih =>
      simp only [List.flatMap_cons, List.length_append, List.length_cons, List.length_singleton,
        List.length_nil]
      omega
  omega

theorem docText_length {F : Type} (L : FloatOps F) (lines : List (Line F)) :
    lines.length + maxKeys lines ≤ (docText L lines).length := by
  induction lines with
  | nil => simp [maxKeys, docText]
  | cons l ls ih =>
    have h1 := lineText_length L l
    have h2 : (ls.length : Nat) ≤ (docText L ls).length := by omega
    simp only [docText, List.flatMap_cons, List.length_append, List.length_cons, maxKeys,
      List.map_cons, List.foldr_cons] at ih ⊢
    simp only [docText] at h2
    rcases Nat.le_total (l.keys.length) ((ls.map (fun l => l.keys.length)).foldr max 0)
      with h | h
    · rw [Nat.max_eq_right h]; omega
    · rw [Nat.max_eq_left h]; omega

theorem kvsOfLines_keysPlain {F : Type} (lines : List (Line F))
    (hne : ∀ l ∈ lines, l.keys ≠ []) (hk : ∀ l ∈ lines, ∀ k ∈ l.keys, k.isKey = true) :
    keysPlain (kvsOfLines lines) := by
  intro e he k hkk
  obtain ⟨l, hl, rfl⟩ := List.mem_map.1 he
  rw [(Line.kvKeys_toKV l (hne l hl)).1] at hkk
  exact hk l hl k hkk

theorem kvsOfLines_noClash {F : Type} (lines : List (Line F))
    (hne : ∀ l ∈ lines, l.keys ≠ [])
    (hnc : ∀ a ∈ lines, ∀ b ∈ lines, a.keys <+: b.keys → a.keys = b.keys) :
    noClash (kvsOfLines lines) := by
  intro a ha b hb hpre
  obtain ⟨la, hla, rfl⟩ := List.mem_map.1 ha
  obtain ⟨lb, hlb, rfl⟩ := List.mem_map.1 hb
  rw [(Line.kvKeys_toKV la (hne la hla)).1, (Line.kvKeys_toKV lb (hne lb hlb)).1] at hpre ⊢
  exact hnc la hla lb hlb hpre

theorem kvsOfLines_depth {F : Type} (lines : List (Line F))
    (hne : ∀ l ∈ lines, l.keys ≠ []) (f : Nat) (hf : maxKeys lines ≤ f) :
    ∀ e ∈ kvsOfLines lines, e.2.depth < f := by
  intro e he
  obtain ⟨l, hl, rfl⟩ := List.mem_map.1 he
  have h1 := (Line.kvKeys_toKV l (hne l hl)).2.1
  have h2 := le_maxKeys lines l hl
  omega

/-- `decodeToMapOrV` on a rendered document whose lines all have a key, whose
keys are strings or indices and in which no key path is a proper prefix of
another: the grouped map of the lines, with the scanner at the end. -/
theorem decodeToMapOrV_doc {F : Type} (L : FloatOps F) (lines : List (Line F))
    (hc : ∀ l ∈ lines, l.canon L) (hne : ∀ l ∈ lines, l.keys ≠ [])
    (hk : ∀ l ∈ lines, ∀ k ∈ l.keys, k.isKey = true)
    (hnc : ∀ a ∈ lines, ∀ b ∈ lines, a.keys <+: b.keys → a.keys = b.keys)
    (n : Int) (hn : n < 0 ∨ (lines.length : Int) ≤ n) (f : Nat)
    (hf : (docText L lines).length + 2 ≤ f) (hm : Bool) :
    decodeToMapOrV L f n ⟨docText L lines, hm⟩ =
      some (.ok (.map (build L f (kvsOfLines lines)),
        ⟨[], lines.isEmpty && hm || !lines.isEmpty⟩)) := by
  have hlen := docText_length L lines
  have h1 := decodeLines_doc L lines hc (maxKeys lines) (fun l hl => le_maxKeys lines l hl)
    n hn f (by omega) hm
  have h2 := kvsToMap_build L f (kvsOfLines lines) (by omega)
    (kvsOfLines_depth lines hne f (by omega)) (kvsOfLines_keysPlain lines hne hk)
    (kvsOfLines_noClash lines hne hnc)
  simp [decodeToMapOrV, h1, collectKvs_all_kv _ lines hne, h2]

/-! ## One level of `makeKeyStringOrCvtSlice` -/

theorem mapSet_new {κ α : Type} (eq : κ → κ → Bool) (r : List (κ × α)) (k : κ) (v : α)
    (h : ∀ e ∈ r, eq e.1 k = false) : mapSet eq r k v = r ++ [(k, v)] := by
  induction r with
  | nil => rfl
  | cons e rest ih =>
    obtain ⟨k1, v1⟩ := e
    have h1 : eq k1 k = false := h (k1, v1) (List.mem_cons_self _ _)
    simp [mapSet, h1, ih (fun e he => h e (List.mem_cons_of_mem _ he))]

theorem tryMakeKeyString_none {F : Type} (m : List (Tok F × RawVal F))
    (r : List (Str × RawVal F)) (h : ∃ e ∈ m, ∀ s, e.1 ≠ .str s) :
    tryMakeKeyString m r = none := by
  induction m generalizing r with
  | nil => obtain ⟨e, he, _⟩ := h; cases he
  | cons x xs ih =>
    obtain ⟨k, v⟩ := x
    cases k with
    | str s =>
      rw [tryMakeKeyString]
      apply ih
      obtain ⟨e, he, hs⟩ := h
      rcases List.mem_cons.1 he with h1 | h1
      · subst h1; exact absurd rfl (hs s)
      · exact ⟨e, h1, hs⟩
    | eol => rfl
    | int i => rfl
    | float f => rfl
    | bool b => rfl
    | null => rfl

theorem tryMakeKeyString_some {F : Type} (m : List (Tok F × RawVal F))
    (r : List (Str × RawVal F)) (hstr : ∀ e ∈ m, ∃ s, e.1 = .str s)
    (hnd : (m.map Prod.fst).Nodup) (hdis : ∀ e ∈ m, ∀ x ∈ r, x.1 ≠ e.1.strOf) :
    tryMakeKeyString m r = some (r ++ m.map (fun e => (e.1.strOf, e.2))) := by
  induction m generalizing r with
  | nil => simp [tryMakeKeyString]
  | cons x xs ih =>
    obtain ⟨k, v⟩ := x
    obtain ⟨s, hs⟩ := hstr (k, v) (List.mem_cons_self _ _)
    simp only at hs
    subst hs
    rw [List.map_cons, List.nodup_cons] at hnd
    rw [tryMakeKeyString, mapSet_new]
    · rw [ih (r ++ [(s, v)]) (fun e he => hstr e (List.mem_cons_of_mem _ he)) hnd.2]
      · simp [Tok.strOf]
      · intro e he x hx
        rcases List.mem_append.1 hx with h | h
        · exact hdis e (List.mem_cons_of_mem _ he) x h
        · simp only [List.mem_singleton] at h
          subst h
          obtain ⟨s2, hs2⟩ := hstr e (List.mem_cons_of_mem _ he)
          intro heq
          apply hnd.1
          simp only [hs2, Tok.strOf] at heq
          exact List.mem_map.2 ⟨e, he, by rw [hs2, heq]⟩
    · intro e he
      have := hdis (.str s, v) (List.mem_cons_self _ _) e he
      simpa [Tok.strOf] using this

theorem intKeys_none {F α : Type} (m : List (Tok F × α)) (h : ∃ e ∈ m, ∀ i, e.1 ≠ .int i) :
    intKeys m = none := by
  induction m with
  | nil => obtain ⟨e, he, _⟩ := h; cases he
  | cons x xs ih =>
    obtain ⟨k, v⟩ := x
    cases k with
    | int i =>
      rw [intKeys, ih]
      obtain ⟨e, he, hs⟩ := h
      rcases List.mem_cons.1 he with h1 | h1
      · subst h1; exact absurd rfl (hs i)
      · exact ⟨e, h1, hs⟩
    | eol => rfl
    | str s => rfl
    | float f => rfl
    | bool b => rfl
    | null => rfl

theorem intKeys_some {F α : Type} (m : List (Tok F × α)) (h : ∀ e ∈ m, ∃ i, e.1 = .int i) :
    intKeys m = some (m.map (fun e => e.1.intOf)) := by
  induction m with
  | nil => rfl
  | cons x xs ih =>
    obtain ⟨k, v⟩ := x
    obtain ⟨i, hi⟩ := h (k, v) (List.mem_cons_self _ _)
    simp only at hi
    subst hi
    simp [intKeys, ih (fun e he => h e (List.mem_cons_of_mem _ he)), Tok.intOf]

theorem normEntries_ok {F : Type} (rec : RawVal F → Option (Except DecodeError (Tree F)))
    (h : RawVal F → Tree F) (sm : List (Str × RawVal F))
    (hrec : ∀ e ∈ sm, rec e.2 = some (.ok (h e.2))) :
    normEntries rec sm = some (.ok (sm.map (fun e => (e.1, h e.2)))) := by
  induction sm with
  | nil => rfl
  | cons e rest ih =>
    obtain ⟨k, v⟩ := e
    have := hrec (k, v) (List.mem_cons_self _ _)
    simp only at this
    simp [normEntries, this, ih (fun e he => hrec e (List.mem_cons_of_mem _ he))]

theorem normItems_ok {F : Type} (rec : RawVal F → Option (Except DecodeError (Tree F)))
    (h : RawVal F → Tree F) (sl : List (RawVal F))
    (hrec : ∀ v ∈ sl, rec v = some (.ok (h v))) :
    normItems rec sl = some (.ok (sl.map h)) := by
  induction sl with
  | nil => rfl
  | cons v rest ih =>
    have := hrec v (List.mem_cons_self _ _)
    simp [normItems, this, ih (fun e he => hrec e (List.mem_cons_of_mem _ he))]

theorem normEntries_settled {F : Type}
    (rec : RawVal F → Option (Except DecodeError (Tree F))) (sm : List (Str × RawVal F))
    (hrec : ∀ e ∈ sm, Settled (rec e.2)) :
    Settled (normEntries rec sm) ∧
      ((∃ e ∈ sm, rec e.2 = some (.error .invalidMap)) →
        normEntries rec sm = some (.error .invalidMap)) := by
  induction sm with
  | nil =>
    refine ⟨⟨.ok [], rfl, fun err h => by cases h⟩, ?_⟩
    rintro ⟨e, he, _⟩; cases he
  | cons e rest ih =>
    obtain ⟨k, v⟩ := e
    obtain ⟨⟨r2, hr2, hg2⟩, herr2⟩ := ih (fun e he => hrec e (List.mem_cons_of_mem _ he))
    obtain ⟨r1, hr1, hg1⟩ := hrec (k, v) (List.mem_cons_self _ _)
    simp only at hr1
    cases r1 with
    | error err =>
      have := hg1 err rfl
      subst this
      refine ⟨⟨.error .invalidMap, by simp [normEntries, hr1], fun err h => by cases h; rfl⟩, ?_⟩
      intro _
      simp [normEntries, hr1]
    | ok t =>
      cases r2 with
      | error err =>
        have := hg2 err rfl
        subst this
        refine ⟨⟨.error .invalidMap, by simp [normEntries, hr1, hr2],
          fun err h => by cases h; rfl⟩, ?_⟩
        intro _
        simp [normEntries, hr1, hr2]
      | ok ts =>
        refine ⟨⟨.ok ((k, t) :: ts), by simp [normEntries, hr1, hr2],
          fun err h => by cases h⟩, ?_⟩
        rintro ⟨e, he, hee⟩
        rcases List.mem_cons.1 he with h | h
        · subst h
          simp only at hee
          rw [hr1] at hee
          cases hee
        · have := herr2 ⟨e, h, hee⟩
          rw [hr2] at this
          cases this

theorem normItems_settled {F : Type}
    (rec : RawVal F → Option (Except DecodeError (Tree F))) (sl : List (RawVal F))
    (hrec : ∀ v ∈ sl, Settled (rec v)) :
    Settled (normItems rec sl) ∧
      ((∃ v ∈ sl, rec v = some (.error .invalidMap)) →
        normItems rec sl = some (.error .invalidMap)) := by
  induction sl with
  | nil =>
    refine ⟨⟨.ok [], rfl, fun err h => by cases h⟩, ?_⟩
    rintro ⟨e, he, _⟩; cases he
  | cons v rest ih =>
    obtain ⟨⟨r2, hr2, hg2⟩, herr2⟩ := ih (fun e he => hrec e (List.mem_cons_of_mem _ he))
    obtain ⟨r1, hr1, hg1⟩ := hrec v (List.mem_cons_self _ _)
    cases r1 with
    | error err =>
      have := hg1 err rfl
      subst this
      refine ⟨⟨.error .invalidMap, by simp [normItems, hr1], fun err h => by cases h; rfl⟩, ?_⟩
      intro _
      simp [normItems, hr1]
    | ok t =>
      cases r2 with
      | error err =>
        have := hg2 err rfl
        subst this
        refine ⟨⟨.error .invalidMap, by simp [normItems, hr1, hr2],
          fun err h => by cases h; rfl⟩, ?_⟩
        intro _
        simp [normItems, hr1, hr2]
      | ok ts =>
        refine ⟨⟨.ok (t :: ts), by simp [normItems, hr1, hr2],
          fun err h => by cases h⟩, ?_⟩
        rintro ⟨e, he, hee⟩
        rcases List.mem_cons.1 he with h | h
        · subst h
          rw [hr1] at hee
          cases hee
        · have := herr2 ⟨e, h, hee⟩
          rw [hr2] at this
          cases this

theorem mapGet_mem {κ α : Type} (eq : κ → κ → Bool) (m : List (κ × α)) (k : κ) (v : α)
    (h : mapGet eq m k = some v) : ∃ e ∈ m, e.2 = v := by
  induction m with
  | nil => cases h
  | cons x xs ih =>
    obtain ⟨k1, v1⟩ := x
    by_cases hx : eq k1 k = true
    · simp only [mapGet, hx, if_true, Option.some.injEq] at h
      exact ⟨(k1, v1), List.mem_cons_self _ _, h⟩
    · simp only [mapGet, hx, Bool.false_eq_true, if_false] at h
      obtain ⟨e, he, hv⟩ := ih h
      exact ⟨e, List.mem_cons_of_mem _ he, hv⟩

theorem mapGet_of_mem {κ α : Type} (eq : κ → κ → Bool) (P : κ → Prop)
    (hl : ∀ a b, P a → (eq a b = true ↔ a = b)) (m : List (κ × α))
    (hP : ∀ e ∈ m, P e.1) (hnd : (m.map Prod.fst).Nodup) (e : κ × α) (he : e ∈ m) :
    mapGet eq m e.1 = some e.2 := by
  induction m with
  | nil => cases he
  | cons x xs ih =>
    obtain ⟨k1, v1⟩ := x
    rw [List.map_cons, List.nodup_cons] at hnd
    rcases List.mem_cons.1 he with h | h
    · subst h
      simp [mapGet, (hl k1 k1 (hP (k1, v1) (List.mem_cons_self _ _))).2 rfl]
    · have hne : ¬ eq k1 e.1 = true := by
        intro hx
        have := (hl k1 e.1 (hP (k1, v1) (List.mem_cons_self _ _))).1 hx
        apply hnd.1
        exact List.mem_map.2 ⟨e, h, this.symm⟩
      simp [mapGet, hne, ih (fun e he => hP e (List.mem_cons_of_mem _ he)) hnd.2 h]

theorem settled_ok {α : Type} (a : α) : Settled (some (.ok a) : Option (Except DecodeError α)) :=
  ⟨.ok a, rfl, fun err h => by cases h⟩

theorem settled_invalidMap {α : Type} :
    Settled (some (.error .invalidMap) : Option (Except DecodeError α)) :=
  ⟨.error .invalidMap, rfl, fun err h => by cases h; rfl⟩

/-- One level of `makeKeyStringOrCvtSlice` over values on which the recursive
call returns: the call returns; it returns "invalid map" when the recursive call
does so on one of the values, and when the level has a string key and an index
key. -/
theorem norm_level {F : Type} (L : FloatOps F) (f : Nat) (hf : 0 < f)
    (m : List (Tok F × RawVal F)) (hP : ∀ e ∈ m, e.1.isKey = true)
    (hnd : (m.map Prod.fst).Nodup)
    (hval : ∀ e ∈ m, Settled (makeKeyStringOrCvtSlice L f e.2)) :
    Settled (makeKeyStringOrCvtSlice L (f + 1) (.map m)) ∧
      ((∃ e ∈ m, makeKeyStringOrCvtSlice L f e.2 = some (.error .invalidMap)) →
        makeKeyStringOrCvtSlice L (f + 1) (.map m) = some (.error .invalidMap)) ∧
      ((∃ e1 ∈ m, ∃ e2 ∈ m, (∃ s, e1.1 = .str s) ∧ (∃ i, e2.1 = .int i)) →
        makeKeyStringOrCvtSlice L (f + 1) (.map m) = some (.error .invalidMap)) := by
  by_cases hstr : ∀ e ∈ m, ∃ s, e.1 = .str s
  · have hsm := tryMakeKeyString_some m [] hstr hnd (fun _ _ x hx => by cases hx)
    simp only [List.nil_append] at hsm
    obtain ⟨hset, herr⟩ := normEntries_settled (makeKeyStringOrCvtSlice L f)
      (m.map (fun e => (e.1.strOf, e.2)))
      (by
        intro e he
        obtain ⟨e0, he0, rfl⟩ := List.mem_map.1 he
        exact hval e0 he0)
    refine ⟨?_, ?_, ?_⟩
    · obtain ⟨r, hr, hg⟩ := hset
      rw [makeKeyStringOrCvtSlice, hsm]
      simp only [hr]
      cases r with
      | error err => rw [hg err rfl]; exact settled_invalidMap
      | ok t => exact settled_ok _
    · rintro ⟨e, he, hee⟩
      have := herr ⟨(e.1.strOf, e.2), List.mem_map.2 ⟨e, he, rfl⟩, hee⟩
      rw [makeKeyStringOrCvtSlice, hsm]
      simp only [this]
    · rintro ⟨e1, _, e2, he2, _, ⟨i, hi⟩⟩
      obtain ⟨s, hs⟩ := hstr e2 he2
      rw [hi] at hs
      cases hs
  · have hnone : tryMakeKeyString m [] = none := by
      apply tryMakeKeyString_none
      push_neg at hstr
      exact hstr
    by_cases hint : ∀ e ∈ m, ∃ i, e.1 = .int i
    · have hik := intKeys_some m hint
      have hgetD : ∀ k, Settled (makeKeyStringOrCvtSlice L f
          ((mapGet (Tok.keyEq L) m (.int k)).getD (.tok .null))) := by
        intro k
        cases hg : mapGet (Tok.keyEq L) m (.int k) with
        | none =>
          obtain ⟨f1, rfl⟩ : ∃ f1, f = f1 + 1 := ⟨f - 1, by omega⟩
          exact settled_ok _
        | some v =>
          obtain ⟨e, he, rfl⟩ := mapGet_mem _ m _ v hg
          exact hval e he
      obtain ⟨hset, herr⟩ := normItems_settled (makeKeyStringOrCvtSlice L f)
        (((m.map (fun e => e.1.intOf)).insertionSort (fun a b => a ≤ b)).map
          (fun k => (mapGet (Tok.keyEq L) m (.int k)).getD (.tok .null)))
        (by
          intro v hv
          obtain ⟨k, _, rfl⟩ := List.mem_map.1 hv
          exact hgetD k)
      refine ⟨?_, ?_, ?_⟩
      · obtain ⟨r, hr, hg⟩ := hset
        rw [makeKeyStringOrCvtSlice, hnone]
        simp only [tryCvtSlice, hik, hr]
        cases r with
        | error err => rw [hg err rfl]; exact settled_invalidMap
        | ok t => exact settled_ok _
      · rintro ⟨e, he, hee⟩
        obtain ⟨i, hi⟩ := hint e he
        have hmem : i ∈ (m.map (fun e => e.1.intOf)).insertionSort (fun a b => a ≤ b) := by
          rw [(List.perm_insertionSort _ _).mem_iff]
          exact List.mem_map.2 ⟨e, he, by rw [hi]; rfl⟩
        have hget : mapGet (Tok.keyEq L) m (.int i) = some e.2 := by
          rw [← hi]
          exact mapGet_of_mem _ (fun a => a.isKey = true) (fun a b ha => keyEq_iff L a b ha)
            m hP hnd e he
        have := herr ⟨_, List.mem_map.2 ⟨i, hmem, rfl⟩, by rw [hget]; exact hee⟩
        rw [makeKeyStringOrCvtSlice, hnone]
        simp only [tryCvtSlice, hik, this]
      · rintro ⟨e1, he1, _, _, ⟨s, hs⟩, _⟩
        obtain ⟨i, hi⟩ := hint e1 he1
        rw [hi] at hs
        cases hs
    · have hnone2 : tryCvtSlice L m = none := by
        have : intKeys m = none := by
          apply intKeys_none
          push_neg at hint
          exact hint
        simp [tryCvtSlice, this]
      have hres : makeKeyStringOrCvtSlice L (f + 1) (.map m) = some (.error .invalidMap) := by
        rw [makeKeyStringOrCvtSlice, hnone]
        simp only [hnone2]
      exact ⟨hres ▸ settled_invalidMap, fun _ => hres, fun _ => hres⟩

/-! ## `makeKeyStringOrCvtSlice` on the grouped map -/

theorem build_keys {F : Type} (L : FloatOps F) (f : Nat) (kvs : List (KV F))
    (hP : keysPlain kvs) :
    (build L (f + 1) kvs).map Prod.fst = firstKeys (Tok.keyEq L) (kvs.map Prod.fst) ∧
      ((build L (f + 1) kvs).map Prod.fst).Nodup ∧
      (∀ e ∈ build L (f + 1) kvs, e.1.isKey = true) ∧
      (∀ k, k ∈ (build L (f + 1) kvs).map Prod.fst ↔ k ∈ kvs.map Prod.fst) := by
  have hkeysP : ∀ a ∈ kvs.map Prod.fst, a.isKey = true := by
    intro a ha
    obtain ⟨e, he, rfl⟩ := List.mem_map.1 ha
    exact keysPlain_head kvs hP e he
  obtain ⟨hmem, hnd⟩ := firstKeys_spec (Tok.keyEq L) (fun a => a.isKey = true)
    (fun a b ha => keyEq_iff L a b ha) (kvs.map Prod.fst) hkeysP
  have h1 : (build L (f + 1) kvs).map Prod.fst = firstKeys (Tok.keyEq L) (kvs.map Prod.fst) := by
    simp [build, List.map_map, Function.comp_def]
  refine ⟨h1, h1 ▸ hnd, ?_, fun k => by rw [h1]; exact hmem k⟩
  intro e he
  have : e.1 ∈ (build L (f + 1) kvs).map Prod.fst := List.mem_map_of_mem _ he
  rw [h1] at this
  exact hkeysP _ ((hmem _).1 this)

theorem build_entry {F : Type} (L : FloatOps F) (f : Nat) (kvs : List (KV F))
    (hP : keysPlain kvs) (hnc : noClash kvs) (e : Tok F × RawVal F)
    (he : e ∈ build L (f + 1) kvs) :
    (∃ t, e.2 = .tok t ∧ (e.1, Path.leaf t) ∈ kvs) ∨
      (e.2 = .map (build L f (subKvs L e.1 kvs)) ∧ subKvs L e.1 kvs ≠ []) := by
  have hk := ((build_keys L f kvs hP).2.2.2 e.1).1 (List.mem_map_of_mem _ he)
  simp only [build, List.mem_map] at he
  obtain ⟨k, _, rfl⟩ := he
  rcases slotFor_cases L k kvs hP hnc hk with ⟨t, ht, hmem⟩ | ⟨hs, hne⟩
  · left; exact ⟨t, by simp [ht, resolveSlot], hmem⟩
  · right; exact ⟨by simp [hs, resolveSlot, subKvs], hne⟩

theorem build_has {F : Type} (L : FloatOps F) (f : Nat) (kvs : List (KV F))
    (hP : keysPlain kvs) (k : Tok F) (hk : k ∈ kvs.map Prod.fst) :
    (k, resolveSlot (build L f) (slotFor L k kvs)) ∈ build L (f + 1) kvs := by
  have := ((build_keys L f kvs hP).2.2.2 k).2 hk
  rw [(build_keys L f kvs hP).1] at this
  simp only [build, List.mem_map]
  exact ⟨k, this, rfl⟩

theorem subKvs_pos {F : Type} (L : FloatOps F) (k : Tok F) (kvs : List (KV F))
    (hP : keysPlain kvs) (f : Nat) (hd : ∀ e ∈ kvs, e.2.depth < f + 1)
    (hne : subKvs L k kvs ≠ []) : 0 < f := by
  obtain ⟨e1, he1⟩ := List.exists_mem_of_ne_nil _ hne
  have := subKvs_depth L k kvs hP f hd e1 he1
  omega

/-- On the grouped map `makeKeyStringOrCvtSlice` returns, with a tree or with
"invalid map". -/
theorem norm_build_settled {F : Type} (L : FloatOps F) (f : Nat) (kvs : List (KV F))
    (hf : 0 < f) (hd : ∀ e ∈ kvs, e.2.depth < f) (hP : keysPlain kvs) (hnc : noClash kvs) :
    Settled (makeKeyStringOrCvtSlice L (f + 1) (.map (build L f kvs))) := by
  induction f generalizing kvs with
  | zero => omega
  | succ f ih =>
    obtain ⟨_, hnd, hkP, _⟩ := build_keys L f kvs hP
    refine (norm_level L (f + 1) (by omega) _ hkP hnd ?_).1
    intro e he
    rcases build_entry L f kvs hP hnc e he with ⟨t, ht, _⟩ | ⟨hm, hne⟩
    · rw [ht]; exact settled_ok _
    · rw [hm]
      exact ih _ (subKvs_pos L e.1 kvs hP f hd hne) (subKvs_depth L e.1 kvs hP f hd)
        (subKvs_keysPlain L e.1 kvs hP) (subKvs_noClash L e.1 kvs hP hnc)

theorem build_values_settled {F : Type} (L : FloatOps F) (f : Nat) (kvs : List (KV F))
    (hd : ∀ e ∈ kvs, e.2.depth < f + 1) (hP : keysPlain kvs) (hnc : noClash kvs) :
    ∀ e ∈ build L (f + 1) kvs, Settled (makeKeyStringOrCvtSlice L (f + 1) e.2) := by
  intro e he
  rcases build_entry L f kvs hP hnc e he with ⟨t, ht, _⟩ | ⟨hm, hne⟩
  · rw [ht]; exact settled_ok _
  · rw [hm]
    exact norm_build_settled L f _ (subKvs_pos L e.1 kvs hP f hd hne)
      (subKvs_depth L e.1 kvs hP f hd) (subKvs_keysPlain L e.1 kvs hP)
      (subKvs_noClash L e.1 kvs hP hnc)

theorem keys_of_cons2 {F : Type} (a : KV F) (k : Tok F) (p : List (Tok F)) (x : Tok F)
    (r : List (Tok F)) (h : kvKeys a = (k :: p) ++ x :: r) :
    a.1 = k ∧ ∃ k1 v1, a.2 = .kv k1 v1 ∧ kvKeys (k1, v1) = p ++ x :: r := by
  obtain ⟨k0, q⟩ := a
  simp only [kvKeys, List.cons_append, List.cons.injEq] at h
  refine ⟨h.1, ?_⟩
  cases q with
  | leaf t =>
    have := h.2
    simp [Path.keys] at this
  | kv k1 v1 => exact ⟨k1, v1, rfl, by simpa [kvKeys, Path.keys] using h.2⟩

/-- When some level has a string key and an index key, `makeKeyStringOrCvtSlice`
returns "invalid map" on the grouped map. -/
theorem norm_build_mixed {F : Type} (L : FloatOps F) (p : List (Tok F)) (f : Nat)
    (kvs : List (KV F)) (hf : 0 < f) (hd : ∀ e ∈ kvs, e.2.depth < f) (hP : keysPlain kvs)
    (hnc : noClash kvs) (hmix : mixedAt p kvs) :
    makeKeyStringOrCvtSlice L (f + 1) (.map (build L f kvs)) = some (.error .invalidMap) := by
  induction p generalizing f kvs with
  | nil =>
    obtain ⟨f, rfl⟩ : ∃ f1, f = f1 + 1 := ⟨f - 1, by omega⟩
    obtain ⟨a, ha, b, hb, s, i, ra, rb, hka, hkb⟩ := hmix
    obtain ⟨_, hnd, hkP, _⟩ := build_keys L f kvs hP
    have ha1 : a.1 = .str s := by
      simp only [kvKeys, List.nil_append, List.cons.injEq] at hka; exact hka.1
    have hb1 : b.1 = .int i := by
      simp only [kvKeys, List.nil_append, List.cons.injEq] at hkb; exact hkb.1
    refine (norm_level L (f + 1) (by omega) _ hkP hnd
      (build_values_settled L f kvs hd hP hnc)).2.2 ?_
    exact ⟨_, build_has L f kvs hP a.1 (List.mem_map_of_mem _ ha),
      _, build_has L f kvs hP b.1 (List.mem_map_of_mem _ hb), ⟨s, ha1⟩, ⟨i, hb1⟩⟩
  | cons k p ih =>
    obtain ⟨f, rfl⟩ : ∃ f1, f = f1 + 1 := ⟨f - 1, by omega⟩
    obtain ⟨a, ha, b, hb, s, i, ra, rb, hka, hkb⟩ := hmix
    obtain ⟨_, hnd, hkP, _⟩ := build_keys L f kvs hP
    obtain ⟨ha1, ka, va, hav, hak⟩ := keys_of_cons2 a k p _ _ hka
    obtain ⟨hb1, kb, vb, hbv, hbk⟩ := keys_of_cons2 b k p _ _ hkb
    have hamem : (k, Path.kv ka va) ∈ kvs := by
      have : a = (k, Path.kv ka va) := Prod.ext ha1 hav
      rw [← this]; exact ha
    have hbmem : (k, Path.kv kb vb) ∈ kvs := by
      have : b = (k, Path.kv kb vb) := Prod.ext hb1 hbv
      rw [← this]; exact hb
    have hsa : (ka, va) ∈ subKvs L k kvs :=
      (mem_subKvs L k kvs (keysPlain_head kvs hP) ka va).2 hamem
    have hsb : (kb, vb) ∈ subKvs L k kvs :=
      (mem_subKvs L k kvs (keysPlain_head kvs hP) kb vb).2 hbmem
    have hsub : subKvs L k kvs ≠ [] := List.ne_nil_of_mem hsa
    have hrec := ih f (subKvs L k kvs) (subKvs_pos L k kvs hP f hd hsub)
      (subKvs_depth L k kvs hP f hd) (subKvs_keysPlain L k kvs hP)
      (subKvs_noClash L k kvs hP hnc) ⟨_, hsa, _, hsb, s, i, ra, rb, hak, hbk⟩
    have hkin : k ∈ kvs.map Prod.fst := List.mem_map.2 ⟨_, hamem, rfl⟩
    have hent := build_has L f kvs hP k hkin
    have hslot : slotFor L k kvs = .kvs (subKvs L k kvs) := by
      rcases slotFor_cases L k kvs hP hnc hkin with ⟨t, _, hmem⟩ | ⟨hs, _⟩
      · exfalso
        have := hnc _ hmem _ hamem (by simp [kvKeys, Path.keys])
        simp [kvKeys, Path.keys] at this
      · exact hs
    rw [hslot] at hent
    refine (norm_level L (f + 1) (by omega) _ hkP hnd
      (build_values_settled L f kvs hd hP hnc)).2.1 ⟨_, hent, ?_⟩
    simpa [resolveSlot] using hrec

/-! ## The grouped map does not depend on the fuel -/

theorem slotFor_kvs_eq {F : Type} (L : FloatOps F) (k : Tok F) (kvs l : List (KV F))
    (h : slotFor L k kvs = .kvs l) : l = subKvs L k kvs := by
  unfold slotFor at h
  split at h
  · cases h
  · simp only [Slot.kvs.injEq] at h
    exact h.symm

theorem build_nil {F : Type} (L : FloatOps F) (f : Nat) : build L f [] = [] := by
  cases f <;> rfl

theorem build_succ_eq {F : Type} (L : FloatOps F) (f : Nat) (kvs : List (KV F))
    (hf : 0 < f) (hd : ∀ e ∈ kvs, e.2.depth < f) (hP : keysPlain kvs) :
    build L (f + 1) kvs = build L f kvs := by
  induction f generalizing kvs with
  | zero => omega
  | succ f ih =>
    rw [build, build]
    apply List.map_congr_left
    intro k _
    cases hs : slotFor L k kvs with
    | value t => rfl
    | kvs l =>
      have hl := slotFor_kvs_eq L k kvs l hs
      subst hl
      simp only [resolveSlot, Prod.mk.injEq, RawVal.map.injEq, true_and]
      by_cases hne : subKvs L k kvs = []
      · rw [hne, build_nil, build_nil]
      · exact ih _ (subKvs_pos L k kvs hP f hd hne) (subKvs_depth L k kvs hP f hd)
          (subKvs_keysPlain L k kvs hP)

/-- `decode` on a rendered document whose lines all have a key, whose keys are
strings or indices and in which no key path is a proper prefix of another, in
terms of `makeKeyStringOrCvtSlice` on the grouped map. -/
theorem decode_doc {F : Type} (L : FloatOps F) (lines : List (Line F))
    (hc : ∀ l ∈ lines, l.canon L) (hne : ∀ l ∈ lines, l.keys ≠ [])
    (hk : ∀ l ∈ lines, ∀ k ∈ l.keys, k.isKey = true)
    (hnc : ∀ a ∈ lines, ∀ b ∈ lines, a.keys <+: b.keys → a.keys = b.keys)
    (n : Int) (hn : n < 0 ∨ (lines.length : Int) ≤ n) (extra : Nat) (hm : Bool) :
    ∃ g, (docText L lines).length + 2 + extra = g + 1 ∧ 0 < g ∧
      (∀ e ∈ kvsOfLines lines, e.2.depth < g) ∧
      decode L ((docText L lines).length + 2 + extra) n ⟨docText L lines, hm⟩ =
        match makeKeyStringOrCvtSlice L (g + 1) (.map (build L g (kvsOfLines lines))) with
        | none => none
        | some (.error e) => some (.error e)
        | some (.ok t) => some (.ok (t, ⟨[], lines.isEmpty && hm || !lines.isEmpty⟩)) := by
  have hlen := docText_length L lines
  refine ⟨(docText L lines).length + 1 + extra, by omega, by omega,
    kvsOfLines_depth lines hne _ (by omega), ?_⟩
  have hdm := decodeToMapOrV_doc L lines hc hne hk hnc n hn
    ((docText L lines).length + 2 + extra) (by omega) hm
  have hfe : (docText L lines).length + 2 + extra
      = ((docText L lines).length + 1 + extra) + 1 := by omega
  have hb := build_succ_eq L ((docText L lines).length + 1 + extra) (kvsOfLines lines)
    (by omega) (kvsOfLines_depth lines hne _ (by omega)) (kvsOfLines_keysPlain lines hne hk)
  rw [decode, hdm]
  simp only
  rw [hfe, hb]

/-! ## Levels of one kind of key -/

theorem firstKeys_nodup {κ : Type} (eq : κ → κ → Bool) (P : κ → Prop)
    (hl : ∀ a b, P a → (eq a b = true ↔ a = b)) (ks : List κ) (hks : ∀ a ∈ ks, P a)
    (hnd : ks.Nodup) : firstKeys eq ks = ks := by
  induction ks using List.reverseRecOn with
  | nil => rfl
  | append_singleton ks k ih =>
    have hks' : ∀ a ∈ ks, P a := fun a ha => hks a (List.mem_append_left _ ha)
    rw [List.nodup_append] at hnd
    rw [firstKeys_snoc, ih hks' hnd.1]
    exact addKey_of_not_mem eq P hl ks hks' k
      (fun h => hnd.2.2 h (List.mem_singleton_self k))

theorem entriesOf_unique {F : Type} (L : FloatOps F) (kvs : List (KV F))
    (hP : ∀ e ∈ kvs, e.1.isKey = true) (hnd : (kvs.map Prod.fst).Nodup) (e : KV F)
    (he : e ∈ kvs) : entriesOf L e.1 kvs = [e.2] := by
  induction kvs with
  | nil => cases he
  | cons x xs ih =>
    rw [List.map_cons, List.nodup_cons] at hnd
    have hxP := hP x (List.mem_cons_self _ _)
    have hP' : ∀ e ∈ xs, e.1.isKey = true := fun e he => hP e (List.mem_cons_of_mem _ he)
    rcases List.mem_cons.1 he with h | h
    · subst h
      have hnil := entriesOf_eq_nil L e.1 xs hP' hnd.1
      have : entriesOf L e.1 (e :: xs) = e.2 :: entriesOf L e.1 xs := by
        simp [entriesOf, (keyEq_iff L e.1 e.1 hxP).2 rfl]
      rw [this, hnil]
    · have hne : ¬ Tok.keyEq L x.1 e.1 = true := by
        intro hx
        apply hnd.1
        rw [(keyEq_iff L x.1 e.1 hxP).1 hx]
        exact List.mem_map_of_mem _ h
      have : entriesOf L e.1 (x :: xs) = entriesOf L e.1 xs := by
        simp [entriesOf, hne]
      rw [this, ih hP' hnd.2 h]

theorem norm_int_level {F : Type} (L : FloatOps F) (f : Nat) (m : List (Tok F × RawVal F))
    (hint : ∀ e ∈ m, ∃ i, e.1 = .int i) (hne : m ≠ []) (h : RawVal F → Tree F)
    (hrec : ∀ e ∈ m, makeKeyStringOrCvtSlice L f e.2 = some (.ok (h e.2)))
    (hnull : makeKeyStringOrCvtSlice L f (.tok .null) = some (.ok (h (.tok .null)))) :
    makeKeyStringOrCvtSlice L (f + 1) (.map m) =
      some (.ok (.seq (((m.map (fun e => e.1.intOf)).insertionSort (fun a b => a ≤ b)).map
        (fun k => h ((mapGet (Tok.keyEq L) m (.int k)).getD (.tok .null)))))) := by
  have hnone : tryMakeKeyString m [] = none := by
    apply tryMakeKeyString_none
    obtain ⟨e, he⟩ := List.exists_mem_of_ne_nil m hne
    obtain ⟨i, hi⟩ := hint e he
    exact ⟨e, he, fun s hs => by rw [hi] at hs; cases hs⟩
  have hitems := normItems_ok (makeKeyStringOrCvtSlice L f) h
    (((m.map (fun e => e.1.intOf)).insertionSort (fun a b => a ≤ b)).map
      (fun k => (mapGet (Tok.keyEq L) m (.int k)).getD (.tok .null)))
    (by
      intro v hv
      obtain ⟨k, _, rfl⟩ := List.mem_map.1 hv
      cases hg : mapGet (Tok.keyEq L) m (.int k) with
      | none => exact hnull
      | some v =>
        obtain ⟨e, he, rfl⟩ := mapGet_mem _ m _ v hg
        exact hrec e he)
  rw [makeKeyStringOrCvtSlice, hnone]
  simp only [tryCvtSlice, intKeys_some m hint, hitems, List.map_map, Function.comp_def]

theorem norm_str_level {F : Type} (L : FloatOps F) (f : Nat) (m : List (Tok F × RawVal F))
    (hstr : ∀ e ∈ m, ∃ s, e.1 = .str s) (hnd : (m.map Prod.fst).Nodup)
    (h : RawVal F → Tree F)
    (hrec : ∀ e ∈ m, makeKeyStringOrCvtSlice L f e.2 = some (.ok (h e.2))) :
    makeKeyStringOrCvtSlice L (f + 1) (.map m) =
      some (.ok (.mapping (m.map (fun e => (e.1.strOf, h e.2))))) := by
  have hsm := tryMakeKeyString_some m [] hstr hnd (fun _ _ x hx => by cases hx)
  simp only [List.nil_append] at hsm
  have hent := normEntries_ok (makeKeyStringOrCvtSlice L f) h
    (m.map (fun e => (e.1.strOf, e.2)))
    (by
      intro e he
      obtain ⟨e0, he0, rfl⟩ := List.mem_map.1 he
      exact hrec e0 he0)
  rw [makeKeyStringOrCvtSlice, hsm]
  simp only [hent, List.map_map, Function.comp_def]

theorem assoc_relookup {α : Type} (items : List (Int × α)) (d : α)
    (hnd : (items.map Prod.fst).Nodup) :
    items.map (fun e => (e.1, (mapGet (fun a b => a == b) items e.1).getD d)) = items := by
  conv_rhs => rw [← List.map_id items]
  apply List.map_congr_left
  intro e he
  rw [mapGet_of_mem (fun a b : Int => a == b) (fun _ => True) (fun a b _ => by simp) items
    (fun _ _ => trivial) hnd e he]
  rfl

/-- The grouped map of lines `#i v` with different indices: the entries in the
order of the lines. -/
theorem build_indexLines {F : Type} (L : FloatOps F) (g : Nat) (items : List (Int × Tok F))
    (hnd : (items.map Prod.fst).Nodup) :
    build L (g + 1) (kvsOfLines (items.map indexLine))
      = items.map (fun e => (Tok.int e.1, RawVal.tok e.2)) := by
  have hkvs : kvsOfLines (items.map indexLine)
      = items.map (fun e => ((Tok.int e.1, Path.leaf e.2) : KV F)) := by
    simp [kvsOfLines, indexLine, Line.toKV, List.map_map, Function.comp_def]
  have hkeys : (items.map (fun e => ((Tok.int e.1, Path.leaf e.2) : KV F))).map Prod.fst
      = items.map (fun e => (Tok.int e.1 : Tok F)) := by
    simp [List.map_map, Function.comp_def]
  have hnd2 : (items.map (fun e => (Tok.int e.1 : Tok F))).Nodup := by
    have : items.map (fun e => (Tok.int e.1 : Tok F)) = (items.map Prod.fst).map Tok.int := by
      simp [List.map_map, Function.comp_def]
    rw [this]
    exact hnd.map (fun a b hab => by cases hab; rfl)
  have hP : ∀ e ∈ items.map (fun e => ((Tok.int e.1, Path.leaf e.2) : KV F)),
      e.1.isKey = true := by
    intro e he
    obtain ⟨x, _, rfl⟩ := List.mem_map.1 he
    rfl
  rw [hkvs, build, hkeys, firstKeys_nodup (Tok.keyEq L) (fun a => a.isKey = true)
    (fun a b ha => keyEq_iff L a b ha) _ (by
      intro a ha
      obtain ⟨x, _, rfl⟩ := List.mem_map.1 ha
      rfl) hnd2, List.map_map]
  apply List.map_congr_left
  intro e he
  have hmem : ((Tok.int e.1, Path.leaf e.2) : KV F)
      ∈ items.map (fun e => ((Tok.int e.1, Path.leaf e.2) : KV F)) :=
    List.mem_map.2 ⟨e, he, rfl⟩
  have hent := entriesOf_unique L _ hP (by rw [hkeys]; exact hnd2) _ hmem
  simp only at hent
  simp [slotFor, hent, resolveSlot]

/-! ## The tree of a document with string keys -/

theorem mapGet_mem_key {κ α : Type} (eq : κ → κ → Bool) (m : List (κ × α)) (k : κ) (v : α)
    (h : mapGet eq m k = some v) : ∃ e ∈ m, eq e.1 k = true ∧ e.2 = v := by
  induction m with
  | nil => cases h
  | cons x xs ih =>
    obtain ⟨k1, v1⟩ := x
    by_cases hx : eq k1 k = true
    · simp only [mapGet, hx, if_true, Option.some.injEq] at h
      exact ⟨(k1, v1), List.mem_cons_self _ _, hx, h⟩
    · simp only [mapGet, hx, Bool.false_eq_true, if_false] at h
      obtain ⟨e, he, hk, hv⟩ := ih h
      exact ⟨e, List.mem_cons_of_mem _ he, hk, hv⟩

theorem nestedEntries_nil {F : Type} : nestedEntries ([] : List (Str × Tree F)) := by
  unfold nestedEntries
  trivial

theorem nestedEntries_cons {F : Type} (k : Str) (v : Tree F) (rest : List (Str × Tree F)) :
    nestedEntries ((k, v) :: rest) ↔ (Tree.nested v ∧ nestedEntries rest) := by
  conv_lhs => unfold nestedEntries

theorem nested_leaf {F : Type} (t : Tok F) : Tree.nested (.leaf t) := by
  unfold Tree.nested
  trivial

theorem nested_mapping {F : Type} (m : List (Str × Tree F)) :
    Tree.nested (.mapping m) ↔ ((m.map Prod.fst).Nodup ∧ m ≠ [] ∧ nestedEntries m) := by
  conv_lhs => unfold Tree.nested

theorem nestedEntries_iff {F : Type} (T : List (Str × Tree F)) :
    nestedEntries T ↔ ∀ e ∈ T, Tree.nested e.2 := by
  induction T with
  | nil =>
    constructor
    · intro _ e he; cases he
    · intro _; exact nestedEntries_nil
  | cons x xs ih =>
    obtain ⟨k, v⟩ := x
    rw [nestedEntries_cons, ih]
    simp

theorem keysPlain_of_keysStr {F : Type} (kvs : List (KV F)) (h : keysStr kvs) :
    keysPlain kvs := by
  intro e he k hk
  obtain ⟨s, rfl⟩ := h e he k hk
  rfl

theorem subKvs_keysStr {F : Type} (L : FloatOps F) (k : Tok F) (kvs : List (KV F))
    (hS : keysStr kvs) : keysStr (subKvs L k kvs) := by
  rintro ⟨k1, v1⟩ he x hx
  have h := (mem_subKvs L k kvs (keysPlain_head kvs (keysPlain_of_keysStr kvs hS)) k1 v1).1 he
  exact hS _ h x (by
    simp only [kvKeys, Path.keys, List.mem_cons] at hx ⊢
    exact Or.inr hx)

theorem subKvs_sameLeaf {F : Type} (L : FloatOps F) (k : Tok F) (kvs : List (KV F))
    (hP : keysPlain kvs) (hsl : sameLeaf kvs) : sameLeaf (subKvs L k kvs) := by
  rintro ⟨k1, v1⟩ ha ⟨k2, v2⟩ hb heq
  have h1 := (mem_subKvs L k kvs (keysPlain_head kvs hP) k1 v1).1 ha
  have h2 := (mem_subKvs L k kvs (keysPlain_head kvs hP) k2 v2).1 hb
  have := hsl _ h1 _ h2 (by
    simp only [kvKeys, Path.keys] at heq ⊢
    rw [heq])
  simpa [Path.leafTok] using this

theorem normOr_of_eq {F : Type} (L : FloatOps F) (f : Nat) (v : RawVal F) (t : Tree F)
    (h : makeKeyStringOrCvtSlice L f v = some (.ok t)) : normOr L f v = t := by
  simp [normOr, h]

/-- On the grouped map of lines with string keys, `makeKeyStringOrCvtSlice`
returns the nested mapping in which every line is reached by its keys and
which has no other leaf. -/
theorem norm_build_str {F : Type} (L : FloatOps F) (g : Nat) (kvs : List (KV F))
    (hg : 0 < g) (hd : ∀ e ∈ kvs, e.2.depth < g) (hS : keysStr kvs) (hnc : noClash kvs)
    (hsl : sameLeaf kvs) :
    ∃ T, makeKeyStringOrCvtSlice L (g + 1) (.map (build L g kvs)) = some (.ok (.mapping T)) ∧
      (T.map Prod.fst).Nodup ∧ nestedEntries T ∧ (kvs ≠ [] → T ≠ []) ∧
      (∀ e ∈ kvs, Tree.get ((kvKeys e).map Tok.strOf) (.mapping T)
        = some (.leaf e.2.leafTok)) ∧
      (∀ ks t, Tree.get ks (.mapping T) = some (.leaf t) →
        ∃ e ∈ kvs, (kvKeys e).map Tok.strOf = ks ∧ e.2.leafTok = t) := by
  induction g generalizing kvs with
  | zero => omega
  | succ g ih =>
    have hP := keysPlain_of_keysStr kvs hS
    obtain ⟨_, hnd, hkP, hmemk⟩ := build_keys L g kvs hP
    have hentry := build_entry L g kvs hP hnc
    have hsub : ∀ k, subKvs L k kvs ≠ [] →
        ∃ T, makeKeyStringOrCvtSlice L (g + 1) (.map (build L g (subKvs L k kvs)))
            = some (.ok (.mapping T)) ∧
          (T.map Prod.fst).Nodup ∧ nestedEntries T ∧ (subKvs L k kvs ≠ [] → T ≠ []) ∧
          (∀ e ∈ subKvs L k kvs, Tree.get ((kvKeys e).map Tok.strOf) (.mapping T)
            = some (.leaf e.2.leafTok)) ∧
          (∀ ks t, Tree.get ks (.mapping T) = some (.leaf t) →
            ∃ e ∈ subKvs L k kvs, (kvKeys e).map Tok.strOf = ks ∧ e.2.leafTok = t) :=
      fun k hne => ih _ (subKvs_pos L k kvs hP g hd hne) (subKvs_depth L k kvs hP g hd)
        (subKvs_keysStr L k kvs hS) (subKvs_noClash L k kvs hP hnc)
        (subKvs_sameLeaf L k kvs hP hsl)
    have hrec : ∀ e ∈ build L (g + 1) kvs,
        makeKeyStringOrCvtSlice L (g + 1) e.2 = some (.ok (normOr L (g + 1) e.2)) := by
      intro e he
      rcases hentry e he with ⟨t, ht, _⟩ | ⟨hm, hne⟩
      · rw [ht]; rfl
      · obtain ⟨T1, hT1, _⟩ := hsub e.1 hne
        rw [hm, normOr_of_eq L _ _ _ hT1, hT1]
    have hstrm : ∀ e ∈ build L (g + 1) kvs, ∃ s, e.1 = Tok.str s := by
      intro e he
      have := (hmemk e.1).1 (List.mem_map_of_mem _ he)
      obtain ⟨e0, he0, h0⟩ := List.mem_map.1 this
      rw [← h0]
      exact hS e0 he0 e0.1 (List.mem_cons_self _ _)
    have hnorm := norm_str_level L (g + 1) _ hstrm hnd (normOr L (g + 1)) hrec
    have hTnd : ((build L (g + 1) kvs).map
        (fun e => (e.1.strOf, normOr L (g + 1) e.2))).map Prod.fst |>.Nodup := by
      rw [List.map_map]
      have : (Prod.fst ∘ fun e : Tok F × RawVal F => (e.1.strOf, normOr L (g + 1) e.2))
          = Tok.strOf ∘ Prod.fst := rfl
      rw [this, ← List.map_map]
      apply List.Nodup.map_on _ hnd
      intro x hx y hy hxy
      obtain ⟨ex, hex, rfl⟩ := List.mem_map.1 hx
      obtain ⟨ey, hey, rfl⟩ := List.mem_map.1 hy
      obtain ⟨sx, hsx⟩ := hstrm ex hex
      obtain ⟨sy, hsy⟩ := hstrm ey hey
      rw [hsx, hsy] at hxy ⊢
      simp only [Tok.strOf] at hxy
      rw [hxy]
    have hlook : ∀ e ∈ build L (g + 1) kvs,
        mapGet (fun a b => a == b)
          ((build L (g + 1) kvs).map (fun e => (e.1.strOf, normOr L (g + 1) e.2))) e.1.strOf
          = some (normOr L (g + 1) e.2) := by
      intro e he
      exact mapGet_of_mem (fun a b : Str => a == b) (fun _ => True) (fun a b _ => by simp) _
        (fun _ _ => trivial) hTnd (e.1.strOf, normOr L (g + 1) e.2)
        (List.mem_map.2 ⟨e, he, rfl⟩)
    refine ⟨_, hnorm, hTnd, ?_, ?_, ?_, ?_⟩
    · rw [nestedEntries_iff]
      intro eT heT
      obtain ⟨e, he, rfl⟩ := List.mem_map.1 heT
      rcases hentry e he with ⟨t, ht, _⟩ | ⟨hm, hne⟩
      · simp only [ht]
        show Tree.nested (normOr L (g + 1) (.tok t))
        exact nested_leaf t
      · obtain ⟨T1, hT1, hnd1, hne1, hnn1, _⟩ := hsub e.1 hne
        simp only [hm, normOr_of_eq L _ _ _ hT1]
        exact (nested_mapping T1).2 ⟨hnd1, hnn1 hne, hne1⟩
    · intro hne hnil
      obtain ⟨e0, he0⟩ := List.exists_mem_of_ne_nil kvs hne
      have h1 := build_has L g kvs hP e0.1 (List.mem_map_of_mem _ he0)
      have h2 : (e0.1.strOf, normOr L (g + 1) (resolveSlot (build L g) (slotFor L e0.1 kvs)))
          ∈ (build L (g + 1) kvs).map (fun e => (e.1.strOf, normOr L (g + 1) e.2)) :=
        List.mem_map.2 ⟨_, h1, rfl⟩
      rw [hnil] at h2
      cases h2
    · rintro ⟨k, p⟩ he
      have hem := build_has L g kvs hP k (List.mem_map.2 ⟨_, he, rfl⟩)
      have hl := hlook _ hem
      simp only at hl
      rcases hentry _ hem with ⟨t, ht, hmem⟩ | ⟨hm, hne⟩
      · simp only at ht hmem
        cases p with
        | leaf t2 =>
          have := hsl _ he _ hmem rfl
          simp only [Path.leafTok] at this
          subst this
          simp only [kvKeys, Path.keys, List.map_cons, List.map_nil, Tree.get, hl, ht,
            Option.bind_some, Path.leafTok]
          rfl
        | kv k1 v1 =>
          exfalso
          have := hnc _ hmem _ he (by simp [kvKeys, Path.keys])
          simp [kvKeys, Path.keys] at this
      · simp only at hm hne
        obtain ⟨T1, hT1, _, _, _, ha1, _⟩ := hsub k hne
        cases p with
        | leaf t2 =>
          exfalso
          obtain ⟨⟨k1, v1⟩, he1⟩ := List.exists_mem_of_ne_nil _ hne
          have h1 := (mem_subKvs L k kvs (keysPlain_head kvs hP) k1 v1).1 he1
          have := hnc _ he _ h1 (by simp [kvKeys, Path.keys])
          simp [kvKeys, Path.keys] at this
        | kv k1 v1 =>
          have hs1 := (mem_subKvs L k kvs (keysPlain_head kvs hP) k1 v1).2 he
          have := ha1 _ hs1
          simp only [kvKeys, Path.keys, List.map_cons, Tree.get, hl, hm,
            normOr_of_eq L _ _ _ hT1, Option.bind_some, Path.leafTok] at this ⊢
          exact this
    · intro ks t hget
      cases ks with
      | nil => simp [Tree.get] at hget
      | cons s ks1 =>
        simp only [Tree.get] at hget
        cases hmg : mapGet (fun a b => a == b)
            ((build L (g + 1) kvs).map (fun e => (e.1.strOf, normOr L (g + 1) e.2))) s with
        | none => simp [hmg] at hget
        | some c =>
          simp only [hmg, Option.bind_some] at hget
          obtain ⟨eT, heT, hkey, hval⟩ := mapGet_mem_key _ _ _ _ hmg
          obtain ⟨e, he, rfl⟩ := List.mem_map.1 heT
          simp only [beq_iff_eq] at hkey
          simp only at hval
          obtain ⟨s0, hs0⟩ := hstrm e he
          rcases hentry e he with ⟨t0, ht0, hmem⟩ | ⟨hm, hne⟩
          · rw [ht0] at hval
            have hc : c = .leaf t0 := hval.symm
            subst hc
            cases ks1 with
            | nil =>
              simp [Tree.get] at hget
              subst hget
              refine ⟨_, hmem, ?_, rfl⟩
              simp [kvKeys, Path.keys, hkey]
            | cons s2 ks2 => simp [Tree.get] at hget
          · obtain ⟨T1, hT1, _, _, _, _, hb1⟩ := hsub e.1 hne
            rw [hm, normOr_of_eq L _ _ _ hT1] at hval
            subst hval
            obtain ⟨⟨k1, v1⟩, he1, hk1, hl1⟩ := hb1 ks1 t hget
            have h1 := (mem_subKvs L e.1 kvs (keysPlain_head kvs hP) k1 v1).1 he1
            refine ⟨_, h1, ?_, ?_⟩
            · simp only [kvKeys, Path.keys, List.map_cons] at hk1 ⊢
              rw [hkey, hk1]
            · simpa [Path.leafTok] using hl1

/-! ## The lines of a tree -/

theorem plainEntries_iff {F : Type} (L : FloatOps F) (m : List (Str × Tree F)) :
    plainEntries L m ↔ ∀ e ∈ m, (e.1 ≠ [] ∧ reservedFree e.1) ∧ Tree.plain L e.2 := by
  induction m with
  | nil =>
    constructor
    · intro _ e he; cases he
    · intro _; unfold plainEntries; trivial
  | cons x xs ih =>
    obtain ⟨k, v⟩ := x
    conv_lhs => unfold plainEntries
    rw [ih]
    simp only [List.mem_cons, forall_eq_or_imp, and_assoc]

theorem plainItems_iff {F : Type} (L : FloatOps F) (l : List (Tree F)) :
    plainItems L l ↔ ∀ v ∈ l, Tree.plain L v := by
  induction l with
  | nil =>
    constructor
    · intro _ e he; cases he
    · intro _; unfold plainItems; trivial
  | cons x xs ih =>
    conv_lhs => unfold plainItems
    rw [ih]
    simp only [List.mem_cons, forall_eq_or_imp]

theorem plain_mapping {F : Type} (L : FloatOps F) (m : List (Str × Tree F)) :
    Tree.plain L (.mapping m) ↔ (m ≠ [] ∧ (m.map Prod.fst).Nodup ∧ plainEntries L m) := by
  conv_lhs => unfold Tree.plain

theorem plain_seq {F : Type} (L : FloatOps F) (l : List (Tree F)) :
    Tree.plain L (.seq l) ↔ (l ≠ [] ∧ l.length < 2 ^ 63 ∧ plainItems L l) := by
  conv_lhs => unfold Tree.plain

theorem plain_leaf {F : Type} (L : FloatOps F) (t : Tok F) :
    Tree.plain L (.leaf t) ↔ leafOK L t := by
  conv_lhs => unfold Tree.plain

theorem height_entries {F : Type} (m : List (Str × Tree F)) (e : Str × Tree F) (he : e ∈ m) :
    Tree.height e.2 ≤ heightEntries m := by
  induction m with
  | nil => cases he
  | cons x xs ih =>
    obtain ⟨k, v⟩ := x
    unfold heightEntries
    rcases List.mem_cons.1 he with h | h
    · subst h; exact Nat.le_max_left _ _
    · exact le_trans (ih h) (Nat.le_max_right _ _)

theorem height_items {F : Type} (l : List (Tree F)) (v : Tree F) (hv : v ∈ l) :
    Tree.height v ≤ heightItems l := by
  induction l with
  | nil => cases hv
  | cons x xs ih =>
    unfold heightItems
    rcases List.mem_cons.1 hv with h | h
    · subst h; exact Nat.le_max_left _ _
    · exact le_trans (ih h) (Nat.le_max_right _ _)

theorem linesEntries_eq {F : Type} (m : List (Str × Tree F)) :
    linesEntries m = m.flatMap (fun e => (Tree.lines e.2).map (Line.push (.str e.1))) := by
  induction m with
  | nil => unfold linesEntries; rfl
  | cons x xs ih =>
    obtain ⟨k, v⟩ := x
    unfold linesEntries
    rw [ih, List.flatMap_cons]

theorem linesItems_eq {F : Type} (i : Nat) (l : List (Tree F)) :
    linesItems i l
      = (l.enumFrom i).flatMap (fun p => (Tree.lines p.2).map (Line.push (.int p.1))) := by
  induction l generalizing i with
  | nil => unfold linesItems; rfl
  | cons x xs ih =>
    unfold linesItems
    rw [ih, List.enumFrom_cons, List.flatMap_cons]

/-- The lines of a mapping or sequence: the lines of every child behind the key
of the child. -/
theorem lines_groups {F : Type} (x : Tree F) (hx : ∀ t, x ≠ .leaf t) :
    Tree.lines x = (Tree.groups x).flatMap (fun g => (Tree.lines g.2).map (Line.push g.1)) := by
  cases x with
  | leaf t => exact absurd rfl (hx t)
  | mapping m =>
    conv_lhs => unfold Tree.lines
    rw [linesEntries_eq, Tree.groups, List.flatMap_map]
  | seq l =>
    conv_lhs => unfold Tree.lines
    rw [linesItems_eq, Tree.groups, List.flatMap_map]

theorem enumFrom_fst_nodup {α : Type} (i : Nat) (l : List α) :
    ((l.enumFrom i).map Prod.fst).Nodup ∧ ∀ p ∈ l.enumFrom i, i ≤ p.1 ∧ p.1 < i + l.length := by
  induction l generalizing i with
  | nil => simp
  | cons x xs ih =>
    obtain ⟨h1, h2⟩ := ih (i + 1)
    rw [List.enumFrom_cons, List.map_cons, List.nodup_cons]
    refine ⟨⟨?_, h1⟩, ?_⟩
    · intro hmem
      obtain ⟨p, hp, hpi⟩ := List.mem_map.1 hmem
      have := (h2 p hp).1
      simp only at hpi
      omega
    · intro p hp
      rcases List.mem_cons.1 hp with h | h
      · subst h; simp
      · have := h2 p h
        simp only [List.length_cons]
        omega

/-- The children of a mapping or sequence that round-trips: there is one, their
keys are different strings or indices that can be written, and every child
round-trips and is lower than the node. -/
theorem groups_spec {F : Type} (L : FloatOps F) (x : Tree F) (hx : ∀ t, x ≠ .leaf t)
    (hp : Tree.plain L x) :
    Tree.groups x ≠ [] ∧ ((Tree.groups x).map Prod.fst).Nodup ∧
      ∀ g ∈ Tree.groups x, Tree.plain L g.2 ∧ Tree.height g.2 < Tree.height x ∧
        g.1.isKey = true ∧ g.1.canon L := by
  cases x with
  | leaf t => exact absurd rfl (hx t)
  | mapping m =>
    obtain ⟨hne, hnd, hpe⟩ := (plain_mapping L m).1 hp
    rw [plainEntries_iff] at hpe
    refine ⟨by simpa [Tree.groups] using hne, ?_, ?_⟩
    · have : (Tree.groups (.mapping m)).map Prod.fst = (m.map Prod.fst).map Tok.str := by
        simp [Tree.groups, List.map_map, Function.comp_def]
      rw [this]
      exact hnd.map (fun a b hab => by cases hab; rfl)
    · intro g hg
      obtain ⟨e, he, rfl⟩ := List.mem_map.1 hg
      refine ⟨(hpe e he).2, ?_, rfl, trivial⟩
      have := height_entries m e he
      show Tree.height e.2 < Tree.height (.mapping m)
      conv_rhs => unfold Tree.height
      omega
  | seq l =>
    obtain ⟨hne, hlen, hpe⟩ := (plain_seq L l).1 hp
    rw [plainItems_iff] at hpe
    obtain ⟨hnd, hrange⟩ := enumFrom_fst_nodup 0 l
    refine ⟨?_, ?_, ?_⟩
    · cases l with
      | nil => exact absurd rfl hne
      | cons v vs => simp [Tree.groups, List.enumFrom_cons]
    · have : (Tree.groups (.seq l)).map Prod.fst
          = ((l.enumFrom 0).map Prod.fst).map (fun i : Nat => (Tok.int i : Tok F)) := by
        simp only [Tree.groups, List.map_map, Function.comp_def]
      rw [this]
      exact hnd.map (fun a b hab => by
        simp only [Tok.int.injEq, Nat.cast_inj] at hab
        exact hab)
    · intro g hg
      obtain ⟨p, hp1, rfl⟩ := List.mem_map.1 hg
      have hmem : p.2 ∈ l := by
        have := List.mem_enumFrom hp1
        rw [this.2.2]
        exact List.getElem_mem _
      refine ⟨hpe _ hmem, ?_, rfl, ?_⟩
      · have := height_items l p.2 hmem
        show Tree.height p.2 < Tree.height (.seq l)
        conv_rhs => unfold Tree.height
        omega
      · have := (hrange p hp1).2
        refine ⟨Int.natCast_nonneg _, ?_⟩
        have h2 : (p.1 : Int) < (2 ^ 63 : Nat) := by
          exact_mod_cast (by omega : p.1 < 2 ^ 63)
        simpa using h2

theorem eq_of_fst_eq {α β : Type} (l : List (α × β)) (hnd : (l.map Prod.fst).Nodup)
    (a b : α × β) (ha : a ∈ l) (hb : b ∈ l) (h : a.1 = b.1) : a = b := by
  induction l with
  | nil => cases ha
  | cons x xs ih =>
    rw [List.map_cons, List.nodup_cons] at hnd
    rcases List.mem_cons.1 ha with h1 | h1 <;> rcases List.mem_cons.1 hb with h2 | h2
    · rw [h1, h2]
    · exfalso
      apply hnd.1
      rw [← h1, h]
      exact List.mem_map_of_mem _ h2
    · exfalso
      apply hnd.1
      rw [← h2, ← h]
      exact List.mem_map_of_mem _ h1
    · exact ih hnd.2 h1 h2

/-- Rows grouped behind different first tokens are prefix-free when the rows of
every group are. -/
theorem prefixFree_groups {α : Type} (groups : List (α × List (List α)))
    (hnd : (groups.map Prod.fst).Nodup) (hpf : ∀ g ∈ groups, prefixFree g.2) :
    prefixFree (groups.flatMap (fun g => g.2.map (fun r => g.1 :: r))) := by
  intro r1 h1 r2 h2 hpre
  obtain ⟨g1, hg1, hr1⟩ := List.mem_flatMap.1 h1
  obtain ⟨g2, hg2, hr2⟩ := List.mem_flatMap.1 h2
  obtain ⟨a, ha, rfl⟩ := List.mem_map.1 hr1
  obtain ⟨b, hb, rfl⟩ := List.mem_map.1 hr2
  rw [List.cons_prefix_cons] at hpre
  have hg : g1 = g2 := eq_of_fst_eq groups hnd g1 g2 hg1 hg2 hpre.1
  subst hg
  rw [hpf g1 hg1 a ha b hb hpre.2]

theorem render_injective {F : Type} (L : FloatOps F) (t1 t2 : Tok F) (h1 : t1.canon L)
    (h2 : t2.canon L) (h : t1.render L = t2.render L) : t1 = t2 := by
  have e1 := Token_render L t1 h1 ['\n'] (Or.inr (Or.inr rfl)) false
  have e2 := Token_render L t2 h2 ['\n'] (Or.inr (Or.inr rfl)) false
  rw [h, e2] at e1
  simp only [Except.ok.injEq, Prod.mk.injEq] at e1
  exact e1.1.symm

theorem leafOK_canon {F : Type} (L : FloatOps F) (t : Tok F) (h : leafOK L t) : t.canon L := by
  cases t with
  | eol => exact h
  | str s => trivial
  | int i => exact absurd h (by simp [leafOK])
  | float f => exact h
  | bool b => trivial
  | null => exact absurd h (by simp [leafOK])

/-- The lines of a value that round-trips: there is one, every token can be
written, every key is a string or an index, and neither the key paths nor the
rows have one that is a proper prefix of another. -/
theorem lines_spec {F : Type} (L : FloatOps F) (n : Nat) (x : Tree F)
    (hn : Tree.height x ≤ n) (hp : Tree.plain L x) :
    Tree.lines x ≠ [] ∧ (∀ l ∈ Tree.lines x, l.canon L) ∧
      (∀ l ∈ Tree.lines x, ∀ k ∈ l.keys, k.isKey = true) ∧
      prefixFree ((Tree.lines x).map (fun l => l.keys)) ∧
      prefixFree ((Tree.lines x).map (Line.row L)) := by
  induction n generalizing x with
  | zero =>
    cases x with
    | leaf t =>
      have ht := leafOK_canon L t ((plain_leaf L t).1 hp)
      unfold Tree.lines
      refine ⟨by simp, ?_, ?_, ?_, ?_⟩
      · intro l hl
        simp only [List.mem_singleton] at hl
        subst hl
        exact ⟨fun k hk => absurd hk (List.not_mem_nil k), ht⟩
      · intro l hl k hk
        simp only [List.mem_singleton] at hl
        subst hl
        cases hk
      · intro r1 h1 r2 h2 _
        simp only [List.map_cons, List.map_nil, List.mem_singleton] at h1 h2
        rw [h1, h2]
      · intro r1 h1 r2 h2 _
        simp only [List.map_cons, List.map_nil, List.mem_singleton] at h1 h2
        rw [h1, h2]
    | mapping m =>
      exfalso
      have : Tree.height (.mapping m) = heightEntries m + 1 := by
        conv_lhs => unfold Tree.height
      omega
    | seq l =>
      exfalso
      have : Tree.height (.seq l) = heightItems l + 1 := by
        conv_lhs => unfold Tree.height
      omega
  | succ n ih =>
    by_cases hx : ∀ t, x ≠ .leaf t
    · obtain ⟨hgne, hgnd, hg⟩ := groups_spec L x hx hp
      have hch : ∀ g ∈ Tree.groups x, Tree.lines g.2 ≠ [] ∧
          (∀ l ∈ Tree.lines g.2, l.canon L) ∧
          (∀ l ∈ Tree.lines g.2, ∀ k ∈ l.keys, k.isKey = true) ∧
          prefixFree ((Tree.lines g.2).map (fun l => l.keys)) ∧
          prefixFree ((Tree.lines g.2).map (Line.row L)) :=
        fun g hgm => ih g.2 (by have := (hg g hgm).2.1; omega) (hg g hgm).1
      rw [lines_groups x hx]
      refine ⟨?_, ?_, ?_, ?_, ?_⟩
      · obtain ⟨g, hgm⟩ := List.exists_mem_of_ne_nil _ hgne
        obtain ⟨l, hl⟩ := List.exists_mem_of_ne_nil _ (hch g hgm).1
        exact List.ne_nil_of_mem
          (List.mem_flatMap.2 ⟨g, hgm, List.mem_map_of_mem _ hl⟩)
      · intro l hl
        obtain ⟨g, hgm, hl1⟩ := List.mem_flatMap.1 hl
        obtain ⟨l0, hl0, rfl⟩ := List.mem_map.1 hl1
        have := (hch g hgm).2.1 l0 hl0
        refine ⟨?_, this.2⟩
        intro k hk
        rcases List.mem_cons.1 hk with h | h
        · rw [h]; exact (hg g hgm).2.2.2
        · exact this.1 k h
      · intro l hl k hk
        obtain ⟨g, hgm, hl1⟩ := List.mem_flatMap.1 hl
        obtain ⟨l0, hl0, rfl⟩ := List.mem_map.1 hl1
        rcases List.mem_cons.1 hk with h | h
        · rw [h]; exact (hg g hgm).2.2.1
        · exact (hch g hgm).2.2.1 l0 hl0 k h
      · have := prefixFree_groups
          ((Tree.groups x).map (fun g => (g.1, (Tree.lines g.2).map (fun l => l.keys))))
          (by rw [List.map_map]; exact hgnd)
          (by
            intro g hgm
            obtain ⟨g0, hg0, rfl⟩ := List.mem_map.1 hgm
            exact (hch g0 hg0).2.2.2.1)
        simpa [List.map_flatMap, List.flatMap_map, List.map_map, Function.comp_def,
          Line.push] using this
      · have := prefixFree_groups
          ((Tree.groups x).map (fun g => (g.1.render L, (Tree.lines g.2).map (Line.row L))))
          (by
            rw [List.map_map]
            have : (Prod.fst ∘ fun g : Tok F × Tree F =>
                (g.1.render L, (Tree.lines g.2).map (Line.row L)))
                = (Tok.render L) ∘ Prod.fst := rfl
            rw [this, ← List.map_map]
            apply List.Nodup.map_on _ hgnd
            intro a ha b hb hab
            obtain ⟨ga, hga, rfl⟩ := List.mem_map.1 ha
            obtain ⟨gb, hgb, rfl⟩ := List.mem_map.1 hb
            exact render_injective L _ _ (hg ga hga).2.2.2 (hg gb hgb).2.2.2 hab)
          (by
            intro g hgm
            obtain ⟨g0, hg0, rfl⟩ := List.mem_map.1 hgm
            exact (hch g0 hg0).2.2.2.2)
        simpa [List.map_flatMap, List.flatMap_map, List.map_map, Function.comp_def,
          Line.push, Line.row] using this
    · push_neg at hx
      obtain ⟨t, rfl⟩ := hx
      have h0 : Tree.height (.leaf t : Tree F) ≤ 0 := by
        have : Tree.height (.leaf t : Tree F) = 0 := by
          conv_lhs => unfold Tree.height
        omega
      have ht := leafOK_canon L t ((plain_leaf L t).1 hp)
      unfold Tree.lines
      refine ⟨by simp, ?_, ?_, ?_, ?_⟩
      · intro l hl
        simp only [List.mem_singleton] at hl
        subst hl
        exact ⟨fun k hk => absurd hk (List.not_mem_nil k), ht⟩
      · intro l hl k hk
        simp only [List.mem_singleton] at hl
        subst hl
        cases hk
      · intro r1 h1 r2 h2 _
        simp only [List.map_cons, List.map_nil, List.mem_singleton] at h1 h2
        rw [h1, h2]
      · intro r1 h1 r2 h2 _
        simp only [List.map_cons, List.map_nil, List.mem_singleton] at h1 h2
        rw [h1, h2]

/-! ## The rows of a tree -/

theorem flatMap_escChar_reservedFree (s : Str) (h : reservedFree s) :
    s.flatMap escChar = s := by
  induction s with
  | nil => rfl
  | cons c cs ih =>
    have hc := h c (List.mem_cons_self _ _)
    have hcs : reservedFree cs := fun x hx => h x (List.mem_cons_of_mem _ hx)
    rw [List.flatMap_cons, ih hcs]
    simp [escChar, hc.1, hc.2.1, hc.2.2.1]

theorem escape_reservedFree (s : Str) (hne : s ≠ []) (h : reservedFree s) : escape s = s := by
  cases s with
  | nil => exact absurd rfl hne
  | cons c cs =>
    have hc := h c (List.mem_cons_self _ _)
    rw [escape_cons, flatMap_escChar_reservedFree _ h]
    simp [hc.2.2.2.1, hc.2.2.2.2]

theorem reflect_mapping {F : Type} (m : List (Str × Tree F)) :
    Tree.reflect (.mapping m) = .map (reflectEntries m) := by
  conv_lhs => unfold Tree.reflect

theorem reflect_seq {F : Type} (l : List (Tree F)) :
    Tree.reflect (.seq l) = .slice (reflectItems l) := by
  conv_lhs => unfold Tree.reflect

theorem toRows_map {F : Type} (L : FloatOps F) (entries : List (GoVal F × GoVal F)) :
    toRows L (.map entries) = toRowsMap L entries := by
  conv_lhs => unfold toRows

theorem toRows_slice {F : Type} (L : FloatOps F) (items : List (GoVal F)) :
    toRows L (.slice items) = toRowsSlice L 0 items := by
  conv_lhs => unfold toRows

theorem toRows_leaf {F : Type} (L : FloatOps F) (t : Tok F) (h : leafOK L t) :
    toRows L (Tree.reflect (.leaf t)) = .ok [[t.render L]] := by
  cases t with
  | eol => exact absurd h (by simp [leafOK])
  | str s =>
    unfold Tree.reflect toRows
    rfl
  | int i => exact absurd h (by simp [leafOK])
  | float f =>
    unfold Tree.reflect toRows
    simp [primRows, notatePrim, Tok.render]
  | bool b =>
    unfold Tree.reflect toRows
    cases b <;> rfl
  | null => exact absurd h (by simp [leafOK])

theorem toRows_reflectElem {F : Type} (L : FloatOps F) (x : Tree F) (hp : Tree.plain L x) :
    toRows L (Tree.reflectElem x) = toRows L (Tree.reflect x) := by
  cases x with
  | leaf t =>
    have h := (plain_leaf L t).1 hp
    cases t with
    | eol => exact absurd h (by simp [leafOK])
    | str s => unfold Tree.reflectElem Tree.reflect; conv_lhs => unfold toRows
    | int i => exact absurd h (by simp [leafOK])
    | float f => unfold Tree.reflectElem Tree.reflect; conv_lhs => unfold toRows
    | bool b => unfold Tree.reflectElem Tree.reflect; conv_lhs => unfold toRows
    | null => exact absurd h (by simp [leafOK])
  | mapping m => unfold Tree.reflectElem Tree.reflect; conv_lhs => unfold toRows
  | seq l => unfold Tree.reflectElem Tree.reflect; conv_lhs => unfold toRows

theorem toRowsMap_reflect {F : Type} (L : FloatOps F) (R : Tree F → List (List Str))
    (m : List (Str × Tree F))
    (h : ∀ e ∈ m, (e.1 ≠ [] ∧ reservedFree e.1) ∧
      toRows L (Tree.reflectElem e.2) = .ok (R e.2)) :
    toRowsMap L (reflectEntries m)
      = .ok (m.flatMap (fun e => (R e.2).map (fun r => e.1 :: r))) := by
  induction m with
  | nil => unfold reflectEntries toRowsMap; rfl
  | cons x xs ih =>
    obtain ⟨k, v⟩ := x
    obtain ⟨⟨hk1, hk2⟩, hv⟩ := h (k, v) (List.mem_cons_self _ _)
    simp only at hk1 hk2 hv
    unfold reflectEntries toRowsMap
    have hn : notatePrim L (GoVal.string k : GoVal F) = some (escape k) := rfl
    rw [hn]
    simp only [hv, ih (fun e he => h e (List.mem_cons_of_mem _ he)),
      escape_reservedFree k hk1 hk2, prefixSl, List.flatMap_cons]

theorem toRowsSlice_reflect {F : Type} (L : FloatOps F) (R : Tree F → List (List Str))
    (l : List (Tree F)) (i : Nat)
    (h : ∀ v ∈ l, toRows L (Tree.reflectElem v) = .ok (R v)) :
    toRowsSlice L i (reflectItems l)
      = .ok ((l.enumFrom i).flatMap (fun p => (R p.2).map (fun r => indexToken p.1 :: r))) := by
  induction l generalizing i with
  | nil => unfold reflectItems toRowsSlice; rfl
  | cons v vs ih =>
    have hv := h v (List.mem_cons_self _ _)
    unfold reflectItems toRowsSlice
    simp only [hv, ih (i + 1) (fun e he => h e (List.mem_cons_of_mem _ he)), prefixSl,
      List.enumFrom_cons, List.flatMap_cons]

/-- Flattening a value that round-trips succeeds and gives the rows of its
lines. -/
theorem toRows_lines {F : Type} (L : FloatOps F) (n : Nat) (x : Tree F)
    (hn : Tree.height x ≤ n) (hp : Tree.plain L x) :
    toRows L (Tree.reflect x) = .ok ((Tree.lines x).map (Line.row L)) := by
  induction n generalizing x with
  | zero =>
    cases x with
    | leaf t =>
      rw [toRows_leaf L t ((plain_leaf L t).1 hp)]
      unfold Tree.lines
      rfl
    | mapping m =>
      exfalso
      have : Tree.height (.mapping m) = heightEntries m + 1 := by
        conv_lhs => unfold Tree.height
      omega
    | seq l =>
      exfalso
      have : Tree.height (.seq l) = heightItems l + 1 := by
        conv_lhs => unfold Tree.height
      omega
  | succ n ih =>
    cases x with
    | leaf t =>
      rw [toRows_leaf L t ((plain_leaf L t).1 hp)]
      unfold Tree.lines
      rfl
    | mapping m =>
      obtain ⟨_, _, hpe⟩ := (plain_mapping L m).1 hp
      rw [plainEntries_iff] at hpe
      have hh : Tree.height (.mapping m) = heightEntries m + 1 := by
        conv_lhs => unfold Tree.height
      rw [reflect_mapping, toRows_map, toRowsMap_reflect L
        (fun v => (Tree.lines v).map (Line.row L)) m (fun e he => ⟨(hpe e he).1, by
          rw [toRows_reflectElem L e.2 (hpe e he).2]
          exact ih e.2 (by have := height_entries m e he; omega) (hpe e he).2⟩)]
      conv_rhs => unfold Tree.lines
      rw [linesEntries_eq, List.map_flatMap]
      congr 1
      apply List.flatMap_congr
      intro e he
      rw [List.map_map, List.map_map]
      apply List.map_congr_left
      intro l _
      simp [Line.row, Line.push, Tok.render, escape_reservedFree e.1 (hpe e he).1.1
        (hpe e he).1.2]
    | seq l =>
      obtain ⟨_, _, hpe⟩ := (plain_seq L l).1 hp
      rw [plainItems_iff] at hpe
      have hh : Tree.height (.seq l) = heightItems l + 1 := by
        conv_lhs => unfold Tree.height
      rw [reflect_seq, toRows_slice, toRowsSlice_reflect L
        (fun v => (Tree.lines v).map (Line.row L)) l 0 (fun v hv => by
          rw [toRows_reflectElem L v (hpe v hv)]
          exact ih v (by have := height_items l v hv; omega) (hpe v hv))]
      conv_rhs => unfold Tree.lines
      rw [linesItems_eq, List.map_flatMap]
      congr 1
      apply List.flatMap_congr
      intro e he
      rw [List.map_map, List.map_map]
      apply List.map_congr_left
      intro l _
      simp [Line.row, Line.push, Tok.render]

/-! ## The grouped map of the lines of a tree -/

theorem foldl_addKey_same {κ α : Type} (eq : κ → κ → Bool) (P : κ → Prop)
    (hl : ∀ a b, P a → (eq a b = true ↔ a = b)) (acc : List κ) (hacc : ∀ a ∈ acc, P a)
    (k : κ) (hk : k ∈ acc) (ps : List α) :
    (ps.map (fun _ => k)).foldl (addKey eq) acc = acc := by
  induction ps with
  | nil => rfl
  | cons p ps ih =>
    rw [List.map_cons, List.foldl_cons, addKey_of_mem eq P hl acc hacc k hk]
    exact ih

theorem firstKeys_groups {κ α : Type} (eq : κ → κ → Bool) (P : κ → Prop)
    (hl : ∀ a b, P a → (eq a b = true ↔ a = b)) (groups : List (κ × List α))
    (hP : ∀ g ∈ groups, P g.1) (hnd : (groups.map Prod.fst).Nodup)
    (hne : ∀ g ∈ groups, g.2 ≠ []) (acc : List κ) (hacc : ∀ a ∈ acc, P a)
    (hdis : ∀ g ∈ groups, g.1 ∉ acc) :
    (groups.flatMap (fun g => g.2.map (fun _ => g.1))).foldl (addKey eq) acc
      = acc ++ groups.map Prod.fst := by
  induction groups generalizing acc with
  | nil => simp
  | cons g gs ih =>
    obtain ⟨k, ps⟩ := g
    rw [List.map_cons, List.nodup_cons] at hnd
    have hk : k ∉ acc := hdis (k, ps) (List.mem_cons_self _ _)
    have hPk : P k := hP (k, ps) (List.mem_cons_self _ _)
    have hps : ps ≠ [] := hne (k, ps) (List.mem_cons_self _ _)
    obtain ⟨p, ps1, rfl⟩ := List.exists_cons_of_ne_nil hps
    have hacc2 : ∀ a ∈ acc ++ [k], P a := by
      intro a ha
      rcases List.mem_append.1 ha with h | h
      · exact hacc a h
      · simp only [List.mem_singleton] at h; rw [h]; exact hPk
    rw [List.flatMap_cons, List.foldl_append]
    simp only [List.map_cons, List.foldl_cons]
    rw [addKey_of_not_mem eq P hl acc hacc k hk,
      foldl_addKey_same eq P hl (acc ++ [k]) hacc2 k (by simp) ps1,
      ih (fun g hg => hP g (List.mem_cons_of_mem _ hg)) hnd.2
        (fun g hg => hne g (List.mem_cons_of_mem _ hg)) (acc ++ [k]) hacc2]
    · simp
    · intro g hg hmem
      rcases List.mem_append.1 hmem with h | h
      · exact hdis g (List.mem_cons_of_mem _ hg) h
      · simp only [List.mem_singleton] at h
        apply hnd.1
        rw [← h]
        exact List.mem_map.2 ⟨g, hg, rfl⟩

theorem entriesOf_groups {F : Type} (L : FloatOps F) (groups : List (Tok F × List (Path F)))
    (hP : ∀ g ∈ groups, g.1.isKey = true) (hnd : (groups.map Prod.fst).Nodup)
    (g : Tok F × List (Path F)) (hg : g ∈ groups) :
    entriesOf L g.1 (groups.flatMap (fun c => c.2.map (fun p => (c.1, p)))) = g.2 := by
  induction groups with
  | nil => cases hg
  | cons c cs ih =>
    rw [List.map_cons, List.nodup_cons] at hnd
    have hcP := hP c (List.mem_cons_self _ _)
    rw [List.flatMap_cons, entriesOf_append]
    rcases List.mem_cons.1 hg with h | h
    · subst h
      have h1 : entriesOf L g.1 (g.2.map (fun p => (g.1, p))) = g.2 := by
        simp [entriesOf, (keyEq_iff L g.1 g.1 hcP).2 rfl, List.filter_map,
          Function.comp_def]
      have h2 : entriesOf L g.1 (cs.flatMap (fun c => c.2.map (fun p => (c.1, p)))) = [] := by
        apply entriesOf_eq_nil
        · intro e he
          obtain ⟨c0, hc0, he0⟩ := List.mem_flatMap.1 he
          obtain ⟨p, _, rfl⟩ := List.mem_map.1 he0
          exact hP c0 (List.mem_cons_of_mem _ hc0)
        · intro hmem
          apply hnd.1
          obtain ⟨e, he, hek⟩ := List.mem_map.1 hmem
          obtain ⟨c0, hc0, he0⟩ := List.mem_flatMap.1 he
          obtain ⟨p, _, rfl⟩ := List.mem_map.1 he0
          simp only at hek
          rw [← hek]
          exact List.mem_map.2 ⟨c0, hc0, rfl⟩
      rw [h1, h2, List.append_nil]
    · have hne : c.1 ≠ g.1 := by
        intro heq
        apply hnd.1
        rw [heq]
        exact List.mem_map.2 ⟨g, h, rfl⟩
      have h1 : entriesOf L g.1 (c.2.map (fun p => (c.1, p))) = [] := by
        have : ¬ Tok.keyEq L c.1 g.1 = true := fun hx => hne ((keyEq_iff L c.1 g.1 hcP).1 hx)
        simp [entriesOf, List.filter_map, Function.comp_def, this]
      rw [h1, List.nil_append]
      exact ih (fun x hx => hP x (List.mem_cons_of_mem _ hx)) hnd.2 h

theorem Line.toKV_push {F : Type} (k : Tok F) (l : Line F) :
    (Line.push k l).toKV = (k, l.path) := rfl

theorem filterMap_asKV_paths {F : Type} (lines : List (Line F))
    (h : ∀ l ∈ lines, l.keys ≠ []) :
    (lines.map Line.path).filterMap Path.asKV = kvsOfLines lines := by
  induction lines with
  | nil => rfl
  | cons l ls ih =>
    rw [List.map_cons, Line.path_eq_kv l (h l (List.mem_cons_self _ _))]
    simp only [List.filterMap_cons, Path.asKV, kvsOfLines, List.map_cons]
    rw [ih (fun x hx => h x (List.mem_cons_of_mem _ hx))]
    rfl

theorem lines_keys_ne {F : Type} (x : Tree F) (hx : ∀ t, x ≠ .leaf t) :
    ∀ l ∈ Tree.lines x, l.keys ≠ [] := by
  intro l hl
  rw [lines_groups x hx] at hl
  obtain ⟨g, _, hl1⟩ := List.mem_flatMap.1 hl
  obtain ⟨l0, _, rfl⟩ := List.mem_map.1 hl1
  simp [Line.push]

theorem kvsOfLines_groups {F : Type} (x : Tree F) (hx : ∀ t, x ≠ .leaf t) :
    kvsOfLines (Tree.lines x)
      = ((Tree.groups x).map (fun c => (c.1, (Tree.lines c.2).map Line.path))).flatMap
          (fun c => c.2.map (fun p => (c.1, p))) := by
  rw [lines_groups x hx, kvsOfLines, List.map_flatMap, List.flatMap_map]
  apply List.flatMap_congr
  intro c _
  rw [List.map_map, List.map_map]
  rfl

/-- The grouped map of the lines of a mapping or sequence that round-trips: its
children in order, each under its key. -/
theorem build_groups {F : Type} (L : FloatOps F) (g : Nat) (x : Tree F)
    (hx : ∀ t, x ≠ .leaf t) (hp : Tree.plain L x) :
    build L (g + 1) (kvsOfLines (Tree.lines x))
      = (Tree.groups x).map (fun c => (c.1, rawOf L g c.2)) := by
  obtain ⟨_, hgnd, hg⟩ := groups_spec L x hx hp
  have hGP : ∀ c ∈ (Tree.groups x).map (fun c => (c.1, (Tree.lines c.2).map Line.path)),
      c.1.isKey = true := by
    intro c hc
    obtain ⟨c0, hc0, rfl⟩ := List.mem_map.1 hc
    exact (hg c0 hc0).2.2.1
  have hGnd : (((Tree.groups x).map
      (fun c => (c.1, (Tree.lines c.2).map Line.path))).map Prod.fst).Nodup := by
    rw [List.map_map]; exact hgnd
  have hGne : ∀ c ∈ (Tree.groups x).map (fun c => (c.1, (Tree.lines c.2).map Line.path)),
      c.2 ≠ [] := by
    intro c hc
    obtain ⟨c0, hc0, rfl⟩ := List.mem_map.1 hc
    have := (lines_spec L _ c0.2 (le_refl _) (hg c0 hc0).1).1
    simpa using this
  have hkeys : (kvsOfLines (Tree.lines x)).map Prod.fst
      = ((Tree.groups x).map (fun c => (c.1, (Tree.lines c.2).map Line.path))).flatMap
          (fun c => c.2.map (fun _ => c.1)) := by
    rw [kvsOfLines_groups x hx, List.map_flatMap]
    apply List.flatMap_congr
    intro c _
    rw [List.map_map]
    rfl
  have hfk : firstKeys (Tok.keyEq L) ((kvsOfLines (Tree.lines x)).map Prod.fst)
      = (Tree.groups x).map Prod.fst := by
    rw [hkeys, firstKeys, firstKeys_groups (Tok.keyEq L) (fun a => a.isKey = true)
      (fun a b ha => keyEq_iff L a b ha) _ hGP hGnd hGne [] (fun _ h => nomatch h)
      (fun _ _ h => nomatch h), List.nil_append, List.map_map]
    rfl
  rw [build, hfk, List.map_map]
  apply List.map_congr_left
  intro c hc
  have hent := entriesOf_groups L _ hGP hGnd (c.1, (Tree.lines c.2).map Line.path)
    (List.mem_map.2 ⟨c, hc, rfl⟩)
  rw [← kvsOfLines_groups x hx] at hent
  simp only at hent
  simp only [Function.comp_apply, Prod.mk.injEq, true_and]
  cases hc2 : c.2 with
  | leaf t =>
    rw [hc2] at hent
    have : Tree.lines (.leaf t : Tree F) = [⟨[], t⟩] := by
      conv_lhs => unfold Tree.lines
    rw [this] at hent
    simp [slotFor, hent, Line.path, resolveSlot, rawOf]
  | mapping m =>
    rw [hc2] at hent
    have hkn := lines_keys_ne (.mapping m : Tree F) (fun t h => nomatch h)
    have hp2 : Tree.plain L (.mapping m) := hc2 ▸ (hg c hc).1
    have hne2 := (lines_spec L _ _ (le_refl _) hp2).1
    have hall : ∀ p ∈ entriesOf L c.1 (kvsOfLines (Tree.lines x)), ∃ k1 v1, p = .kv k1 v1 := by
      intro p hpm
      rw [hent] at hpm
      obtain ⟨l, hl, rfl⟩ := List.mem_map.1 hpm
      exact ⟨_, _, Line.path_eq_kv l (hkn l hl)⟩
    rw [slotFor_of_all_kv L _ _ hall, hent, filterMap_asKV_paths _ hkn]
    rfl
  | seq l =>
    rw [hc2] at hent
    have hkn := lines_keys_ne (.seq l : Tree F) (fun t h => nomatch h)
    have hall : ∀ p ∈ entriesOf L c.1 (kvsOfLines (Tree.lines x)), ∃ k1 v1, p = .kv k1 v1 := by
      intro p hpm
      rw [hent] at hpm
      obtain ⟨l, hl, rfl⟩ := List.mem_map.1 hpm
      exact ⟨_, _, Line.path_eq_kv l (hkn l hl)⟩
    rw [slotFor_of_all_kv L _ _ hall, hent, filterMap_asKV_paths _ hkn]
    rfl

/-! ## The aligner keeps the rows -/

theorem stripWidths_append (a b : List (List strWithWidth)) :
    stripWidths (a ++ b) = stripWidths a ++ stripWidths b := by
  simp [stripWidths]

theorem stripWidths_emit (colv : Str) (w : Nat) (sw : List (List strWithWidth)) :
    stripWidths (sw.map (fun subret => { s := colv, w := w } :: subret))
      = (stripWidths sw).map (fun r => colv :: r) := by
  simp [stripWidths]

theorem le_maxRowLen (rows : List (List Str)) (r : List Str) (hr : r ∈ rows) :
    r.length ≤ maxRowLen rows := by
  induction rows with
  | nil => cases hr
  | cons x xs ih =>
    simp only [maxRowLen, List.map_cons, List.foldr_cons]
    rcases List.mem_cons.1 hr with h | h
    · subst h; exact Nat.le_max_left _ _
    · exact le_trans (ih h) (Nat.le_max_right _ _)

theorem col0_cons_tail (row : List Str) (h : row ≠ []) : col0 row :: row.tail = row := by
  cases row with
  | nil => exact absurd rfl h
  | cons x xs => rfl

/-- The loop over the runs emits the rows it was given, when the recursive call
keeps the rows of every run. -/
theorem groupRuns_strip (rec : List (List Str) → List (List strWithWidth)) (n width : Nat)
    (hrec : ∀ rows, (∀ r ∈ rows, r.length < n) → prefixFree rows → rows ≠ [] →
      stripWidths (rec rows) = rows)
    (rest : List (List Str)) (colv : Str) (subRows : List (List Str))
    (hsub : subRows ≠ [])
    (hne : ∀ r ∈ rest, r ≠ [])
    (hlen : ∀ r ∈ subRows.map (fun t => colv :: t) ++ rest, r.length < n + 1)
    (hpf : prefixFree (subRows.map (fun t => colv :: t) ++ rest)) :
    stripWidths (groupRuns rec width colv subRows rest)
      = subRows.map (fun t => colv :: t) ++ rest := by
  induction rest generalizing colv subRows with
  | nil =>
    have hs : stripWidths (rec subRows) = subRows := by
      apply hrec _ _ _ hsub
      · intro r hr
        have := hlen (colv :: r) (by simp [hr])
        simpa using this
      · intro r1 h1 r2 h2 h12
        have := hpf (colv :: r1) (by simp [h1]) (colv :: r2) (by simp [h2])
          (by simpa [List.cons_prefix_cons] using h12)
        simpa using this
    simp [groupRuns, stripWidths_emit, hs]
  | cons row rest ih =>
    have hrow : row ≠ [] := hne row (List.mem_cons_self _ _)
    have hne2 : ∀ r ∈ rest, r ≠ [] := fun r hr => hne r (List.mem_cons_of_mem _ hr)
    by_cases hc : col0 row = colv
    · have h2 := ih colv (subRows ++ [row.tail]) (by simp) hne2
        (by
          intro r hr
          apply hlen r
          simp only [List.map_append, List.map_cons, List.map_nil, List.append_assoc,
            List.singleton_append, List.mem_append, List.mem_map, List.mem_cons] at hr ⊢
          rcases hr with hr | hr | hr
          · exact Or.inl hr
          · right; left; rw [hr, ← hc, col0_cons_tail row hrow]
          · exact Or.inr (Or.inr hr))
        (by
          have : (subRows ++ [row.tail]).map (fun t => colv :: t) ++ rest
              = subRows.map (fun t => colv :: t) ++ row :: rest := by
            simp [← hc, col0_cons_tail row hrow]
          rw [this]; exact hpf)
      simp only [groupRuns, hc, ne_eq, not_true_eq_false, if_false, h2]
      simp [← hc, col0_cons_tail row hrow]
    · have hs : stripWidths (rec subRows) = subRows := by
        apply hrec _ _ _ hsub
        · intro r hr
          have := hlen (colv :: r) (by simp [hr])
          simpa using this
        · intro r1 h1 r2 h2 h12
          have := hpf (colv :: r1) (by simp [h1]) (colv :: r2) (by simp [h2])
            (by simpa [List.cons_prefix_cons] using h12)
          simpa using this
      have h2 := ih (col0 row) [row.tail] (by simp) hne2
        (by
          intro r hr
          apply hlen r
          simp only [List.map_cons, List.map_nil, List.singleton_append, List.mem_cons,
            List.mem_append, List.mem_map] at hr ⊢
          rcases hr with hr | hr
          · right; left; rw [hr, col0_cons_tail row hrow]
          · exact Or.inr (Or.inr hr))
        (by
          intro r1 h1 r2 h2 h12
          apply hpf r1 _ r2 _ h12
          · simp only [List.map_cons, List.map_nil, List.singleton_append, List.mem_cons,
              List.mem_append, List.mem_map] at h1 ⊢
            rcases h1 with h1 | h1
            · right; left; rw [h1, col0_cons_tail row hrow]
            · exact Or.inr (Or.inr h1)
          · simp only [List.map_cons, List.map_nil, List.singleton_append, List.mem_cons,
              List.mem_append, List.mem_map] at h2 ⊢
            rcases h2 with h2 | h2
            · right; left; rw [h2, col0_cons_tail row hrow]
            · exact Or.inr (Or.inr h2))
      simp only [groupRuns, hc, ne_eq, not_false_eq_true, if_true, stripWidths_append,
        stripWidths_emit, hs, h2]
      simp [col0_cons_tail row hrow]

theorem toStrWithWidthNotTableAux_strip (fuel : Nat) (rows : List (List Str))
    (hlen : ∀ r ∈ rows, r.length < fuel) (hpf : prefixFree rows) (hne : rows ≠ []) :
    stripWidths (toStrWithWidthNotTableAux fuel rows) = rows := by
  induction fuel generalizing rows with
  | zero =>
    obtain ⟨r, hr⟩ := List.exists_mem_of_ne_nil rows hne
    exact absurd (hlen r hr) (Nat.not_lt_zero _)
  | succ fuel ih =>
    by_cases hany : rows.any (fun row => row.length == 0) = true
    · have hall : ∀ r ∈ rows, r = [] := by
        obtain ⟨r0, hr0, h0⟩ := List.any_eq_true.1 hany
        have h0' : r0 = [] := by simpa using h0
        subst h0'
        intro r hr
        exact (hpf [] hr0 r hr (List.nil_prefix)).symm
      simp only [toStrWithWidthNotTableAux, hany, if_true, stripWidths, List.map_map]
      conv_rhs => rw [← List.map_id rows]
      apply List.map_congr_left
      intro r hr
      simp [hall r hr]
    · have hnn : ∀ r ∈ rows, r ≠ [] := by
        intro r hr h
        apply hany
        exact List.any_eq_true.2 ⟨r, hr, by simp [h]⟩
      cases rows with
      | nil => exact absurd rfl hne
      | cons row rest =>
        have hrow : row ≠ [] := hnn row (List.mem_cons_self _ _)
        simp only [toStrWithWidthNotTableAux, hany, Bool.false_eq_true, if_false]
        have := groupRuns_strip (toStrWithWidthNotTableAux fuel) fuel
          ((row :: rest).foldl (fun width r => maxInt width (strLen (col0 r))) 0)
          (fun rows h1 h2 h3 => ih rows h1 h2 h3)
          rest (col0 row) [row.tail] (by simp)
          (fun r hr => hnn r (List.mem_cons_of_mem _ hr))
          (by simpa [col0_cons_tail row hrow] using hlen)
          (by simpa [col0_cons_tail row hrow] using hpf)
        simpa [col0_cons_tail row hrow] using this

/-- The aligner neither drops, duplicates, reorders nor alters a row or a
token, when no row is a proper prefix of another row. -/
theorem toStrWithWidthNotTable_strip (rows : List (List Str)) (hpf : prefixFree rows) :
    stripWidths (toStrWithWidthNotTable rows) = rows := by
  by_cases hne : rows = []
  · subst hne; rfl
  · exact toStrWithWidthNotTableAux_strip _ rows
      (fun r hr => Nat.lt_succ_of_le (le_maxRowLen rows r hr)) hpf hne

/-! ## What `Encode` writes -/

theorem intercalate_cons (x : Str) (xs : List Str) :
    List.intercalate [' '] (x :: xs) = x ++ xs.flatMap (fun y => ' ' :: y) := by
  induction xs generalizing x with
  | nil => simp [List.intercalate, List.intersperse]
  | cons y ys ih =>
    have := ih y
    simp only [List.intercalate, List.intersperse, List.flatten_cons, List.flatMap_cons,
      List.singleton_append] at this ⊢
    rw [this]
    simp

theorem writeCols_succ (ic : Nat) (cols : List strWithWidth) :
    writeCols false (ic + 1) cols = cols.flatMap (fun col => ' ' :: col.s) := by
  induction cols generalizing ic with
  | nil => rfl
  | cons c cs ih => simp [writeCols, ih]

theorem writeCols_zero (cols : List strWithWidth) :
    writeCols false 0 cols = List.intercalate [' '] (cols.map (fun col => col.s)) := by
  cases cols with
  | nil => rfl
  | cons c cs =>
    rw [List.map_cons, intercalate_cons]
    simp [writeCols, writeCols_succ, List.flatMap_map]

theorem writeRows_false (sw : List (List strWithWidth)) :
    writeRows false sw = rowsText (stripWidths sw) := by
  induction sw with
  | nil => rfl
  | cons row rest ih =>
    simp [writeRows, ih, writeCols_zero, rowsText, rowText, stripWidths]

mutual
theorem toRows_length {F : Type} (L : FloatOps F) :
    ∀ (v : GoVal F) (rows : List (List Str)), toRows L v = .ok rows → rows.length = leafCount v
  | .ptr (some v), rows, h => by
    rw [toRows] at h; rw [leafCount]; exact toRows_length L v rows h
  | .ptr none, rows, h => by simp [toRows, primRows, notatePrim] at h
  | .iface (some v), rows, h => by
    rw [toRows] at h; rw [leafCount]; exact toRows_length L v rows h
  | .iface none, rows, h => by simp [toRows, primRows, notatePrim] at h
  | .slice items, rows, h => by
    rw [toRows] at h; rw [leafCount]; exact toRowsSlice_length L 0 items rows h
  | .map entries, rows, h => by
    rw [toRows] at h; rw [leafCount]; exact toRowsMap_length L entries rows h
  | .struct fields, rows, h => by
    rw [toRows] at h; rw [leafCount]; exact toRowsStruct_length L fields rows h
  | .invalid, rows, h => by simp [toRows, primRows, notatePrim] at h
  | .string s, rows, h => by
    simp only [toRows, primRows, notatePrim, Except.ok.injEq] at h
    rw [← h]; rfl
  | .bool b, rows, h => by
    simp only [toRows, primRows, notatePrim, Except.ok.injEq] at h
    rw [← h]; rfl
  | .float f, rows, h => by
    simp only [toRows, primRows, notatePrim, Except.ok.injEq] at h
    rw [← h]; rfl
  | .int n, rows, h => by simp [toRows, primRows, notatePrim] at h
  | .other, rows, h => by simp [toRows, primRows, notatePrim] at h
theorem toRowsSlice_length {F : Type} (L : FloatOps F) :
    ∀ (i : Nat) (items : List (GoVal F)) (rows : List (List Str)),
      toRowsSlice L i items = .ok rows → rows.length = leafCountItems items
  | _, [], rows, h => by
    simp only [toRowsSlice, Except.ok.injEq] at h
    rw [← h]; rfl
  | i, item :: rest, rows, h => by
    rw [toRowsSlice] at h
    cases h1 : toRows L item with
    | error e => simp [h1] at h
    | ok prows =>
      cases h2 : toRowsSlice L (i + 1) rest with
      | error e => simp [h1, h2] at h
      | ok ret =>
        simp only [h1, h2, Except.ok.injEq] at h
        rw [← h, leafCountItems, List.length_append, prefixSl, List.length_map,
          toRows_length L item prows h1, toRowsSlice_length L (i + 1) rest ret h2]
theorem toRowsMap_length {F : Type} (L : FloatOps F) :
    ∀ (entries : List (GoVal F × GoVal F)) (rows : List (List Str)),
      toRowsMap L entries = .ok rows → rows.length = leafCountEntries entries
  | [], rows, h => by
    simp only [toRowsMap, Except.ok.injEq] at h
    rw [← h]; rfl
  | (key, item) :: rest, rows, h => by
    rw [toRowsMap] at h
    cases h0 : notatePrim L key with
    | none => simp [h0] at h
    | some skey =>
      cases h1 : toRows L item with
      | error e => simp [h0, h1] at h
      | ok prows =>
        cases h2 : toRowsMap L rest with
        | error e => simp [h0, h1, h2] at h
        | ok ret =>
          simp only [h0, h1, h2, Except.ok.injEq] at h
          rw [← h, leafCountEntries, List.length_append, prefixSl, List.length_map,
            toRows_length L item prows h1, toRowsMap_length L rest ret h2]
theorem toRowsStruct_length {F : Type} (L : FloatOps F) :
    ∀ (fields : List (Str × GoVal F)) (rows : List (List Str)),
      toRowsStruct L fields = .ok rows → rows.length = leafCountFields fields
  | [], rows, h => by
    simp only [toRowsStruct, Except.ok.injEq] at h
    rw [← h]; rfl
  | (key, item) :: rest, rows, h => by
    rw [toRowsStruct] at h
    cases h1 : toRows L item with
    | error e => simp [h1] at h
    | ok prows =>
      cases h2 : toRowsStruct L rest with
      | error e => simp [h1, h2] at h
      | ok ret =>
        simp only [h1, h2, Except.ok.injEq] at h
        rw [← h, leafCountFields, List.length_append, prefixSl, List.length_map,
          toRows_length L item prows h1, toRowsStruct_length L rest ret h2]
end

/-! ## The text and the tree of the lines of a value -/

theorem flatMap_blank_snoc (ks : List Str) (x : Str) :
    (ks ++ [x]).flatMap (fun y => ' ' :: y)
      = ' ' :: (ks.flatMap (fun k => k ++ [' ']) ++ x) := by
  induction ks with
  | nil => simp
  | cons k ks ih =>
    rw [List.cons_append, List.flatMap_cons, ih]
    simp

theorem rowText_row {F : Type} (L : FloatOps F) (l : Line F) :
    rowText (Line.row L l) = Line.text L l := by
  obtain ⟨keys, leaf⟩ := l
  simp only [rowText, Line.row, Line.text]
  cases keys with
  | nil => simp [List.intercalate, List.intersperse]
  | cons k ks =>
    rw [List.map_cons, List.cons_append, intercalate_cons, flatMap_blank_snoc]
    simp [List.flatMap_map]

theorem rowsText_rows {F : Type} (L : FloatOps F) (lines : List (Line F)) :
    rowsText (lines.map (Line.row L)) = docText L lines := by
  rw [rowsText, docText, List.flatMap_map]
  apply List.flatMap_congr
  intro l _
  exact rowText_row L l

theorem enumFrom_sorted {α : Type} (i : Nat) (l : List α) :
    ((l.enumFrom i).map (fun p => (p.1 : Int))).Sorted (fun a b => a ≤ b) := by
  induction l generalizing i with
  | nil => simp
  | cons x xs ih =>
    rw [List.enumFrom_cons, List.map_cons, List.sorted_cons]
    refine ⟨?_, ih (i + 1)⟩
    intro b hb
    obtain ⟨p, hp, rfl⟩ := List.mem_map.1 hb
    have := ((enumFrom_fst_nodup (i + 1) xs).2 p hp).1
    omega

theorem lines_push_mem {F : Type} (x : Tree F) (hx : ∀ t, x ≠ .leaf t) (c : Tok F × Tree F)
    (hc : c ∈ Tree.groups x) (l : Line F) (hl : l ∈ Tree.lines c.2) :
    Line.push c.1 l ∈ Tree.lines x := by
  rw [lines_groups x hx]
  exact List.mem_flatMap.2 ⟨c, hc, List.mem_map.2 ⟨l, hl, rfl⟩⟩

/-- On what the grouped map holds for a value that round-trips,
`makeKeyStringOrCvtSlice` returns the value, given fuel for its depth. -/
theorem norm_rawOf {F : Type} (L : FloatOps F) (g : Nat) (x : Tree F) (hp : Tree.plain L x)
    (hd : ∀ l ∈ Tree.lines x, l.keys.length ≤ g) :
    makeKeyStringOrCvtSlice L (g + 1) (rawOf L g x) = some (.ok x) := by
  induction g generalizing x with
  | zero =>
    cases x with
    | leaf t => rfl
    | mapping m =>
      exfalso
      obtain ⟨l, hl⟩ := List.exists_mem_of_ne_nil _ (lines_spec L _ _ (le_refl _) hp).1
      have h1 := lines_keys_ne (.mapping m : Tree F) (fun t h => nomatch h) l hl
      have h2 := hd l hl
      exact h1 (List.length_eq_zero.1 (by omega))
    | seq s =>
      exfalso
      obtain ⟨l, hl⟩ := List.exists_mem_of_ne_nil _ (lines_spec L _ _ (le_refl _) hp).1
      have h1 := lines_keys_ne (.seq s : Tree F) (fun t h => nomatch h) l hl
      have h2 := hd l hl
      exact h1 (List.length_eq_zero.1 (by omega))
  | succ g ih =>
    have hchild : ∀ (hx : ∀ t, x ≠ .leaf t), ∀ c ∈ Tree.groups x,
        makeKeyStringOrCvtSlice L (g + 1) (rawOf L g c.2) = some (.ok c.2) := by
      intro hx c hc
      apply ih c.2 ((groups_spec L x hx hp).2.2 c hc).1
      intro l hl
      have := hd _ (lines_push_mem x hx c hc l hl)
      simp only [Line.push, List.length_cons] at this
      omega
    cases x with
    | leaf t => rfl
    | mapping m =>
      have hx : ∀ t, (Tree.mapping m : Tree F) ≠ .leaf t := fun t h => nomatch h
      obtain ⟨_, hnd, _⟩ := groups_spec L _ hx hp
      show makeKeyStringOrCvtSlice L (g + 1 + 1)
        (.map (build L (g + 1) (kvsOfLines (Tree.lines (.mapping m))))) = _
      rw [build_groups L g _ hx hp]
      rw [norm_str_level L (g + 1) _ (by
          intro e he
          obtain ⟨c, hc, rfl⟩ := List.mem_map.1 he
          obtain ⟨e0, _, rfl⟩ := List.mem_map.1 hc
          exact ⟨_, rfl⟩) (by rw [List.map_map]; exact hnd) (normOr L (g + 1)) (by
          intro e he
          obtain ⟨c, hc, rfl⟩ := List.mem_map.1 he
          rw [normOr_of_eq L _ _ _ (hchild hx c hc)]
          exact hchild hx c hc)]
      congr 3
      rw [List.map_map]
      simp only [Tree.groups, List.map_map]
      conv_rhs => rw [← List.map_id m]
      apply List.map_congr_left
      intro e he
      have := hchild hx (Tok.str e.1, e.2) (List.mem_map.2 ⟨e, he, rfl⟩)
      simp only [Function.comp_apply, Tok.strOf, id]
      rw [normOr_of_eq L _ _ _ this]
    | seq s =>
      have hx : ∀ t, (Tree.seq s : Tree F) ≠ .leaf t := fun t h => nomatch h
      obtain ⟨hgne, hnd, hgs⟩ := groups_spec L _ hx hp
      show makeKeyStringOrCvtSlice L (g + 1 + 1)
        (.map (build L (g + 1) (kvsOfLines (Tree.lines (.seq s))))) = _
      rw [build_groups L g _ hx hp]
      have hM : ∀ e ∈ (Tree.groups (.seq s : Tree F)).map (fun c => (c.1, rawOf L g c.2)),
          e.1.isKey = true := by
        intro e he
        obtain ⟨c, hc, rfl⟩ := List.mem_map.1 he
        exact (hgs c hc).2.2.1
      have hMnd : (((Tree.groups (.seq s : Tree F)).map
          (fun c => (c.1, rawOf L g c.2))).map Prod.fst).Nodup := by
        rw [List.map_map]; exact hnd
      rw [norm_int_level L (g + 1) _ (by
          intro e he
          obtain ⟨c, hc, rfl⟩ := List.mem_map.1 he
          obtain ⟨e0, _, rfl⟩ := List.mem_map.1 hc
          exact ⟨_, rfl⟩) (by simpa using hgne) (normOr L (g + 1)) (by
          intro e he
          obtain ⟨c, hc, rfl⟩ := List.mem_map.1 he
          rw [normOr_of_eq L _ _ _ (hchild hx c hc)]
          exact hchild hx c hc) rfl]
      congr 3
      have hkeys : ((Tree.groups (.seq s : Tree F)).map (fun c => (c.1, rawOf L g c.2))).map
          (fun e => e.1.intOf) = (s.enumFrom 0).map (fun p => (p.1 : Int)) := by
        simp only [Tree.groups, List.map_map]
        rfl
      rw [hkeys, List.Sorted.insertionSort_eq (enumFrom_sorted 0 s), List.map_map]
      conv_rhs => rw [← List.enumFrom_map_snd 0 s]
      apply List.map_congr_left
      intro p hpm
      have hc : (Tok.int (p.1 : Int), p.2) ∈ Tree.groups (.seq s : Tree F) :=
        List.mem_map.2 ⟨p, hpm, rfl⟩
      have hget := mapGet_of_mem (Tok.keyEq L) (fun a => a.isKey = true)
        (fun a b ha => keyEq_iff L a b ha) _ hM hMnd (Tok.int (p.1 : Int), rawOf L g p.2)
        (List.mem_map.2 ⟨_, hc, rfl⟩)
      simp only at hget
      simp only [Function.comp_apply]
      rw [hget]
      exact normOr_of_eq L _ _ _ (hchild hx _ hc)

/-! ## The flag `hasMore` and the end of the source -/

theorem skipBrank_head (s : List Char) : isBrank (Peek (skipBrank s)) = false := by
  induction s with
  | nil => rfl
  | cons c cs ih =>
    by_cases hc : isBrank (some c) = true
    · simp only [skipBrank, hc, if_true]
      exact ih
    · simp only [skipBrank, hc]
      simpa [Peek] using hc

theorem Token_flag {F : Type} (L : FloatOps F) (d : Decoder) (v : Tok F) (d1 : Decoder)
    (h : Token L d = .ok (v, d1)) :
    d1.hasMore = !isEOLChar (Peek d1.s) ∧ isBrank (Peek d1.s) = false := by
  have key : ∀ r : Except DecodeError (Tok F × List Char),
      (match r with
        | .error e => (Except.error e : Except DecodeError (Tok F × Decoder))
        | .ok (v, s1) =>
          .ok (v, { s := skipBrank s1, hasMore := !isEOLChar (Peek (skipBrank s1)) }))
        = .ok (v, d1) →
      d1.hasMore = !isEOLChar (Peek d1.s) ∧ isBrank (Peek d1.s) = false := by
    intro r hr
    cases r with
    | error e => cases hr
    | ok p =>
      obtain ⟨v0, s1⟩ := p
      simp only [Except.ok.injEq, Prod.mk.injEq] at hr
      obtain ⟨_, rfl⟩ := hr
      exact ⟨rfl, skipBrank_head s1⟩
  exact key _ h

theorem Token_at_end {F : Type} (L : FloatOps F) (hm : Bool) :
    Token L ⟨[], hm⟩ = .ok (.str [], ⟨[], true⟩) := rfl

/-- At the end of the source `decodeLine` does not return, whatever the depth
allowed: `Token` gives the empty string and sets `hasMore`, and `decodeLine`
calls itself in the same state. -/
theorem decodeLine_at_end {F : Type} (L : FloatOps F) (fuel : Nat) (hm : Bool) :
    decodeLine L fuel ⟨[], hm⟩ = none := by
  induction fuel generalizing hm with
  | zero => rfl
  | succ f ih =>
    rw [decodeLine, Token_at_end]
    simp only [More, Bool.not_true, Bool.false_eq_true, if_false]
    rw [ih true]

theorem decodeLines_none {F : Type} (L : FloatOps F) (f : Nat) (n : Int) (d : Decoder)
    (hp : Peek d.s ≠ none) (hn : n ≠ 0)
    (h : decodeLine L f ⟨skipBrank d.s, d.hasMore⟩ = none) :
    decodeLines L (f + 1) n d = none := by
  rw [decodeLines]
  simp only [hp, hn, ne_eq, not_false_eq_true, and_self, if_true]
  rw [h]

theorem decodeLines_next_none {F : Type} (L : FloatOps F) (f : Nat) (n : Int) (d : Decoder)
    (hp : Peek d.s ≠ none) (hn : n ≠ 0) (path : Path F) (d1 : Decoder)
    (h : decodeLine L f ⟨skipBrank d.s, d.hasMore⟩ = some (.ok (path, d1)))
    (h1 : decodeLines L f (n - 1) d1 = none) :
    decodeLines L (f + 1) n d = none := by
  rw [decodeLines]
  simp only [hp, hn, ne_eq, not_false_eq_true, and_self, if_true]
  rw [h]
  simp only [h1]

theorem decode_none {F : Type} (L : FloatOps F) (f : Nat) (n : Int) (d : Decoder)
    (h : decodeLines L f n d = none) : decode L f n d = none := by
  simp [decode, decodeToMapOrV, h]

theorem decodeLine_one_token {F : Type} (L : FloatOps F) (fuel : Nat) (d : Decoder) (v : Tok F)
    (h : Token L d = .ok (v, ⟨[], true⟩)) : decodeLine L fuel d = none := by
  cases fuel with
  | zero => rfl
  | succ g =>
    rw [decodeLine, h]
    simp only [More, Bool.not_true, Bool.false_eq_true, if_false]
    rw [decodeLine_at_end]

/-! ## Brackets -/

theorem docText_append {F : Type} (L : FloatOps F) (a b : List (Line F)) :
    docText L (a ++ b) = docText L a ++ docText L b := by
  simp [docText]

/-- The first loop of `decodeToMapOrV` with a bound `n` reads back the first
`n` lines of a rendered document and stops in front of the others. -/
theorem decodeLines_take {F : Type} (L : FloatOps F) (lines : List (Line F))
    (hc : ∀ l ∈ lines, l.canon L) (M : Nat) (hM : ∀ l ∈ lines, l.keys.length ≤ M)
    (n : Nat) (hn : n ≤ lines.length) (f : Nat) (hf : lines.length + M + 2 ≤ f) (hm : Bool) :
    decodeLines L f (n : Int) ⟨docText L lines, hm⟩ =
      some (.ok ((lines.take n).map Line.path,
        ⟨docText L (lines.drop n), (lines.take n).isEmpty && hm || !(lines.take n).isEmpty⟩)) := by
  induction lines generalizing f n hm with
  | nil =>
    obtain ⟨f1, rfl⟩ : ∃ f1, f = f1 + 1 := ⟨f - 1, by omega⟩
    simp [decodeLines, docText, Peek]
  | cons l ls ih =>
    obtain ⟨f1, rfl⟩ : ∃ f1, f = f1 + 1 := ⟨f - 1, by omega⟩
    cases n with
    | zero => simp [decodeLines]
    | succ m =>
      have hcl : l.canon L := hc l (List.mem_cons_self _ _)
      have hcs : ∀ x ∈ ls, x.canon L := fun x hx => hc x (List.mem_cons_of_mem _ hx)
      have hMl : l.keys.length ≤ M := hM l (List.mem_cons_self _ _)
      have hMs : ∀ x ∈ ls, x.keys.length ≤ M := fun x hx => hM x (List.mem_cons_of_mem _ hx)
      have hdoc : docText L (l :: ls) = l.text L ++ docText L ls := by
        simp [docText]
      have hpk : Peek (docText L (l :: ls)) ≠ none := by
        rw [hdoc]
        cases h : l.text L ++ docText L ls with
        | nil => exact absurd h (lineText_ne_nil L l _)
        | cons c cs => simp [Peek]
      have hn0 : ((m + 1 : Nat) : Int) ≠ 0 := by omega
      have hsk : skipBrank (docText L (l :: ls)) = l.text L ++ docText L ls := by
        rw [lineStart_skipBrank _ (lineStart_docText L (l :: ls) hc), hdoc]
      simp only [List.length_cons] at hf hn
      obtain ⟨extra, hextra⟩ : ∃ extra, f1 = l.keys.length + 1 + extra :=
        ⟨f1 - (l.keys.length + 1), by omega⟩
      have hline := decodeLine_text L l.keys l.leaf hcl.1 hcl.2 (docText L ls)
        (lineStart_docText L ls hcs) extra hm
      rw [← hextra] at hline
      have hrest := ih hcs hMs m (by omega) f1 (by omega) true
      have hcast : ((m + 1 : Nat) : Int) - 1 = (m : Int) := by omega
      rw [decodeLines]
      simp only [hpk, hn0, ne_eq, not_false_eq_true, and_self, if_true, hsk]
      rw [hline]
      simp only [hcast, hrest]
      simp

theorem take_maxKeys {F : Type} (lines : List (Line F)) (n : Nat) :
    maxKeys (lines.take n) ≤ maxKeys lines := by
  induction lines generalizing n with
  | nil => simp
  | cons l ls ih =>
    cases n with
    | zero => simp [maxKeys]
    | succ m =>
      have := ih m
      simp only [maxKeys, List.take_succ_cons, List.map_cons, List.foldr_cons] at this ⊢
      omega

/-- `decodeToMapOrV` with a bound `n` on a rendered document whose lines all
have a key, of strings and indices, none a proper prefix of another: the
grouped map of the first `n` lines, with the scanner in front of the others. -/
theorem decodeToMapOrV_take {F : Type} (L : FloatOps F) (lines : List (Line F))
    (hc : ∀ l ∈ lines, l.canon L) (hne : ∀ l ∈ lines, l.keys ≠ [])
    (hk : ∀ l ∈ lines, ∀ k ∈ l.keys, k.isKey = true)
    (hnc : ∀ a ∈ lines, ∀ b ∈ lines, a.keys <+: b.keys → a.keys = b.keys)
    (n : Nat) (hn : n ≤ lines.length) (f : Nat)
    (hf : (docText L lines).length + 2 ≤ f) (hm : Bool) :
    decodeToMapOrV L f (n : Int) ⟨docText L lines, hm⟩ =
      some (.ok (.map (build L f (kvsOfLines (lines.take n))),
        ⟨docText L (lines.drop n),
          (lines.take n).isEmpty && hm || !(lines.take n).isEmpty⟩)) := by
  have hlen := docText_length L lines
  have hsub : ∀ l ∈ lines.take n, l ∈ lines := fun l hl => List.mem_of_mem_take hl
  have hne2 : ∀ l ∈ lines.take n, l.keys ≠ [] := fun l hl => hne l (hsub l hl)
  have h1 := decodeLines_take L lines hc (maxKeys lines) (fun l hl => le_maxKeys lines l hl)
    n hn f (by omega) hm
  have h2 := kvsToMap_build L f (kvsOfLines (lines.take n)) (by omega)
    (kvsOfLines_depth (lines.take n) hne2 f (by have := take_maxKeys lines n; omega))
    (kvsOfLines_keysPlain (lines.take n) hne2 (fun l hl => hk l (hsub l hl)))
    (kvsOfLines_noClash (lines.take n) hne2
      (fun a ha b hb => hnc a (hsub a ha) b (hsub b hb)))
  rw [decodeToMapOrV, h1]
  simp only
  rw [collectKvs_all_kv _ (lines.take n) hne2]
  simp only [List.nil_append, h2]

/-! ## Column widths -/

theorem aux_nil (f : Nat) : toStrWithWidthNotTableAux f [] = [] := by
  cases f <;> simp [toStrWithWidthNotTableAux]

theorem aux_empty_row (f : Nat) : toStrWithWidthNotTableAux f [[]] = [[]] := by
  cases f <;> simp [toStrWithWidthNotTableAux]

/-- Rows that start with the token of the current run are added to the run. -/
theorem groupRuns_same (rec : List (List Str) → List (List strWithWidth)) (w : Nat)
    (colv : Str) (ts subRows rest : List (List Str)) :
    groupRuns rec w colv subRows (ts.map (fun t => colv :: t) ++ rest)
      = groupRuns rec w colv (subRows ++ ts) rest := by
  induction ts generalizing subRows with
  | nil => simp
  | cons t ts ih =>
    rw [List.map_cons, List.cons_append, groupRuns]
    simp only [col0, List.headD_cons, ne_eq, not_true_eq_false, if_false, List.tail_cons]
    rw [ih]
    simp

/-- The loop over the runs on the rows of groups with pairwise different first
tokens: every group is one run. -/
theorem groupRuns_groups (rec : List (List Str) → List (List strWithWidth)) (w : Nat)
    (groups : List (Str × List (List Str))) (colv : Str) (subRows : List (List Str))
    (hc : ∀ g ∈ groups, g.1 ≠ colv) (hnd : (groups.map Prod.fst).Nodup)
    (hne : ∀ g ∈ groups, g.2 ≠ []) :
    groupRuns rec w colv subRows (groups.flatMap (fun g => g.2.map (fun r => g.1 :: r)))
      = (rec subRows).map (fun subret => { s := colv, w := w } :: subret)
        ++ groups.flatMap (fun g => (rec g.2).map (fun subret => { s := g.1, w := w } :: subret)) := by
  induction groups generalizing colv subRows with
  | nil => simp [groupRuns]
  | cons g gs ih =>
    obtain ⟨k, ts⟩ := g
    rw [List.map_cons, List.nodup_cons] at hnd
    have hk : k ≠ colv := hc (k, ts) (List.mem_cons_self _ _)
    obtain ⟨t, ts1, rfl⟩ := List.exists_cons_of_ne_nil (hne (k, ts) (List.mem_cons_self _ _))
    rw [List.flatMap_cons, List.flatMap_cons]
    simp only [List.map_cons, List.cons_append]
    rw [groupRuns]
    simp only [col0, List.headD_cons, ne_eq, hk, not_false_eq_true, if_true, List.tail_cons]
    rw [groupRuns_same rec w k ts1 [t], ih k ([t] ++ ts1)
      (fun g hg heq => hnd.1 (by rw [← heq]; exact List.mem_map.2 ⟨g, hg, rfl⟩)) hnd.2
      (fun g hg => hne g (List.mem_cons_of_mem _ hg))]
    simp

theorem treeRows_ne (rows : List (List Str)) (h : TreeRows rows) :
    rows ≠ [] ∧ ∀ r ∈ rows, r ≠ [] := by
  induction h with
  | leaf t => simp
  | node groups hne hnd hch ih =>
    refine ⟨?_, ?_⟩
    · obtain ⟨g, gs, rfl⟩ := List.exists_cons_of_ne_nil hne
      obtain ⟨t, ts, ht⟩ := List.exists_cons_of_ne_nil (ih g (List.mem_cons_self _ _)).1
      simp [List.flatMap_cons, ht]
    · intro r hr
      obtain ⟨g, _, hg⟩ := List.mem_flatMap.1 hr
      obtain ⟨t, _, rfl⟩ := List.mem_map.1 hg
      simp

theorem foldl_maxInt (rows : List (List Str)) (a : Nat) :
    rows.foldl (fun width r => maxInt width (strLen (col0 r))) a
      = max a ((rows.map (fun r => strLen (r.getD 0 []))).foldr max 0) := by
  induction rows generalizing a with
  | nil => simp
  | cons r rs ih =>
    rw [List.foldl_cons, ih, List.map_cons, List.foldr_cons]
    have hcol : col0 r = r.getD 0 [] := by cases r <;> rfl
    rw [hcol]
    unfold maxInt
    split <;> omega

/-- The width that `toStrWithWidthNotTable` computes for the first column is
the width of position 0 in the words of the specification. -/
theorem width_first (rows : List (List Str)) (r : List Str) :
    rows.foldl (fun width r => maxInt width (strLen (col0 r))) 0 = colWidth strLen rows r 0 := by
  rw [foldl_maxInt, colWidth]
  simp

theorem filter_other_group (k : Str) (t : List Str) (j : Nat) (c : Str × List (List Str))
    (hck : c.1 ≠ k) :
    (c.2.map (fun r => c.1 :: r)).filter
      (fun r2 => decide (r2.take (j + 1) = (k :: t).take (j + 1))) = [] := by
  rw [List.filter_eq_nil_iff]
  intro r2 hr2
  obtain ⟨x, _, rfl⟩ := List.mem_map.1 hr2
  simp [hck]

theorem filter_same_group (len : Str → Nat) (k : Str) (t : List Str) (j : Nat)
    (ts : List (List Str)) :
    ((ts.map (fun r => k :: r)).filter
        (fun r2 => decide (r2.take (j + 1) = (k :: t).take (j + 1)))).map
        (fun r2 => len (r2.getD (j + 1) []))
      = (ts.filter (fun r2 => decide (r2.take j = t.take j))).map
        (fun r2 => len (r2.getD j [])) := by
  induction ts with
  | nil => rfl
  | cons x xs ih =>
    by_cases hx : x.take j = t.take j
    · simp only [List.map_cons, List.filter_cons, List.take_succ_cons, hx, decide_True, if_true,
        List.getD_cons_succ]
      simp only [List.take_succ_cons] at ih
      rw [ih]
    · simp only [List.map_cons, List.filter_cons, List.take_succ_cons, List.cons.injEq, true_and,
        hx, decide_False, Bool.false_eq_true, if_false]
      simp only [List.take_succ_cons, List.cons.injEq, true_and] at ih
      rw [ih]

/-- Within the rows of groups with pairwise different first tokens, the width
of a position behind the first is the width within the group. -/
theorem colWidth_group (len : Str → Nat) (groups : List (Str × List (List Str)))
    (hnd : (groups.map Prod.fst).Nodup) (g : Str × List (List Str)) (hg : g ∈ groups)
    (t : List Str) (j : Nat) :
    colWidth len (groups.flatMap (fun g => g.2.map (fun r => g.1 :: r))) (g.1 :: t) (j + 1)
      = colWidth len g.2 t j := by
  unfold colWidth
  congr 1
  induction groups with
  | nil => cases hg
  | cons c cs ih =>
    rw [List.map_cons, List.nodup_cons] at hnd
    rw [List.flatMap_cons, List.filter_append, List.map_append]
    rcases List.mem_cons.1 hg with h | h
    · subst h
      have hrest : (cs.flatMap (fun g => g.2.map (fun r => g.1 :: r))).filter
          (fun r2 => decide (r2.take (j + 1) = (g.1 :: t).take (j + 1))) = [] := by
        rw [List.filter_eq_nil_iff]
        intro r2 hr2
        obtain ⟨c, hc, hr⟩ := List.mem_flatMap.1 hr2
        have hck : c.1 ≠ g.1 := fun heq => hnd.1 (by rw [← heq]; exact List.mem_map.2 ⟨c, hc, rfl⟩)
        have := filter_other_group g.1 t j c hck
        rw [List.filter_eq_nil_iff] at this
        exact this r2 hr
      rw [hrest, List.map_nil, List.append_nil, filter_same_group]
    · have hck : c.1 ≠ g.1 := fun heq => hnd.1 (by rw [heq]; exact List.mem_map.2 ⟨g, h, rfl⟩)
      rw [filter_other_group g.1 t j c hck, List.map_nil, List.nil_append]
      exact ih hnd.2 h

theorem annotFrom_group (groups : List (Str × List (List Str)))
    (hnd : (groups.map Prod.fst).Nodup) (g : Str × List (List Str)) (hg : g ∈ groups)
    (t : List Str) (j : Nat) (toks : List Str) :
    annotFrom (groups.flatMap (fun g => g.2.map (fun r => g.1 :: r))) (g.1 :: t) (j + 1) toks
      = annotFrom g.2 t j toks := by
  induction toks generalizing j with
  | nil => rfl
  | cons x xs ih =>
    rw [annotFrom, annotFrom, ih (j + 1), colWidth_group strLen groups hnd g hg t j]

/-- On rows that are the paths of a tree, `toStrWithWidthNotTable` gives every
token the width of its position in the words of the specification. -/
theorem aux_annotate (rows : List (List Str)) (h : TreeRows rows) (fuel : Nat)
    (hlen : ∀ r ∈ rows, r.length < fuel) :
    toStrWithWidthNotTableAux fuel rows = rows.map (annotate rows) := by
  induction h generalizing fuel with
  | leaf t =>
    obtain ⟨f, rfl⟩ : ∃ f, fuel = f + 1 := ⟨fuel - 1, by
      have := hlen [t] (List.mem_singleton_self _)
      simp only [List.length_singleton] at this
      omega⟩
    have hw := width_first [[t]] [t]
    simp only [toStrWithWidthNotTableAux, List.any_cons, List.length_singleton, List.any_nil,
      Bool.or_false, groupRuns, aux_empty_row, List.map_cons, List.map_nil, annotate, annotFrom,
      col0, List.headD_cons, List.tail_cons]
    simp only [col0, List.headD_cons, List.foldl_cons, List.foldl_nil] at hw
    simp [hw]
  | node groups hne hnd hch ih =>
    have hnn : ∀ g ∈ groups, g.2 ≠ [] := fun g hg => (treeRows_ne g.2 (hch g hg)).1
    obtain ⟨f, rfl⟩ : ∃ f, fuel = f + 1 := ⟨fuel - 1, by
      obtain ⟨r, hr⟩ := List.exists_mem_of_ne_nil _ (treeRows_ne _ (TreeRows.node groups hne hnd hch)).1
      have := hlen r hr
      omega⟩
    have hany : (groups.flatMap (fun g => g.2.map (fun r => g.1 :: r))).any
        (fun row => row.length == 0) = false := by
      rw [List.any_eq_false]
      intro r hr
      have := (treeRows_ne _ (TreeRows.node groups hne hnd hch)).2 r hr
      simpa using this
    have hcode : ∀ W : Nat, W = (groups.flatMap (fun g => g.2.map (fun r => g.1 :: r))).foldl
          (fun width r => maxInt width (strLen (col0 r))) 0 →
        toStrWithWidthNotTableAux (f + 1)
          (groups.flatMap (fun g => g.2.map (fun r => g.1 :: r)))
        = groups.flatMap (fun g => (toStrWithWidthNotTableAux f g.2).map
            (fun subret => (⟨g.1, W⟩ : strWithWidth) :: subret)) := by
      intro W hW
      obtain ⟨g0, gs, rfl⟩ := List.exists_cons_of_ne_nil hne
      obtain ⟨k, ts⟩ := g0
      obtain ⟨t0, ts0, rfl⟩ := List.exists_cons_of_ne_nil (hnn (k, ts) (List.mem_cons_self _ _))
      rw [List.map_cons, List.nodup_cons] at hnd
      rw [List.flatMap_cons] at hany hW ⊢
      simp only [List.map_cons, List.cons_append] at hany hW ⊢
      simp only [toStrWithWidthNotTableAux, hany, Bool.false_eq_true, if_false]
      rw [← hW]
      simp only [col0, List.headD_cons, List.tail_cons]
      rw [groupRuns_same _ _ k ts0 [t0], groupRuns_groups _ _ gs k ([t0] ++ ts0)
        (fun g hg heq => hnd.1 (by rw [← heq]; exact List.mem_map.2 ⟨g, hg, rfl⟩)) hnd.2
        (fun g hg => hnn g (List.mem_cons_of_mem _ hg))]
      simp
    rw [hcode _ rfl]
    rw [List.map_flatMap]
    apply List.flatMap_congr
    intro g hg
    have hsub : ∀ r ∈ g.2, r.length < f := by
      intro r hr
      have := hlen (g.1 :: r) (List.mem_flatMap.2 ⟨g, hg, List.mem_map.2 ⟨r, hr, rfl⟩⟩)
      simp only [List.length_cons] at this
      omega
    rw [ih g hg f hsub, List.map_map, List.map_map]
    apply List.map_congr_left
    intro t ht
    simp only [Function.comp_apply, annotate, annotFrom]
    rw [annotFrom_group groups hnd g hg t 0 t,
      width_first _ (g.1 :: t)]

theorem annotFrom_tokens (rows : List (List Str)) (r : List Str) (j : Nat) (toks : List Str) :
    (annotFrom rows r j toks).map (fun col => col.s) = toks := by
  induction toks generalizing j with
  | nil => rfl
  | cons x xs ih => rw [annotFrom, List.map_cons, ih]

theorem stripWidths_annotate (rows : List (List Str)) :
    stripWidths (rows.map (annotate rows)) = rows := by
  rw [stripWidths, List.map_map]
  conv_rhs => rw [← List.map_id rows]
  apply List.map_congr_left
  intro r _
  exact annotFrom_tokens rows r 0 r

/-- In rows that are the paths of a tree, the width of the last position of a
row is the length of its last token. -/
theorem treeRows_last (rows : List (List Str)) (h : TreeRows rows) :
    ∀ r ∈ rows, ∃ init last, r = init ++ [last] ∧
      colWidth strLen rows r init.length = strLen last := by
  induction h with
  | leaf t =>
    intro r hr
    rw [List.mem_singleton] at hr
    subst hr
    exact ⟨[], t, rfl, by simp [colWidth]⟩
  | node groups hne hnd hch ih =>
    intro r hr
    obtain ⟨g, hg, hgr⟩ := List.mem_flatMap.1 hr
    obtain ⟨t, ht, rfl⟩ := List.mem_map.1 hgr
    obtain ⟨init, last, rfl, hw⟩ := ih g hg t ht
    refine ⟨g.1 :: init, last, rfl, ?_⟩
    rw [List.length_cons, colWidth_group strLen groups hnd g hg _ init.length, hw]

theorem writeCols_true_succ (ic : Nat) (cols : List strWithWidth) :
    writeCols true (ic + 1) cols = cols.flatMap (fun col => ' ' :: putMargin col.s col.w) := by
  induction cols generalizing ic with
  | nil => rfl
  | cons c cs ih => simp [writeCols, ih]

theorem writeCols_true_zero (cols : List strWithWidth) :
    writeCols true 0 cols
      = List.intercalate [' '] (cols.map (fun col => putMargin col.s col.w)) := by
  cases cols with
  | nil => rfl
  | cons c cs =>
    rw [List.map_cons, intercalate_cons]
    simp [writeCols, writeCols_true_succ, List.flatMap_map]

/-- The tokens that `Encode` writes with justify enabled for an annotated row
whose last token has the width of its own length. -/
theorem annotFrom_aligned (rows : List (List Str)) (r : List Str) (j : Nat)
    (init : List Str) (last : Str)
    (hw : colWidth strLen rows r (j + init.length) = strLen last) :
    (annotFrom rows r j (init ++ [last])).map (fun col => putMargin col.s col.w)
      = alignedTokens strLen rows r j (init ++ [last]) := by
  induction init generalizing j with
  | nil =>
    simp only [List.length_nil, Nat.add_zero] at hw
    simp [annotFrom, alignedTokens, hw, putMargin, createMargin]
  | cons x xs ih =>
    have hstep := ih (j + 1) (by
      simp only [List.length_cons] at hw
      rw [← hw]
      congr 1
      omega)
    cases hxs : xs ++ [last] with
    | nil => simp at hxs
    | cons u rest =>
      rw [hxs] at hstep
      rw [List.cons_append, hxs, annotFrom, List.map_cons, hstep, alignedTokens]
      rfl

/-- What `Encode` writes with justify enabled for rows that are the paths of a
tree: the text in the words of the specification. -/
theorem writeRows_aligned (rows : List (List Str)) (h : TreeRows rows) :
    writeRows true (toStrWithWidthNotTable rows) = alignedText strLen rows := by
  rw [toStrWithWidthNotTable, aux_annotate rows h _
    (fun r hr => Nat.lt_succ_of_le (le_maxRowLen rows r hr))]
  have hlast := treeRows_last rows h
  have key : ∀ rs : List (List Str), (∀ r ∈ rs, r ∈ rows) →
      writeRows true (rs.map (annotate rows)) = rs.flatMap (alignedLine strLen rows) := by
    intro rs hrs
    induction rs with
    | nil => rfl
    | cons r rest ih =>
      obtain ⟨init, last, hr, hw⟩ := hlast r (hrs r (List.mem_cons_self _ _))
      rw [List.map_cons, writeRows, ih (fun x hx => hrs x (List.mem_cons_of_mem _ hx)),
        List.flatMap_cons, writeCols_true_zero, alignedLine]
      have ha := annotFrom_aligned rows r 0 init last (by simpa using hw)
      rw [← hr] at ha
      rw [annotate, ha]
      rfl
  exact key rows (fun r hr => hr)

/-- The rows of a value that round-trips are the paths of a tree. -/
theorem treeRows_lines {F : Type} (L : FloatOps F) (n : Nat) (x : Tree F)
    (hn : Tree.height x ≤ n) (hp : Tree.plain L x) :
    TreeRows ((Tree.lines x).map (Line.row L)) := by
  induction n generalizing x with
  | zero =>
    cases x with
    | leaf t =>
      have hl : Tree.lines (.leaf t : Tree F) = [⟨[], t⟩] := by
        conv_lhs => unfold Tree.lines
      rw [hl]
      exact TreeRows.leaf _
    | mapping m =>
      exfalso
      have : Tree.height (.mapping m) = heightEntries m + 1 := by
        conv_lhs => unfold Tree.height
      omega
    | seq l =>
      exfalso
      have : Tree.height (.seq l) = heightItems l + 1 := by
        conv_lhs => unfold Tree.height
      omega
  | succ n ih =>
    by_cases hx : ∀ t, x ≠ .leaf t
    · obtain ⟨hgne, hgnd, hg⟩ := groups_spec L x hx hp
      have hrows : (Tree.lines x).map (Line.row L)
          = ((Tree.groups x).map
              (fun g => (g.1.render L, (Tree.lines g.2).map (Line.row L)))).flatMap
              (fun c => c.2.map (fun r => c.1 :: r)) := by
        rw [lines_groups x hx]
        simp [List.map_flatMap, List.flatMap_map, List.map_map, Function.comp_def,
          Line.push, Line.row]
      rw [hrows]
      apply TreeRows.node
      · simpa using hgne
      · rw [List.map_map]
        have : (Prod.fst ∘ fun g : Tok F × Tree F =>
            (g.1.render L, (Tree.lines g.2).map (Line.row L)))
            = (Tok.render L) ∘ Prod.fst := rfl
        rw [this, ← List.map_map]
        apply List.Nodup.map_on _ hgnd
        intro a ha b hb hab
        obtain ⟨ga, hga, rfl⟩ := List.mem_map.1 ha
        obtain ⟨gb, hgb, rfl⟩ := List.mem_map.1 hb
        exact render_injective L _ _ (hg ga hga).2.2.2 (hg gb hgb).2.2.2 hab
      · intro c hc
        obtain ⟨g0, hg0, rfl⟩ := List.mem_map.1 hc
        exact ih g0.2 (by have := (hg g0 hg0).2.1; omega) (hg g0 hg0).1
    · push_neg at hx
      obtain ⟨t, rfl⟩ := hx
      have hl : Tree.lines (.leaf t : Tree F) = [⟨[], t⟩] := by
        conv_lhs => unfold Tree.lines
      rw [hl]
      exact TreeRows.leaf _

/-! ## One line for every row -/

theorem groupRuns_length (rec : List (List Str) → List (List strWithWidth))
    (hrec : ∀ rs, (rec rs).length = rs.length) (w : Nat) (rest : List (List Str))
    (colv : Str) (subRows : List (List Str)) :
    (groupRuns rec w colv subRows rest).length = subRows.length + rest.length := by
  induction rest generalizing colv subRows with
  | nil => simp [groupRuns, hrec]
  | cons row rest ih =>
    by_cases hc : col0 row = colv
    · simp only [groupRuns, hc, ne_eq, not_true_eq_false, if_false, ih, List.length_append,
        List.length_cons, List.length_nil]
      omega
    · simp only [groupRuns, hc, ne_eq, not_false_eq_true, if_true, List.length_append,
        List.length_map, hrec, ih, List.length_cons, List.length_nil]
      omega

/-- The aligner returns as many rows as it is given. -/
theorem aux_length (fuel : Nat) (rows : List (List Str)) :
    (toStrWithWidthNotTableAux fuel rows).length = rows.length := by
  induction fuel generalizing rows with
  | zero => simp [toStrWithWidthNotTableAux]
  | succ f ih =>
    cases rows with
    | nil => simp [toStrWithWidthNotTableAux]
    | cons row rest =>
      by_cases hany : (row :: rest).any (fun row => row.length == 0) = true
      · simp only [toStrWithWidthNotTableAux, hany, if_true, List.length_map]
      · simp only [toStrWithWidthNotTableAux, hany, Bool.false_eq_true, if_false]
        rw [groupRuns_length _ ih]
        simp
        omega

/-! ## Lines with the same key path -/

theorem subKvs_append {F : Type} (L : FloatOps F) (k : Tok F) (a b : List (KV F)) :
    subKvs L k (a ++ b) = subKvs L k a ++ subKvs L k b := by
  simp [subKvs, entriesOf_append]

/-- Under the key of the last line with a one-key path the first loop of
`kvsToMap` leaves the leaf of that line. -/
theorem slotFor_last {F : Type} (L : FloatOps F) (k : Tok F) (t : Tok F)
    (pre post : List (KV F)) (hP : keysPlain (pre ++ (k, Path.leaf t) :: post))
    (hnc : noClash (pre ++ (k, Path.leaf t) :: post))
    (hlast : ∀ b ∈ post, kvKeys b ≠ kvKeys (k, Path.leaf t)) :
    slotFor L k (pre ++ (k, Path.leaf t) :: post) = .value t := by
  have hk : k.isKey = true := keysPlain_head _ hP (k, Path.leaf t) (by simp)
  have hpostP : ∀ e ∈ post, e.1.isKey = true :=
    fun e he => keysPlain_head _ hP e (by simp [he])
  have hpost : entriesOf L k post = [] := by
    rw [List.eq_nil_iff_forall_not_mem]
    intro p hp
    have hmem := (mem_entriesOf L k post hpostP p).1 hp
    have hcl := hnc (k, Path.leaf t) (by simp) (k, p) (by simp [hmem])
      (by simp [kvKeys, Path.keys])
    exact hlast (k, p) hmem hcl.symm
  have hent : entriesOf L k (pre ++ (k, Path.leaf t) :: post)
      = entriesOf L k pre ++ [Path.leaf t] := by
    have : pre ++ (k, Path.leaf t) :: post = pre ++ ([(k, Path.leaf t)] ++ post) := by simp
    rw [this, entriesOf_append, entriesOf_append, entriesOf_single_eq L k _ hk, hpost]
    simp
  simp [slotFor, hent]

theorem Tree.get_cons {F : Type} (s : Str) (ks : List Str) (T : List (Str × Tree F)) :
    Tree.get (s :: ks) (.mapping T)
      = (mapGet (fun a b => a == b) T s).bind (Tree.get ks) := by
  simp [Tree.get]

/-- On the grouped map of lines with string keys none of which has a key path
that is a proper prefix of another, `makeKeyStringOrCvtSlice` returns a mapping
in which the keys of every line that is the last with its key path reach the
leaf of that line. -/
theorem norm_build_last {F : Type} (L : FloatOps F) (g : Nat) (kvs : List (KV F))
    (hg : 0 < g) (hd : ∀ e ∈ kvs, e.2.depth < g) (hS : keysStr kvs) (hnc : noClash kvs) :
    ∃ T, makeKeyStringOrCvtSlice L (g + 1) (.map (build L g kvs)) = some (.ok (.mapping T)) ∧
      (∀ pre e post, kvs = pre ++ e :: post → (∀ b ∈ post, kvKeys b ≠ kvKeys e) →
        Tree.get ((kvKeys e).map Tok.strOf) (.mapping T) = some (.leaf e.2.leafTok)) := by
  induction g generalizing kvs with
  | zero => omega
  | succ g ih =>
    have hP := keysPlain_of_keysStr kvs hS
    obtain ⟨_, hnd, hkP, hmemk⟩ := build_keys L g kvs hP
    have hentry := build_entry L g kvs hP hnc
    have hsub : ∀ k, subKvs L k kvs ≠ [] →
        ∃ T, makeKeyStringOrCvtSlice L (g + 1) (.map (build L g (subKvs L k kvs)))
            = some (.ok (.mapping T)) ∧
          (∀ pre e post, subKvs L k kvs = pre ++ e :: post →
            (∀ b ∈ post, kvKeys b ≠ kvKeys e) →
            Tree.get ((kvKeys e).map Tok.strOf) (.mapping T) = some (.leaf e.2.leafTok)) :=
      fun k hne => ih _ (subKvs_pos L k kvs hP g hd hne) (subKvs_depth L k kvs hP g hd)
        (subKvs_keysStr L k kvs hS) (subKvs_noClash L k kvs hP hnc)
    have hrec : ∀ e ∈ build L (g + 1) kvs,
        makeKeyStringOrCvtSlice L (g + 1) e.2 = some (.ok (normOr L (g + 1) e.2)) := by
      intro e he
      rcases hentry e he with ⟨t, ht, _⟩ | ⟨hm, hne⟩
      · rw [ht]; rfl
      · obtain ⟨T1, hT1, _⟩ := hsub e.1 hne
        rw [hm, normOr_of_eq L _ _ _ hT1, hT1]
    have hstrm : ∀ e ∈ build L (g + 1) kvs, ∃ s, e.1 = Tok.str s := by
      intro e he
      have := (hmemk e.1).1 (List.mem_map_of_mem _ he)
      obtain ⟨e0, he0, h0⟩ := List.mem_map.1 this
      rw [← h0]
      exact hS e0 he0 e0.1 (List.mem_cons_self _ _)
    have hnorm := norm_str_level L (g + 1) _ hstrm hnd (normOr L (g + 1)) hrec
    have hTnd : ((build L (g + 1) kvs).map
        (fun e => (e.1.strOf, normOr L (g + 1) e.2))).map Prod.fst |>.Nodup := by
      rw [List.map_map]
      have : (Prod.fst ∘ fun e : Tok F × RawVal F => (e.1.strOf, normOr L (g + 1) e.2))
          = Tok.strOf ∘ Prod.fst := rfl
      rw [this, ← List.map_map]
      apply List.Nodup.map_on _ hnd
      intro x hx y hy hxy
      obtain ⟨ex, hex, rfl⟩ := List.mem_map.1 hx
      obtain ⟨ey, hey, rfl⟩ := List.mem_map.1 hy
      obtain ⟨sx, hsx⟩ := hstrm ex hex
      obtain ⟨sy, hsy⟩ := hstrm ey hey
      rw [hsx, hsy] at hxy ⊢
      simp only [Tok.strOf] at hxy
      rw [hxy]
    have hlook : ∀ e ∈ build L (g + 1) kvs,
        mapGet (fun a b => a == b)
          ((build L (g + 1) kvs).map (fun e => (e.1.strOf, normOr L (g + 1) e.2))) e.1.strOf
          = some (normOr L (g + 1) e.2) := by
      intro e he
      exact mapGet_of_mem (fun a b : Str => a == b) (fun _ => True) (fun a b _ => by simp) _
        (fun _ _ => trivial) hTnd (e.1.strOf, normOr L (g + 1) e.2)
        (List.mem_map.2 ⟨e, he, rfl⟩)
    refine ⟨_, hnorm, ?_⟩
    rintro pre ⟨k, p⟩ post hkvs hlast
    have he : ((k, p) : KV F) ∈ kvs := by rw [hkvs]; simp
    have hem := build_has L g kvs hP k (List.mem_map.2 ⟨_, he, rfl⟩)
    have hl := hlook _ hem
    simp only at hl
    cases p with
    | leaf t =>
      have hslot : slotFor L k kvs = .value t := by
        rw [hkvs]
        exact slotFor_last L k t pre post (hkvs ▸ hP) (hkvs ▸ hnc) hlast
      rw [hslot] at hl
      simp only [kvKeys, Path.keys, List.map_cons, List.map_nil, Tree.get_cons, hl,
        Option.bind_some, Path.leafTok]
      rfl
    | kv k1 v1 =>
      rcases hentry _ hem with ⟨t, _, hmem⟩ | ⟨hm, hne⟩
      · exfalso
        have := hnc _ hmem _ he (by simp [kvKeys, Path.keys])
        simp [kvKeys, Path.keys] at this
      · simp only at hm hne
        obtain ⟨T1, hT1, ha1⟩ := hsub k hne
        have hk : k.isKey = true := keysPlain_head kvs hP _ he
        have hsplit : subKvs L k kvs
            = subKvs L k pre ++ (k1, v1) :: subKvs L k post := by
          have : pre ++ (k, Path.kv k1 v1) :: post
              = pre ++ ([(k, Path.kv k1 v1)] ++ post) := by simp
          rw [hkvs, this, subKvs_append, subKvs_append]
          simp [subKvs, entriesOf_single_eq L k _ hk, Path.asKV]
        have hpostP : ∀ e ∈ post, e.1.isKey = true :=
          fun e hep => keysPlain_head kvs hP e (by rw [hkvs]; simp [hep])
        have := ha1 _ _ _ hsplit (by
          rintro ⟨k2, v2⟩ hb heq
          have hb2 := (mem_subKvs L k post hpostP k2 v2).1 hb
          apply hlast _ hb2
          simp only [kvKeys, Path.keys] at heq ⊢
          rw [heq])
        simp only [kvKeys, Path.keys, List.map_cons, Tree.get_cons, hl, hm,
          normOr_of_eq L _ _ _ hT1, Option.bind_some, Path.leafTok] at this ⊢
        exact this

/-! ## The order of the lines -/

theorem isKey_cases {F : Type} (t : Tok F) (h : t.isKey = true) :
    (∃ s, t = .str s) ∨ (∃ i, t = .int i) := by
  cases t with
  | str s => exact Or.inl ⟨s, rfl⟩
  | int i => exact Or.inr ⟨i, rfl⟩
  | eol => simp [Tok.isKey] at h
  | float f => simp [Tok.isKey] at h
  | bool b => simp [Tok.isKey] at h
  | null => simp [Tok.isKey] at h

theorem getD_mem_or_nil (r : List Str) (j : Nat) : r.getD j [] ∈ r ∨ r.getD j [] = [] := by
  induction r generalizing j with
  | nil => right; rfl
  | cons x xs ih =>
    cases j with
    | zero => left; simp
    | succ k =>
      rcases ih k with h | h
      · left; simp only [List.getD_cons_succ]; exact List.mem_cons_of_mem _ h
      · right; simp only [List.getD_cons_succ]; exact h

theorem colWidth_congr (len1 len2 : Str → Nat) (rows : List (List Str)) (h0 : len1 [] = len2 [])
    (h : ∀ r ∈ rows, ∀ t ∈ r, len1 t = len2 t) (r : List Str) (j : Nat) :
    colWidth len1 rows r j = colWidth len2 rows r j := by
  unfold colWidth
  congr 1
  apply List.map_congr_left
  intro r2 hr2
  have hmem : r2 ∈ rows := (List.mem_filter.1 hr2).1
  rcases getD_mem_or_nil r2 j with hg | hg
  · exact h r2 hmem _ hg
  · rw [hg]; exact h0

theorem alignedTokens_congr (len1 len2 : Str → Nat) (rows : List (List Str))
    (h0 : len1 [] = len2 []) (h : ∀ r ∈ rows, ∀ t ∈ r, len1 t = len2 t) (r : List Str)
    (j : Nat) (toks : List Str) (ht : ∀ t ∈ toks, len1 t = len2 t) :
    alignedTokens len1 rows r j toks = alignedTokens len2 rows r j toks := by
  induction toks generalizing j with
  | nil => rfl
  | cons t rest ih =>
    cases rest with
    | nil => rfl
    | cons u rest2 =>
      rw [alignedTokens, alignedTokens, ih (j + 1) (fun x hx => ht x (List.mem_cons_of_mem _ hx)),
        colWidth_congr len1 len2 rows h0 h r j, padTo, padTo, ht t (List.mem_cons_self _ _)]

/-- Two measures that agree on the tokens of the rows give the same aligned
text. -/
theorem alignedText_congr (len1 len2 : Str → Nat) (rows : List (List Str))
    (h0 : len1 [] = len2 []) (h : ∀ r ∈ rows, ∀ t ∈ r, len1 t = len2 t) :
    alignedText len1 rows = alignedText len2 rows := by
  unfold alignedText
  apply List.flatMap_congr
  intro r hr
  unfold alignedLine
  rw [alignedTokens_congr len1 len2 rows h0 h r 0 r (h r hr)]

/-- The scanner delivers the text of an escaped string as it is, unless the
string begins with the byte-order mark. -/
theorem scannerInit_escape (s : Str) (hs : s.head? ≠ some bom) (rest : List Char) :
    scannerInit (escape s ++ rest) = escape s ++ rest := by
  cases s with
  | nil => rfl
  | cons c cs =>
    have hc : c ≠ bom := fun h => hs (by rw [h]; rfl)
    rw [escape_cons]
    split_ifs with h
    · rfl
    · rw [List.flatMap_cons]
      unfold escChar
      split_ifs with h1 h2 h3
      · rfl
      · rfl
      · rfl
      · simp only [List.singleton_append, List.cons_append, scannerInit, if_neg hc]

/-- A text that does not begin with the byte-order mark is delivered as it
is. -/
theorem scannerInit_id (src : Str) (hs : src.head? ≠ some bom) : scannerInit src = src := by
  cases src with
  | nil => rfl
  | cons c cs =>
    have hc : c ≠ bom := fun h => hs (by rw [h]; rfl)
    simp only [scannerInit, if_neg hc]

/-- An entry of the map after `m[k] = v` holds `v` or is an entry of the map
before. -/
theorem mapSet_mem_val {κ α : Type} (eq : κ → κ → Bool) (m : List (κ × α)) (k : κ) (v : α)
    (e : κ × α) (he : e ∈ mapSet eq m k v) : e.2 = v ∨ e ∈ m := by
  induction m with
  | nil =>
    simp only [mapSet, List.mem_singleton] at he
    left; rw [he]
  | cons x xs ih =>
    obtain ⟨k1, v1⟩ := x
    simp only [mapSet] at he
    split_ifs at he with h
    · rcases List.mem_cons.1 he with h1 | h1
      · left; rw [h1]
      · right; exact List.mem_cons_of_mem _ h1
    · rcases List.mem_cons.1 he with h1 | h1
      · right; rw [h1]; exact List.mem_cons_self _ _
      · rcases ih h1 with h2 | h2
        · left; exact h2
        · right; exact List.mem_cons_of_mem _ h2

/-- One step of the first loop of `kvsToMap` keeps every `[]kv` of the map
non-empty and its chains shorter than the chains inserted. -/
theorem kvsInsert_below {F : Type} (L : FloatOps F) (D : Nat) (m m1 : List (Tok F × Slot F))
    (s : KV F) (hm : ∀ e ∈ m, ∀ l, e.2 = Slot.kvs l → l ≠ [] ∧ ∀ x ∈ l, x.2.depth < D)
    (hs : s.2.depth ≤ D) (h : kvsInsert L m s = some m1) :
    ∀ e ∈ m1, ∀ l, e.2 = Slot.kvs l → l ≠ [] ∧ ∀ x ∈ l, x.2.depth < D := by
  obtain ⟨sk, sp⟩ := s
  cases sp with
  | leaf t =>
    simp only [kvsInsert, Option.some.injEq] at h
    subst h
    intro e he l hl
    rcases mapSet_mem_val _ _ _ _ _ he with h1 | h1
    · rw [h1] at hl; cases hl
    · exact hm e h1 l hl
  | kv k v =>
    have hv : v.depth < D := by
      simp only [Path.depth] at hs
      omega
    simp only [kvsInsert] at h
    cases hg : mapGet (Tok.keyEq L) m sk with
    | none =>
      rw [hg] at h
      simp only [Option.some.injEq] at h
      subst h
      intro e he l hl
      rcases mapSet_mem_val _ _ _ _ _ he with h1 | h1
      · rw [h1] at hl
        injection hl with hl
        subst hl
        refine ⟨by simp, ?_⟩
        intro x hx
        rw [List.mem_singleton] at hx
        rw [hx]; exact hv
      · exact hm e h1 l hl
    | some sl =>
      rw [hg] at h
      cases sl with
      | value t => cases h
      | kvs skvs =>
        simp only [Option.some.injEq] at h
        subst h
        obtain ⟨e0, he0, hv0⟩ := mapGet_mem _ _ _ _ hg
        intro e he l hl
        rcases mapSet_mem_val _ _ _ _ _ he with h1 | h1
        · rw [h1] at hl
          injection hl with hl
          subst hl
          refine ⟨by simp, ?_⟩
          intro x hx
          rcases List.mem_append.1 hx with h2 | h2
          · exact (hm e0 he0 skvs hv0).2 x h2
          · rw [List.mem_singleton] at h2
            rw [h2]; exact hv
        · exact hm e h1 l hl

/-- The first loop of `kvsToMap` keeps every `[]kv` of the map non-empty and
its chains shorter than the chains inserted. -/
theorem kvsInsertAll_below {F : Type} (L : FloatOps F) (D : Nat) (kvs : List (KV F))
    (m m1 : List (Tok F × Slot F))
    (hm : ∀ e ∈ m, ∀ l, e.2 = Slot.kvs l → l ≠ [] ∧ ∀ x ∈ l, x.2.depth < D)
    (hs : ∀ s ∈ kvs, s.2.depth ≤ D) (h : kvsInsertAll L kvs m = some m1) :
    ∀ e ∈ m1, ∀ l, e.2 = Slot.kvs l → l ≠ [] ∧ ∀ x ∈ l, x.2.depth < D := by
  induction kvs generalizing m with
  | nil =>
    simp only [kvsInsertAll, Option.some.injEq] at h
    subst h; exact hm
  | cons s rest ih =>
    simp only [kvsInsertAll] at h
    cases h1 : kvsInsert L m s with
    | none => rw [h1] at h; cases h
    | some m2 =>
      rw [h1] at h
      exact ih m2 (kvsInsert_below L D m m2 s hm (hs s (List.mem_cons_self _ _)) h1)
        (fun x hx => hs x (List.mem_cons_of_mem _ hx)) h

/-- The second loop of `kvsToMap` returns when the recursive call returns on
every `[]kv` of the map. -/
theorem kvsResolve_total {F : Type}
    (rec : List (KV F) → Option (Result (List (Tok F × RawVal F))))
    (m : List (Tok F × Slot F))
    (h : ∀ e ∈ m, ∀ l, e.2 = Slot.kvs l → ∃ r, rec l = some r) :
    ∃ r, kvsResolve rec m = some r := by
  induction m with
  | nil => exact ⟨_, rfl⟩
  | cons x xs ih =>
    obtain ⟨k, sl⟩ := x
    obtain ⟨r, hr⟩ := ih (fun e he => h e (List.mem_cons_of_mem _ he))
    cases sl with
    | value t =>
      cases r with
      | ok a => exact ⟨_, by simp only [kvsResolve, hr]; rfl⟩
      | error e => exact ⟨_, by simp only [kvsResolve, hr]; rfl⟩
      | panic msg => exact ⟨_, by simp only [kvsResolve, hr]; rfl⟩
    | kvs l =>
      obtain ⟨r1, hr1⟩ := h (k, .kvs l) (List.mem_cons_self _ _) l rfl
      cases r1 with
      | error e => exact ⟨_, by simp only [kvsResolve, hr1]; rfl⟩
      | panic msg => exact ⟨_, by simp only [kvsResolve, hr1]; rfl⟩
      | ok mm =>
        cases r with
        | ok a => exact ⟨_, by simp only [kvsResolve, hr1, hr]; rfl⟩
        | error e => exact ⟨_, by simp only [kvsResolve, hr1, hr]; rfl⟩
        | panic msg => exact ⟨_, by simp only [kvsResolve, hr1, hr]; rfl⟩

/-- `kvsToMap` returns (a map, an error or a panic) when the fuel exceeds the
length of every chain. -/
theorem kvsToMap_total {F : Type} (L : FloatOps F) (f : Nat) (kvs : List (KV F))
    (hf : 0 < f) (hd : ∀ e ∈ kvs, e.2.depth < f) : ∃ r, kvsToMap L f kvs = some r := by
  induction f generalizing kvs with
  | zero => omega
  | succ f ih =>
    simp only [kvsToMap]
    cases h : kvsInsertAll L kvs [] with
    | none => exact ⟨_, rfl⟩
    | some m =>
      have hinv := kvsInsertAll_below L f kvs [] m (fun _ he => nomatch he)
        (fun s hs => by have := hd s hs; omega) h
      refine kvsResolve_total _ m ?_
      intro e he l hl
      obtain ⟨hne, hlt⟩ := hinv e he l hl
      obtain ⟨x, hx⟩ := List.exists_mem_of_ne_nil l hne
      exact ih l (by have := hlt x hx; omega) hlt

/-- An entry of the map that the second loop of `kvsToMap` returns is a token
or the map that the recursive call returned for a `[]kv`. -/
theorem kvsResolve_mem {F : Type}
    (rec : List (KV F) → Option (Result (List (Tok F × RawVal F))))
    (m : List (Tok F × Slot F)) (r : List (Tok F × RawVal F))
    (h : kvsResolve rec m = some (.ok r)) :
    ∀ e ∈ r, (∃ t, e.2 = .tok t) ∨
      ∃ l mm, (e.1, Slot.kvs l) ∈ m ∧ rec l = some (.ok mm) ∧ e.2 = .map mm := by
  induction m generalizing r with
  | nil =>
    simp only [kvsResolve, Option.some.injEq, Result.ok.injEq] at h
    subst h
    intro e he; cases he
  | cons x xs ih =>
    obtain ⟨k, sl⟩ := x
    cases sl with
    | value t =>
      simp only [kvsResolve] at h
      cases hr : kvsResolve rec xs with
      | none => rw [hr] at h; cases h
      | some r0 =>
        rw [hr] at h
        cases r0 with
        | error e => cases h
        | panic msg => cases h
        | ok a =>
          simp only [Option.some.injEq, Result.ok.injEq] at h
          subst h
          intro e he
          rcases List.mem_cons.1 he with h1 | h1
          · left; exact ⟨t, by rw [h1]⟩
          · rcases ih a hr e h1 with h2 | ⟨l, mm, h3, h4, h5⟩
            · left; exact h2
            · right; exact ⟨l, mm, List.mem_cons_of_mem _ h3, h4, h5⟩
    | kvs l =>
      simp only [kvsResolve] at h
      cases hl : rec l with
      | none => rw [hl] at h; cases h
      | some r1 =>
        rw [hl] at h
        cases r1 with
        | error e => cases h
        | panic msg => cases h
        | ok mm =>
          simp only at h
          cases hr : kvsResolve rec xs with
          | none => rw [hr] at h; cases h
          | some r0 =>
            rw [hr] at h
            cases r0 with
            | error e => cases h
            | panic msg => cases h
            | ok a =>
              simp only [Option.some.injEq, Result.ok.injEq] at h
              subst h
              intro e he
              rcases List.mem_cons.1 he with h1 | h1
              · right; exact ⟨l, mm, by rw [h1]; exact List.mem_cons_self _ _, hl, by rw [h1]⟩
              · rcases ih a hr e h1 with h2 | ⟨l2, mm2, h3, h4, h5⟩
                · left; exact h2
                · right; exact ⟨l2, mm2, List.mem_cons_of_mem _ h3, h4, h5⟩

/-- The loop over the entries of a map returns when the recursive call returns
on every value. -/
theorem normEntries_total {F : Type} (rec : RawVal F → Option (Except DecodeError (Tree F)))
    (sm : List (Str × RawVal F)) (h : ∀ e ∈ sm, ∃ r, rec e.2 = some r) :
    ∃ r, normEntries rec sm = some r := by
  induction sm with
  | nil => exact ⟨_, rfl⟩
  | cons x xs ih =>
    obtain ⟨k, v⟩ := x
    obtain ⟨r, hr⟩ := ih (fun e he => h e (List.mem_cons_of_mem _ he))
    obtain ⟨r1, hr1⟩ := h (k, v) (List.mem_cons_self _ _)
    simp only at hr1
    cases r1 with
    | error e => exact ⟨_, by simp only [normEntries, hr1]; rfl⟩
    | ok nv =>
      cases r with
      | ok a => exact ⟨_, by simp only [normEntries, hr1, hr]; rfl⟩
      | error e => exact ⟨_, by simp only [normEntries, hr1, hr]; rfl⟩

/-- The loop over the items of a slice returns when the recursive call returns
on every item. -/
theorem normItems_total {F : Type} (rec : RawVal F → Option (Except DecodeError (Tree F)))
    (sl : List (RawVal F)) (h : ∀ v ∈ sl, ∃ r, rec v = some r) :
    ∃ r, normItems rec sl = some r := by
  induction sl with
  | nil => exact ⟨_, rfl⟩
  | cons v xs ih =>
    obtain ⟨r, hr⟩ := ih (fun e he => h e (List.mem_cons_of_mem _ he))
    obtain ⟨r1, hr1⟩ := h v (List.mem_cons_self _ _)
    cases r1 with
    | error e => exact ⟨_, by simp only [normItems, hr1]; rfl⟩
    | ok nv =>
      cases r with
      | ok a => exact ⟨_, by simp only [normItems, hr1, hr]; rfl⟩
      | error e => exact ⟨_, by simp only [normItems, hr1, hr]; rfl⟩

/-- The values of the map that `tryMakeKeyString` returns are values of the map
it was given or of the map built so far. -/
theorem tryMakeKeyString_vals {F : Type} (P : RawVal F → Prop) (m : List (Tok F × RawVal F))
    (r sm : List (Str × RawVal F)) (hm : ∀ e ∈ m, P e.2) (hr : ∀ e ∈ r, P e.2)
    (h : tryMakeKeyString m r = some sm) : ∀ e ∈ sm, P e.2 := by
  induction m generalizing r with
  | nil =>
    simp only [tryMakeKeyString, Option.some.injEq] at h
    subst h; exact hr
  | cons x xs ih =>
    obtain ⟨k, v⟩ := x
    cases k with
    | str sk =>
      simp only [tryMakeKeyString] at h
      refine ih _ (fun e he => hm e (List.mem_cons_of_mem _ he)) ?_ h
      intro e he
      rcases mapSet_mem_val _ _ _ _ _ he with h1 | h1
      · rw [h1]; exact hm (.str sk, v) (List.mem_cons_self _ _)
      · exact hr e h1
    | eol => cases h
    | int i => cases h
    | float f => cases h
    | bool b => cases h
    | null => cases h

/-- The items of the slice that `tryCvtSlice` returns are values of the map, or
the nil value. -/
theorem tryCvtSlice_vals {F : Type} (L : FloatOps F) (P : RawVal F → Prop)
    (m : List (Tok F × RawVal F)) (sl : List (RawVal F)) (hm : ∀ e ∈ m, P e.2)
    (hnil : P (.tok .null)) (h : tryCvtSlice L m = some sl) : ∀ v ∈ sl, P v := by
  simp only [tryCvtSlice] at h
  cases hk : intKeys m with
  | none => rw [hk] at h; cases h
  | some keys =>
    rw [hk] at h
    simp only [Option.some.injEq] at h
    subst h
    intro v hv
    obtain ⟨k, _, rfl⟩ := List.mem_map.1 hv
    cases hg : mapGet (Tok.keyEq L) m (.int k) with
    | none => exact hnil
    | some v1 =>
      obtain ⟨e, he, hev⟩ := mapGet_mem _ _ _ _ hg
      simp only [Option.getD_some]
      rw [← hev]; exact hm e he

/-- `makeKeyStringOrCvtSlice` returns on a map when one level less of fuel is
enough for every value of the map. -/
theorem norm_total_map {F : Type} (L : FloatOps F) (g : Nat) (m : List (Tok F × RawVal F))
    (hg : 0 < g) (h : ∀ e ∈ m, ∃ r, makeKeyStringOrCvtSlice L g e.2 = some r) :
    ∃ r, makeKeyStringOrCvtSlice L (g + 1) (.map m) = some r := by
  simp only [makeKeyStringOrCvtSlice]
  cases hs : tryMakeKeyString m [] with
  | some sm =>
    obtain ⟨r, hr⟩ := normEntries_total (makeKeyStringOrCvtSlice L g) sm
      (tryMakeKeyString_vals (fun v => ∃ r, makeKeyStringOrCvtSlice L g v = some r) m [] sm h
        (fun _ he => nomatch he) hs)
    cases r with
    | ok a => exact ⟨_, by simp only [hr]; rfl⟩
    | error e => exact ⟨_, by simp only [hr]; rfl⟩
  | none =>
    cases hc : tryCvtSlice L m with
    | none => exact ⟨_, rfl⟩
    | some sl =>
      have hnil : ∃ r, makeKeyStringOrCvtSlice L g (.tok .null) = some r := by
        obtain ⟨g1, rfl⟩ : ∃ g1, g = g1 + 1 := ⟨g - 1, by omega⟩
        exact ⟨_, rfl⟩
      obtain ⟨r, hr⟩ := normItems_total (makeKeyStringOrCvtSlice L g) sl
        (tryCvtSlice_vals L (fun v => ∃ r, makeKeyStringOrCvtSlice L g v = some r) m sl h hnil hc)
      cases r with
      | ok a => exact ⟨_, by simp only [hr]; rfl⟩
      | error e => exact ⟨_, by simp only [hr]; rfl⟩

/-- On every value of a map that `kvsToMap` returns for chains of at most `D`
keys, `makeKeyStringOrCvtSlice` returns with any fuel above `D`. -/
theorem kvsToMap_norm_total {F : Type} (L : FloatOps F) (D : Nat) (f : Nat) (kvs : List (KV F))
    (m : List (Tok F × RawVal F)) (hd : ∀ e ∈ kvs, e.2.depth ≤ D)
    (h : kvsToMap L f kvs = some (.ok m)) (g : Nat) (hg : D < g) :
    ∀ e ∈ m, ∃ r, makeKeyStringOrCvtSlice L g e.2 = some r := by
  induction D generalizing f kvs m g with
  | zero =>
    cases f with
    | zero => cases h
    | succ f =>
      simp only [kvsToMap] at h
      cases hi : kvsInsertAll L kvs [] with
      | none => rw [hi] at h; cases h
      | some sl =>
        rw [hi] at h
        have hinv := kvsInsertAll_below L 0 kvs [] sl (fun _ he => nomatch he) hd hi
        intro e he
        obtain ⟨g1, rfl⟩ : ∃ g1, g = g1 + 1 := ⟨g - 1, by omega⟩
        rcases kvsResolve_mem _ sl m h e he with ⟨t, ht⟩ | ⟨l, mm, h1, _, _⟩
        · rw [ht]; exact ⟨_, rfl⟩
        · obtain ⟨hne, hlt⟩ := hinv _ h1 l rfl
          obtain ⟨x, hx⟩ := List.exists_mem_of_ne_nil l hne
          exact absurd (hlt x hx) (Nat.not_lt_zero _)
  | succ D ih =>
    cases f with
    | zero => cases h
    | succ f =>
      simp only [kvsToMap] at h
      cases hi : kvsInsertAll L kvs [] with
      | none => rw [hi] at h; cases h
      | some sl =>
        rw [hi] at h
        have hinv := kvsInsertAll_below L (D + 1) kvs [] sl (fun _ he => nomatch he) hd hi
        intro e he
        obtain ⟨g1, rfl⟩ : ∃ g1, g = g1 + 1 := ⟨g - 1, by omega⟩
        rcases kvsResolve_mem _ sl m h e he with ⟨t, ht⟩ | ⟨l, mm, h1, h2, h3⟩
        · rw [ht]; exact ⟨_, rfl⟩
        · obtain ⟨hne, hlt⟩ := hinv _ h1 l rfl
          rw [h3]
          exact norm_total_map L g1 mm (by omega)
            (ih f l mm (fun x hx => by have := hlt x hx; omega) h2 g1 (by omega))

/-- More fuel does not change what the second loop of `kvsToMap` returns. -/
theorem kvsResolve_congr {F : Type}
    (rec1 rec2 : List (KV F) → Option (Result (List (Tok F × RawVal F))))
    (h : ∀ l r, rec1 l = some r → rec2 l = some r) (m : List (Tok F × Slot F))
    (r : Result (List (Tok F × RawVal F))) (hr : kvsResolve rec1 m = some r) :
    kvsResolve rec2 m = some r := by
  induction m generalizing r with
  | nil => exact hr
  | cons x xs ih =>
    obtain ⟨k, sl⟩ := x
    cases sl with
    | value t =>
      simp only [kvsResolve] at hr ⊢
      cases h1 : kvsResolve rec1 xs with
      | none => rw [h1] at hr; cases hr
      | some r0 =>
        rw [h1] at hr
        rw [ih r0 h1]
        exact hr
    | kvs l =>
      simp only [kvsResolve] at hr ⊢
      cases h2 : rec1 l with
      | none => rw [h2] at hr; cases hr
      | some r1 =>
        rw [h2] at hr
        rw [h _ _ h2]
        cases r1 with
        | error e => exact hr
        | panic msg => exact hr
        | ok mm =>
          simp only at hr ⊢
          cases h1 : kvsResolve rec1 xs with
          | none => rw [h1] at hr; cases hr
          | some r0 =>
            rw [h1] at hr
            rw [ih r0 h1]
            exact hr

/-- More fuel does not change what `kvsToMap` returns. -/
theorem kvsToMap_mono {F : Type} (L : FloatOps F) (f f2 : Nat) (hf : f ≤ f2)
    (kvs : List (KV F)) (r : Result (List (Tok F × RawVal F)))
    (h : kvsToMap L f kvs = some r) : kvsToMap L f2 kvs = some r := by
  induction f generalizing f2 kvs r with
  | zero => cases h
  | succ f ih =>
    obtain ⟨f3, rfl⟩ : ∃ f3, f2 = f3 + 1 := ⟨f2 - 1, by omega⟩
    simp only [kvsToMap] at h ⊢
    cases hi : kvsInsertAll L kvs [] with
    | none => rw [hi] at h; exact h
    | some sl =>
      rw [hi] at h
      exact kvsResolve_congr _ _ (fun l r => ih f3 (by omega) l r) sl r h

/-- More fuel does not change what the loop over the entries returns. -/
theorem normEntries_congr {F : Type}
    (rec1 rec2 : RawVal F → Option (Except DecodeError (Tree F)))
    (sm : List (Str × RawVal F)) (h : ∀ e ∈ sm, ∀ r, rec1 e.2 = some r → rec2 e.2 = some r)
    (r : Except DecodeError (List (Str × Tree F))) (hr : normEntries rec1 sm = some r) :
    normEntries rec2 sm = some r := by
  induction sm generalizing r with
  | nil => exact hr
  | cons x xs ih =>
    obtain ⟨k, v⟩ := x
    simp only [normEntries] at hr ⊢
    cases h2 : rec1 v with
    | none => rw [h2] at hr; cases hr
    | some r1 =>
      rw [h2] at hr
      rw [h (k, v) (List.mem_cons_self _ _) _ h2]
      cases r1 with
      | error e => exact hr
      | ok nv =>
        simp only at hr ⊢
        cases h1 : normEntries rec1 xs with
        | none => rw [h1] at hr; cases hr
        | some r0 =>
          rw [h1] at hr
          rw [ih (fun e he => h e (List.mem_cons_of_mem _ he)) r0 h1]
          exact hr

/-- More fuel does not change what the loop over the items returns. -/
theorem normItems_congr {F : Type}
    (rec1 rec2 : RawVal F → Option (Except DecodeError (Tree F)))
    (sl : List (RawVal F)) (h : ∀ v ∈ sl, ∀ r, rec1 v = some r → rec2 v = some r)
    (r : Except DecodeError (List (Tree F))) (hr : normItems rec1 sl = some r) :
    normItems rec2 sl = some r := by
  induction sl generalizing r with
  | nil => exact hr
  | cons v xs ih =>
    simp only [normItems] at hr ⊢
    cases h2 : rec1 v with
    | none => rw [h2] at hr; cases hr
    | some r1 =>
      rw [h2] at hr
      rw [h v (List.mem_cons_self _ _) _ h2]
      cases r1 with
      | error e => exact hr
      | ok nv =>
        simp only at hr ⊢
        cases h1 : normItems rec1 xs with
        | none => rw [h1] at hr; cases hr
        | some r0 =>
          rw [h1] at hr
          rw [ih (fun e he => h e (List.mem_cons_of_mem _ he)) r0 h1]
          exact hr

/-- More fuel does not change what `makeKeyStringOrCvtSlice` returns. -/
theorem norm_mono {F : Type} (L : FloatOps F) (f f2 : Nat) (hf : f ≤ f2) (v : RawVal F)
    (r : Except DecodeError (Tree F)) (h : makeKeyStringOrCvtSlice L f v = some r) :
    makeKeyStringOrCvtSlice L f2 v = some r := by
  induction f generalizing f2 v r with
  | zero => cases h
  | succ f ih =>
    obtain ⟨f3, rfl⟩ : ∃ f3, f2 = f3 + 1 := ⟨f2 - 1, by omega⟩
    cases v with
    | tok t => exact h
    | map m =>
      simp only [makeKeyStringOrCvtSlice] at h ⊢
      cases hs : tryMakeKeyString m [] with
      | some sm =>
        rw [hs] at h
        simp only at h ⊢
        cases h1 : normEntries (makeKeyStringOrCvtSlice L f) sm with
        | none => rw [h1] at h; cases h
        | some r0 =>
          rw [h1] at h
          rw [normEntries_congr _ _ sm (fun e _ r => ih f3 (by omega) e.2 r) r0 h1]
          exact h
      | none =>
        rw [hs] at h
        simp only at h ⊢
        cases hc : tryCvtSlice L m with
        | none => rw [hc] at h; exact h
        | some sl =>
          rw [hc] at h
          simp only at h ⊢
          cases h1 : normItems (makeKeyStringOrCvtSlice L f) sl with
          | none => rw [h1] at h; cases h
          | some r0 =>
            rw [h1] at h
            rw [normItems_congr _ _ sl (fun v _ r => ih f3 (by omega) v r) r0 h1]
            exact h

/-- The chain of a line has as many keys as the line. -/
theorem Line.path_depth {F : Type} (l : Line F) : l.path.depth = l.keys.length := by
  unfold Line.path
  induction l.keys with
  | nil => rfl
  | cons k ks ih => simp [Path.depth, ih]

/-- `decode` is `decodePaths` on the paths that `decodeLines` returns, with the
decoder that `decodeLines` leaves. -/
theorem decode_eq_paths {F : Type} (L : FloatOps F) (f : Nat) (n : Int) (d d1 : Decoder)
    (paths : List (Path F)) (h : decodeLines L f n d = some (.ok (paths, d1))) :
    decode L f n d = (decodePaths L f paths).map (fun r => outcome r d1) := by
  simp only [decode, decodeToMapOrV, h, decodePaths]
  cases collectKvs paths.length paths [] with
  | error e => rfl
  | ok x =>
    cases x with
    | inl t =>
      simp only
      cases makeKeyStringOrCvtSlice L f (.tok t) with
      | none => rfl
      | some r => cases r <;> rfl
    | inr kvs =>
      simp only
      cases kvsToMap L f kvs with
      | none => rfl
      | some r =>
        cases r with
        | error e => rfl
        | panic msg => rfl
        | ok m =>
          simp only
          cases makeKeyStringOrCvtSlice L f (.map m) with
          | none => rfl
          | some r => cases r <;> rfl

/-- The `[]kv` collected by the second loop of `decodeToMapOrV` are those it
started with and the paths. -/
theorem collectKvs_mem {F : Type} (len : Nat) (paths : List (Path F)) (acc kvs : List (KV F))
    (h : collectKvs len paths acc = .ok (.inr kvs)) :
    ∀ e ∈ kvs, e ∈ acc ∨ Path.kv e.1 e.2 ∈ paths := by
  induction paths generalizing acc with
  | nil =>
    simp only [collectKvs, Except.ok.injEq, Sum.inr.injEq] at h
    subst h
    intro e he; left; exact he
  | cons p ps ih =>
    cases p with
    | leaf t =>
      simp only [collectKvs] at h
      split_ifs at h
      cases h
    | kv k v =>
      simp only [collectKvs] at h
      intro e he
      rcases ih _ h e he with h1 | h1
      · rcases List.mem_append.1 h1 with h2 | h2
        · left; exact h2
        · right
          rw [List.mem_singleton] at h2
          rw [h2]; exact List.mem_cons_self _ _
      · right; exact List.mem_cons_of_mem _ h1

/-- `decodePaths` returns (a tree, an error or a panic) when the fuel exceeds
the number of keys of every path. -/
theorem decodePaths_total {F : Type} (L : FloatOps F) (f : Nat) (paths : List (Path F))
    (hf : 2 ≤ f) (hd : ∀ p ∈ paths, p.depth < f) : ∃ r, decodePaths L f paths = some r := by
  obtain ⟨g, rfl⟩ : ∃ g, f = g + 1 := ⟨f - 1, by omega⟩
  simp only [decodePaths]
  cases hck : collectKvs paths.length paths [] with
  | error e => exact ⟨_, rfl⟩
  | ok x =>
    cases x with
    | inl t => exact ⟨_, rfl⟩
    | inr kvs =>
      have hdep : ∀ e ∈ kvs, e.2.depth < g := by
        intro e he
        rcases collectKvs_mem _ _ _ _ hck e he with h1 | h1
        · cases h1
        · have := hd _ h1
          simp only [Path.depth] at this
          omega
      obtain ⟨r, hr⟩ := kvsToMap_total L (g + 1) kvs (by omega)
        (fun e he => by have := hdep e he; omega)
      simp only [hr]
      cases r with
      | error e => exact ⟨_, rfl⟩
      | panic msg => exact ⟨_, rfl⟩
      | ok m =>
        obtain ⟨r2, hr2⟩ := norm_total_map L g m (by omega)
          (kvsToMap_norm_total L (g - 1) (g + 1) kvs m
            (fun e he => by have := hdep e he; omega) hr g (by omega))
        simp only [hr2]
        cases r2 with
        | error e => exact ⟨_, rfl⟩
        | ok v => exact ⟨_, rfl⟩

/-- More fuel does not change what `decodePaths` returns. -/
theorem decodePaths_mono {F : Type} (L : FloatOps F) (f f2 : Nat) (hf : f ≤ f2)
    (paths : List (Path F)) (r : Result (Tree F)) (h : decodePaths L f paths = some r) :
    decodePaths L f2 paths = some r := by
  simp only [decodePaths] at h ⊢
  cases hck : collectKvs paths.length paths [] with
  | error e => rw [hck] at h; exact h
  | ok x =>
    rw [hck] at h
    cases x with
    | inl t =>
      simp only at h ⊢
      cases h1 : makeKeyStringOrCvtSlice L f (.tok t) with
      | none => rw [h1] at h; cases h
      | some r1 =>
        rw [h1] at h
        rw [norm_mono L f f2 hf _ _ h1]
        exact h
    | inr kvs =>
      simp only at h ⊢
      cases h1 : kvsToMap L f kvs with
      | none => rw [h1] at h; cases h
      | some r1 =>
        rw [h1] at h
        rw [kvsToMap_mono L f f2 hf _ _ h1]
        cases r1 with
        | error e => exact h
        | panic msg => exact h
        | ok m =>
          simp only at h ⊢
          cases h2 : makeKeyStringOrCvtSlice L f (.map m) with
          | none => rw [h2] at h; cases h
          | some r2 =>
            rw [h2] at h
            rw [norm_mono L f f2 hf _ _ h2]
            exact h

/-- Decoding a rendered document with a bound of `n` lines, or without a bound:
the outcome is `decodePaths` on the paths of the lines read. -/
theorem decode_lines_paths {F : Type} (L : FloatOps F) (lines : List (Line F))
    (hc : ∀ l ∈ lines, l.canon L) (n : Nat) (hn : n ≤ lines.length) (r : Result (Tree F))
    (hr : decodePaths L ((docText L lines).length + 2) ((lines.take n).map Line.path) = some r)
    (extra : Nat) (hm : Bool) :
    decode L ((docText L lines).length + 2 + extra) (n : Int) ⟨docText L lines, hm⟩
        = some (outcome r ⟨docText L (lines.drop n),
            (lines.take n).isEmpty && hm || !(lines.take n).isEmpty⟩) := by
  have hlen := docText_length L lines
  have h := decodeLines_take L lines hc (maxKeys lines) (fun l hl => le_maxKeys lines l hl)
    n hn ((docText L lines).length + 2 + extra) (by omega) hm
  rw [decode_eq_paths L _ _ _ _ _ h,
    decodePaths_mono L _ ((docText L lines).length + 2 + extra) (by omega) _ _ hr]
  rfl

/-- Decoding without a bound the text of some of the lines of a document, with
fuel for the whole document. -/
theorem decode_part_paths {F : Type} (L : FloatOps F) (lines part : List (Line F))
    (hc : ∀ l ∈ part, l.canon L) (hlen : (docText L part).length ≤ (docText L lines).length)
    (r : Result (Tree F))
    (hr : decodePaths L ((docText L lines).length + 2) (part.map Line.path) = some r)
    (extra : Nat) (hm : Bool) :
    decode L ((docText L lines).length + 2 + extra) (-1) ⟨docText L part, hm⟩
        = some (outcome r ⟨[], part.isEmpty && hm || !part.isEmpty⟩) := by
  have hl := docText_length L part
  have h := decodeLines_doc L part hc (maxKeys part) (fun l hl => le_maxKeys part l hl)
    (-1) (Or.inl (by decide)) ((docText L lines).length + 2 + extra) (by omega) hm
  rw [decode_eq_paths L _ _ _ _ _ h,
    decodePaths_mono L _ ((docText L lines).length + 2 + extra) (by omega) _ _ hr]
  rfl

/-- The flag `hasMore` after the first loop of `decodeToMapOrV` has read the
first `n` lines: the flag before when no line was read, and true otherwise. -/
theorem flag_take {F : Type} (lines : List (Line F)) (n : Nat) (hn : n ≤ lines.length)
    (hm : Bool) :
    ((lines.take n).isEmpty && hm || !(lines.take n).isEmpty) = if n = 0 then hm else true := by
  cases n with
  | zero => simp
  | succ k =>
    cases lines with
    | nil => simp at hn
    | cons l ls => simp

/-- The flag `hasMore` after the first loop of `decodeToMapOrV` has read the
lines after the first `n`. -/
theorem flag_drop {F : Type} (lines : List (Line F)) (n : Nat) (hn : n ≤ lines.length)
    (hm : Bool) :
    ((lines.drop n).isEmpty && hm || !(lines.drop n).isEmpty)
      = if n = lines.length then hm else true := by
  by_cases h : n = lines.length
  · subst h
    simp
  · have hne : lines.drop n ≠ [] := by
      intro h0
      have := List.drop_eq_nil_iff.1 h0
      omega
    cases hd : lines.drop n with
    | nil => exact absurd hd hne
    | cons x xs => simp [h]

/-- The key paths of the chains under a key are the rests of the key paths that
go on after the key. -/
theorem subPaths_kvs {F : Type} (L : FloatOps F) (k : Tok F) (kvs : List (KV F)) :
    (subKvs L k kvs).map kvKeys = subPaths L k (kvs.map kvKeys) := by
  induction kvs with
  | nil => rfl
  | cons e rest ih =>
    obtain ⟨k1, p⟩ := e
    have hsplit : (k1, p) :: rest = [(k1, p)] ++ rest := rfl
    have hc : subPaths L k (((k1, p) :: rest).map kvKeys)
        = subPaths L k ([(k1, p)].map kvKeys) ++ subPaths L k (rest.map kvKeys) := by
      unfold subPaths
      rw [List.map_cons, ← List.singleton_append, List.filterMap_append]
      rfl
    rw [hc, ← ih, hsplit, subKvs_append, List.map_append]
    congr 1
    cases p with
    | leaf t =>
      by_cases h : Tok.keyEq L k1 k = true <;>
        simp [subKvs, entriesOf, subPaths, kvKeys, Path.keys, Path.asKV, h]
    | kv k2 v =>
      by_cases h : Tok.keyEq L k1 k = true <;>
        simp [subKvs, entriesOf, subPaths, kvKeys, Path.keys, Path.asKV, h]

/-- The first keys of the key paths are the keys of the `kv`s. -/
theorem heads_kvs {F : Type} (kvs : List (KV F)) :
    (kvs.map kvKeys).filterMap List.head? = kvs.map Prod.fst := by
  induction kvs with
  | nil => rfl
  | cons e rest ih => simp [kvKeys, ih]

/-- A level with a string key and an index key below a key is one below the
longer prefix. -/
theorem mixedAt_sub {F : Type} (L : FloatOps F) (k : Tok F) (kvs : List (KV F))
    (hP : keysPlain kvs) (p : List (Tok F)) (h : mixedAt p (subKvs L k kvs)) :
    mixedAt (k :: p) kvs := by
  obtain ⟨⟨a1, a2⟩, ha, ⟨b1, b2⟩, hb, s, i, ra, rb, hka, hkb⟩ := h
  have ha2 := (mem_subKvs L k kvs (keysPlain_head kvs hP) a1 a2).1 ha
  have hb2 := (mem_subKvs L k kvs (keysPlain_head kvs hP) b1 b2).1 hb
  refine ⟨_, ha2, _, hb2, s, i, ra, rb, ?_, ?_⟩
  · show k :: kvKeys (a1, a2) = _
    rw [hka]; rfl
  · show k :: kvKeys (b1, b2) = _
    rw [hkb]; rfl

/-- When no level has a string key and an index key, the keys of the `kv`s are
all strings or all indices. -/
theorem level_uniform {F : Type} (kvs : List (KV F)) (hP : keysPlain kvs)
    (hu : ¬ mixedAt [] kvs) :
    (∀ e ∈ kvs, ∃ s, e.1 = Tok.str s) ∨ (∀ e ∈ kvs, ∃ i, e.1 = Tok.int i) := by
  by_cases h : ∀ e ∈ kvs, ∃ s, e.1 = Tok.str s
  · exact Or.inl h
  · right
    push_neg at h
    obtain ⟨e0, he0, hns⟩ := h
    obtain ⟨i0, hi0⟩ : ∃ i, e0.1 = Tok.int i := by
      rcases isKey_cases e0.1 (keysPlain_head kvs hP e0 he0) with ⟨s, hs⟩ | hi
      · exact absurd hs (hns s)
      · exact hi
    intro e he
    rcases isKey_cases e.1 (keysPlain_head kvs hP e he) with ⟨s, hs⟩ | hi
    · exfalso
      apply hu
      refine ⟨e, he, e0, he0, s, i0, e.2.keys, e0.2.keys, ?_, ?_⟩
      · simp [kvKeys, hs]
      · simp [kvKeys, hi0]
    · exact hi

/-- The indices of a list of index keys. -/
theorem filterMap_int_keys {F : Type} (l : List (Tok F)) (h : ∀ k ∈ l, ∃ i, k = Tok.int i) :
    l.filterMap (fun k => match k with
      | .int i => some i
      | _ => none) = l.map Tok.intOf := by
  induction l with
  | nil => rfl
  | cons k ks ih =>
    obtain ⟨i, rfl⟩ := h k (List.mem_cons_self _ _)
    rw [List.filterMap_cons, List.map_cons, ih (fun x hx => h x (List.mem_cons_of_mem _ hx))]
    rfl

/-- The item of a mapped list at the position of an element of the list. -/
theorem getElem?_map_indexOf {α : Type} (S : List Int) (f : Int → α) (i : Int) (hi : i ∈ S) :
    (S.map f)[S.indexOf i]? = some (f i) := by
  rw [List.getElem?_map, List.getElem?_indexOf hi]
  rfl

/-- On the grouped map of lines whose keys are strings or indices, none of
which has a key path that is a proper prefix of another, and no level of which
has a string key and an index key, `makeKeyStringOrCvtSlice` returns a tree in
which the keys of every line that is the last with its key path lead to the
leaf of that line. -/
theorem norm_build_follow {F : Type} (L : FloatOps F) (g : Nat) (kvs : List (KV F))
    (hg : 0 < g) (hd : ∀ e ∈ kvs, e.2.depth < g) (hP : keysPlain kvs) (hnc : noClash kvs)
    (hu : ∀ p, ¬ mixedAt p kvs) :
    ∃ T, makeKeyStringOrCvtSlice L (g + 1) (.map (build L g kvs)) = some (.ok T) ∧
      (∀ pre e post, kvs = pre ++ e :: post → (∀ b ∈ post, kvKeys b ≠ kvKeys e) →
        Tree.follow L (kvs.map kvKeys) (kvKeys e) T = some (.leaf e.2.leafTok)) := by
  induction g generalizing kvs with
  | zero => omega
  | succ g ih =>
    obtain ⟨hkeys, hnd, hkP, hmemk⟩ := build_keys L g kvs hP
    have hentry := build_entry L g kvs hP hnc
    have hsub : ∀ k, subKvs L k kvs ≠ [] →
        ∃ T, makeKeyStringOrCvtSlice L (g + 1) (.map (build L g (subKvs L k kvs)))
            = some (.ok T) ∧
          (∀ pre e post, subKvs L k kvs = pre ++ e :: post →
            (∀ b ∈ post, kvKeys b ≠ kvKeys e) →
            Tree.follow L ((subKvs L k kvs).map kvKeys) (kvKeys e) T
              = some (.leaf e.2.leafTok)) :=
      fun k hne => ih _ (subKvs_pos L k kvs hP g hd hne) (subKvs_depth L k kvs hP g hd)
        (subKvs_keysPlain L k kvs hP) (subKvs_noClash L k kvs hP hnc)
        (fun p h => hu (k :: p) (mixedAt_sub L k kvs hP p h))
    have hrec : ∀ e ∈ build L (g + 1) kvs,
        makeKeyStringOrCvtSlice L (g + 1) e.2 = some (.ok (normOr L (g + 1) e.2)) := by
      intro e he
      rcases hentry e he with ⟨t, ht, _⟩ | ⟨hm, hne⟩
      · rw [ht]; rfl
      · obtain ⟨T1, hT1, _⟩ := hsub e.1 hne
        rw [hm, normOr_of_eq L _ _ _ hT1, hT1]
    -- below the first key of a line that is the last with its key path
    have htail : ∀ pre k p post, kvs = pre ++ (k, p) :: post →
        (∀ b ∈ post, kvKeys b ≠ kvKeys (k, p)) →
        Tree.follow L (subPaths L k (kvs.map kvKeys)) p.keys
            (normOr L (g + 1) (resolveSlot (build L g) (slotFor L k kvs)))
          = some (.leaf p.leafTok) := by
      intro pre k p post hkvs hlast
      have he : ((k, p) : KV F) ∈ kvs := by rw [hkvs]; simp
      have hem := build_has L g kvs hP k (List.mem_map.2 ⟨_, he, rfl⟩)
      cases p with
      | leaf t =>
        have hslot : slotFor L k kvs = .value t := by
          rw [hkvs]
          exact slotFor_last L k t pre post (hkvs ▸ hP) (hkvs ▸ hnc) hlast
        rw [hslot]
        rfl
      | kv k1 v1 =>
        rcases hentry _ hem with ⟨t, _, hmem⟩ | ⟨hm, hne⟩
        · exfalso
          have := hnc _ hmem _ he (by simp [kvKeys, Path.keys])
          simp [kvKeys, Path.keys] at this
        · simp only at hm hne
          obtain ⟨T1, hT1, ha1⟩ := hsub k hne
          have hk : k.isKey = true := keysPlain_head kvs hP _ he
          have hsplit : subKvs L k kvs
              = subKvs L k pre ++ (k1, v1) :: subKvs L k post := by
            have : pre ++ (k, Path.kv k1 v1) :: post
                = pre ++ ([(k, Path.kv k1 v1)] ++ post) := by simp
            rw [hkvs, this, subKvs_append, subKvs_append]
            simp [subKvs, entriesOf_single_eq L k _ hk, Path.asKV]
          have hpostP : ∀ e ∈ post, e.1.isKey = true :=
            fun e hep => keysPlain_head kvs hP e (by rw [hkvs]; simp [hep])
          have := ha1 _ _ _ hsplit (by
            rintro ⟨k2, v2⟩ hb heq
            have hb2 := (mem_subKvs L k post hpostP k2 v2).1 hb
            apply hlast _ hb2
            simp only [kvKeys, Path.keys] at heq ⊢
            rw [heq])
          rw [subPaths_kvs] at this
          rw [hm, normOr_of_eq L _ _ _ hT1]
          exact this
    rcases level_uniform kvs hP (hu []) with hS | hI
    · -- a level of string keys
      have hstrm : ∀ e ∈ build L (g + 1) kvs, ∃ s, e.1 = Tok.str s := by
        intro e he
        have := (hmemk e.1).1 (List.mem_map_of_mem _ he)
        obtain ⟨e0, he0, h0⟩ := List.mem_map.1 this
        rw [← h0]
        exact hS e0 he0
      have hnorm := norm_str_level L (g + 1) _ hstrm hnd (normOr L (g + 1)) hrec
      have hTnd : ((build L (g + 1) kvs).map
          (fun e => (e.1.strOf, normOr L (g + 1) e.2))).map Prod.fst |>.Nodup := by
        rw [List.map_map]
        have : (Prod.fst ∘ fun e : Tok F × RawVal F => (e.1.strOf, normOr L (g + 1) e.2))
            = Tok.strOf ∘ Prod.fst := rfl
        rw [this, ← List.map_map]
        apply List.Nodup.map_on _ hnd
        intro x hx y hy hxy
        obtain ⟨ex, hex, rfl⟩ := List.mem_map.1 hx
        obtain ⟨ey, hey, rfl⟩ := List.mem_map.1 hy
        obtain ⟨sx, hsx⟩ := hstrm ex hex
        obtain ⟨sy, hsy⟩ := hstrm ey hey
        rw [hsx, hsy] at hxy ⊢
        simp only [Tok.strOf] at hxy
        rw [hxy]
      have hlook : ∀ e ∈ build L (g + 1) kvs,
          mapGet (fun a b => a == b)
            ((build L (g + 1) kvs).map (fun e => (e.1.strOf, normOr L (g + 1) e.2))) e.1.strOf
            = some (normOr L (g + 1) e.2) := by
        intro e he
        exact mapGet_of_mem (fun a b : Str => a == b) (fun _ => True) (fun a b _ => by simp) _
          (fun _ _ => trivial) hTnd (e.1.strOf, normOr L (g + 1) e.2)
          (List.mem_map.2 ⟨e, he, rfl⟩)
      refine ⟨_, hnorm, ?_⟩
      rintro pre ⟨k, p⟩ post hkvs hlast
      have he : ((k, p) : KV F) ∈ kvs := by rw [hkvs]; simp
      have hem := build_has L g kvs hP k (List.mem_map.2 ⟨_, he, rfl⟩)
      have hl := hlook _ hem
      obtain ⟨s, hs⟩ := hS _ he
      simp only at hs
      subst hs
      have ht := htail pre (.str s) p post hkvs hlast
      have hl2 : mapGet (fun a b => a == b)
          ((build L (g + 1) kvs).map (fun e => (e.1.strOf, normOr L (g + 1) e.2))) s
          = some (normOr L (g + 1) (resolveSlot (build L g) (slotFor L (.str s) kvs))) := hl
      show Tree.follow L (kvs.map kvKeys) (Tok.str s :: p.keys) _ = _
      simp only [Tree.follow, hl2, Option.bind_some]
      exact ht
    · -- a level of index keys
      by_cases hemp : kvs = []
      · subst hemp
        refine ⟨.mapping [], ?_, ?_⟩
        · simp [build, firstKeys, makeKeyStringOrCvtSlice, tryMakeKeyString, normEntries]
        · intro pre e post h
          exact absurd h (by simp)
      have hintm : ∀ e ∈ build L (g + 1) kvs, ∃ i, e.1 = Tok.int i := by
        intro e he
        have := (hmemk e.1).1 (List.mem_map_of_mem _ he)
        obtain ⟨e0, he0, h0⟩ := List.mem_map.1 this
        rw [← h0]
        exact hI e0 he0
      have hbne : build L (g + 1) kvs ≠ [] := by
        obtain ⟨e0, he0⟩ := List.exists_mem_of_ne_nil kvs hemp
        have := build_has L g kvs hP e0.1 (List.mem_map_of_mem _ he0)
        exact List.ne_nil_of_mem this
      have hnorm := norm_int_level L (g + 1) _ hintm hbne (normOr L (g + 1)) hrec rfl
      have hlev : ((build L (g + 1) kvs).map (fun e => e.1.intOf)).insertionSort
          (fun a b => a ≤ b) = levelInts L (kvs.map kvKeys) := by
        rw [levelInts, heads_kvs, ← hkeys, filterMap_int_keys, List.map_map]
        · rfl
        · intro k hk
          obtain ⟨e, he, rfl⟩ := List.mem_map.1 hk
          exact hintm e he
      refine ⟨_, hnorm, ?_⟩
      rintro pre ⟨k, p⟩ post hkvs hlast
      have he : ((k, p) : KV F) ∈ kvs := by rw [hkvs]; simp
      have hem := build_has L g kvs hP k (List.mem_map.2 ⟨_, he, rfl⟩)
      obtain ⟨i, hi⟩ := hI _ he
      simp only at hi
      subst hi
      have ht := htail pre (.int i) p post hkvs hlast
      have hget : mapGet (Tok.keyEq L) (build L (g + 1) kvs) (.int i)
          = some (resolveSlot (build L g) (slotFor L (.int i) kvs)) :=
        mapGet_of_mem (Tok.keyEq L) (fun a => a.isKey = true) (fun a b ha => keyEq_iff L a b ha)
          _ hkP hnd _ hem
      have hmem : i ∈ ((build L (g + 1) kvs).map (fun e => e.1.intOf)).insertionSort
          (fun a b => a ≤ b) := by
        rw [List.mem_insertionSort]
        exact List.mem_map.2 ⟨_, hem, rfl⟩
      show Tree.follow L (kvs.map kvKeys) (Tok.int i :: p.keys) _ = _
      simp only [Tree.follow, ← hlev, getElem?_map_indexOf _ _ i hmem, hget, Option.getD_some,
        Option.bind_some]
      exact ht

/-! ## The claims -/

/-- When the scanner delivers the runes of `escape s` followed by a newline,
decoding returns the scalar string `s`; `Token` reads `escape s` as the one
string token `s` and stops in front of the newline; and the text of a non-empty
`s` starts neither a bracket nor an index marker. -/
theorem escape_read_back {F : Type} (L : FloatOps F) (s : Str) (extra : Nat) (hm : Bool) :
    decode L (3 + extra) (-1) ⟨escape s ++ ['\n'], hm⟩
        = some (.ok (.leaf (.str s), ⟨[], true⟩)) ∧
      Token L ⟨escape s ++ ['\n'], hm⟩ = .ok (.str s, ⟨['\n'], false⟩) ∧
      (s ≠ [] → Peek (escape s) ≠ some '<' ∧ Peek (escape s) ≠ some '#') := by
  refine ⟨?_, ?_, ?_⟩
  · have h := decodeLines_doc L [⟨[], .str s⟩] (by simp [Line.canon, Tok.canon]) 0
      (by simp) (-1) (Or.inl (by decide)) (3 + extra) (by simp) hm
    have hd : docText L [⟨[], .str s⟩] = escape s ++ ['\n'] := by
      simp [docText, Line.text, Tok.render]
    rw [hd] at h
    have h3 : 3 + extra = (2 + extra) + 1 := by omega
    simp only [decode, decodeToMapOrV, h, List.map_cons, List.map_nil, Line.path,
      List.foldr_nil, List.length_singleton, collectKvs]
    simp [h3, makeKeyStringOrCvtSlice]
  · exact Token_render L (.str s) trivial ['\n'] (Or.inr (Or.inr rfl)) hm
  · intro hs
    have := Peek_escape s [] hs
    simp only [List.append_nil] at this
    exact ⟨this.1, this.2.1⟩

/-- C6. Below a key, a leaf line followed by a nested line under the same key
makes `decode` panic with "not kvs", and in the other order `decode` succeeds
and keeps only the leaf line; at the root both orders are rejected with
"invalid map". -/
theorem leaf_and_nested_lines {F : Type} (L : FloatOps F) :
    decode L 9 (-1) ⟨"a b\na c d\n".toList, false⟩ = some (.panic "not kvs") ∧
      decode L 9 (-1) ⟨"a c d\na b\n".toList, false⟩
        = some (.ok (.mapping [("a".toList, .leaf (.str "b".toList))], ⟨[], true⟩)) ∧
      decode L 9 (-1) ⟨"x\na b\n".toList, false⟩ = some (.error .invalidMap) ∧
      decode L 9 (-1) ⟨"a b\nx\n".toList, false⟩ = some (.error .invalidMap) :=
  ⟨rfl, rfl, rfl, rfl⟩

/-- C8. For the mapping with the one entry `"a b"` to `"v"`, the flattener
yields the key token `escape (escape "a b")`, the line written is `a\\\ b v`,
and decoding it gives the key `a\ b`, not `a b`. -/
theorem map_key_escaped_twice {F : Type} (L : FloatOps F) :
    toRows L (.map [(.string "a b".toList, .string "v".toList)])
        = .ok [[escape (escape "a b".toList), "v".toList]] ∧
      escape (escape "a b".toList) = "a\\\\\\ b".toList ∧
      escape "a b".toList = "a\\ b".toList ∧
      Encode L NewEncoder (.map [(.string "a b".toList, .string "v".toList)])
        = (⟨"a\\\\\\ b v\n".toList, false⟩, none) ∧
      decode L 9 (-1) ⟨"a\\\\\\ b v\n".toList, false⟩
        = some (.ok (.mapping [("a\\ b".toList, .leaf (.str "v".toList))], ⟨[], true⟩)) :=
  ⟨rfl, rfl, rfl, rfl, rfl⟩

/-- C9. Encoding a nil pointer fails with "unsupported type" and writes nothing,
as the whole document, as a sequence element, as a mapping value and as a
record field; only as a mapping key is a nil pointer written as `<null>`. -/
theorem nil_pointer_unsupported {F : Type} (L : FloatOps F) :
    Encode L NewEncoder (.ptr none) = (NewEncoder, some .unsupportedType) ∧
      Encode L NewEncoder (.slice [.ptr none]) = (NewEncoder, some .unsupportedType) ∧
      Encode L NewEncoder (.map [(.string "k".toList, .ptr none)])
        = (NewEncoder, some .unsupportedType) ∧
      Encode L NewEncoder (.struct [("K".toList, .ptr none)])
        = (NewEncoder, some .unsupportedType) ∧
      notatePrim L (.ptr none) = some "<null>".toList :=
  ⟨rfl, rfl, rfl, rfl, rfl⟩

/-- C10. `Encode` of a nil map returns no error and writes nothing at all, and
`Encode` of the nil interface value returns the error "unsupported type" and
writes nothing; neither writes `null`. -/
theorem nil_values_not_null {F : Type} (L : FloatOps F) :
    Encode L NewEncoder (.map []) = (⟨[], false⟩, none) ∧
      Encode L NewEncoder .invalid = (⟨[], false⟩, some .unsupportedType) :=
  ⟨rfl, rfl⟩

/-- C7, as stated, fails: for a `map[*string]interface{}` whose two keys point
to the string `a`, one with the value `"x"` and one with the value
`map[string]string{"x": "y"}`, flattening gives the rows `a x` and `a x y`, and
`Encode` writes `a x` twice: the token `y` is dropped. -/
theorem aligner_drops_token :
    toRows digitFloats
        (.map [(.ptr (some (.string "a".toList)), .iface (some (.string "x".toList))),
          (.ptr (some (.string "a".toList)),
            .iface (some (.map [(.string "x".toList, .string "y".toList)])))])
        = .ok [["a".toList, "x".toList], ["a".toList, "x".toList, "y".toList]] ∧
      Encode digitFloats NewEncoder
        (.map [(.ptr (some (.string "a".toList)), .iface (some (.string "x".toList))),
          (.ptr (some (.string "a".toList)),
            .iface (some (.map [(.string "x".toList, .string "y".toList)])))])
        = (⟨"a x\na x\n".toList, false⟩, none) ∧
      rowsText [["a".toList, "x".toList], ["a".toList, "x".toList, "y".toList]]
        = "a x\na x y\n".toList :=
  ⟨rfl, rfl, rfl⟩

/-- C7, amended. For every value `v` on which flattening succeeds with rows none
of which is a proper prefix of another, `Encode` with justify disabled appends
to the sink exactly the lines of the rows of `toRows v`, in order, each the
tokens of the row joined by single blanks and a newline, and returns no error;
and the number of rows equals the number of primitive leaves of `v`. -/
theorem encode_writes_rows {F : Type} (L : FloatOps F) (e : Encoder) (v : GoVal F)
    (rows : List (List Str)) (hrows : toRows L v = .ok rows) (hpf : prefixFree rows)
    (hj : e.hasPadding = false) :
    Encode L e v = (⟨e.w ++ rowsText rows, false⟩, none) ∧ rows.length = leafCount v := by
  refine ⟨?_, toRows_length L v rows hrows⟩
  obtain ⟨w, hp⟩ := e
  simp only at hj
  subst hj
  simp [Encode, hrows, writeRows_false, toStrWithWidthNotTable_strip rows hpf]

/-- C7, witness: `Encode` of `{k: "v w"}` writes the line `k v\ w`, and `Encode`
of the bare string `x` writes the line `x`. -/
theorem encode_writes_rows_witness :
    (Encode digitFloats NewEncoder (.map [(.string "k".toList, .string "v w".toList)])
        = (⟨[] ++ rowsText [["k".toList, "v\\ w".toList]], false⟩, none) ∧
      [["k".toList, "v\\ w".toList]].length
        = leafCount (.map [((.string "k".toList : GoVal Nat), .string "v w".toList)])) ∧
    rowsText [["k".toList, "v\\ w".toList]] = "k v\\ w\n".toList ∧
    Encode digitFloats NewEncoder (.string "x".toList) = (⟨"x\n".toList, false⟩, none) :=
  ⟨encode_writes_rows digitFloats NewEncoder
      (.map [(.string "k".toList, .string "v w".toList)]) [["k".toList, "v\\ w".toList]]
      rfl (by
        intro r1 h1 r2 h2 _
        simp only [List.mem_singleton] at h1 h2
        rw [h1, h2]) rfl,
    rfl, rfl⟩

/-- C5. For every document of lines with keys that are strings or indices, in
which no key path is a proper prefix of another, and in which two lines share a
key prefix `p` after which one has a string key and the other an index key,
`decode` returns the error "invalid map" and no tree. -/
theorem mixed_keys_rejected {F : Type} (L : FloatOps F) (lines : List (Line F))
    (hc : ∀ l ∈ lines, l.canon L)
    (hk : ∀ l ∈ lines, ∀ k ∈ l.keys, k.isKey = true)
    (hnc : ∀ a ∈ lines, ∀ b ∈ lines, a.keys <+: b.keys → a.keys = b.keys)
    (p : List (Tok F)) (a b : Line F) (ha : a ∈ lines) (hb : b ∈ lines)
    (s : Str) (i : Int) (ra rb : List (Tok F))
    (hka : a.keys = p ++ Tok.str s :: ra) (hkb : b.keys = p ++ Tok.int i :: rb)
    (extra : Nat) (hm : Bool) :
    decode L ((docText L lines).length + 2 + extra) (-1) ⟨docText L lines, hm⟩
      = some (.error .invalidMap) := by
  have hne : ∀ l ∈ lines, l.keys ≠ [] := by
    intro l hl h
    have := hnc l hl a ha (by rw [h]; exact List.nil_prefix)
    rw [h, hka] at this
    simp at this
  obtain ⟨g, _, hg0, hgd, hdec⟩ := decode_doc L lines hc hne hk hnc (-1) (Or.inl (by decide))
    extra hm
  have hmix : mixedAt p (kvsOfLines lines) :=
    ⟨a.toKV, List.mem_map_of_mem _ ha, b.toKV, List.mem_map_of_mem _ hb, s, i, ra, rb,
      by rw [(Line.kvKeys_toKV a (hne a ha)).1, hka],
      by rw [(Line.kvKeys_toKV b (hne b hb)).1, hkb]⟩
  rw [hdec, norm_build_mixed L p g _ hg0 hgd (kvsOfLines_keysPlain lines hne hk)
    (kvsOfLines_noClash lines hne hnc) hmix]

/-- C5, witness: the two sibling lines `a <1>` and `#0 <2>`. -/
theorem mixed_keys_rejected_witness :
    docText digitFloats [⟨[.str "a".toList], .float 1⟩, ⟨[.int 0], .float 2⟩]
        = "a <1>\n#0 <2>\n".toList ∧
      decode digitFloats ("a <1>\n#0 <2>\n".toList.length + 2 + 0) (-1)
        ⟨"a <1>\n#0 <2>\n".toList, false⟩ = some (.error .invalidMap) :=
  ⟨rfl, mixed_keys_rejected digitFloats [⟨[.str "a".toList], .float 1⟩, ⟨[.int 0], .float 2⟩]
    (by
      intro l hl
      simp only [List.mem_cons, List.mem_singleton, List.not_mem_nil, or_false] at hl
      rcases hl with rfl | rfl
      · exact ⟨by intro k hk; simp only [List.mem_singleton] at hk; subst hk; trivial,
          by decide, by decide, by decide⟩
      · exact ⟨by intro k hk; simp only [List.mem_singleton] at hk; subst hk
                  exact ⟨le_refl _, by norm_num⟩,
          by decide, by decide, by decide⟩)
    (by
      intro l hl k hk
      simp only [List.mem_cons, List.mem_singleton, List.not_mem_nil, or_false] at hl
      rcases hl with rfl | rfl <;> simp only [List.mem_singleton] at hk <;> subst hk <;> rfl)
    (by
      intro a ha b hb hpre
      simp only [List.mem_cons, List.mem_singleton, List.not_mem_nil, or_false] at ha hb
      rcases ha with rfl | rfl <;> rcases hb with rfl | rfl <;> simp_all)
    [] ⟨[.str "a".toList], .float 1⟩ ⟨[.int 0], .float 2⟩ (by simp) (by simp)
    "a".toList 0 [] [] rfl rfl 0 false⟩

/-- C4. For every document of one or more lines `#i v` whose indices are
pairwise different non-negative int64 values, in any order and with or without
gaps, `decode` returns the sequence of exactly the leaves of the lines, ordered
by ascending index. -/
theorem index_ordering {F : Type} (L : FloatOps F) (items : List (Int × Tok F))
    (hne : items ≠ []) (hidx : ∀ e ∈ items, 0 ≤ e.1 ∧ e.1 < 2 ^ 63)
    (hnd : (items.map Prod.fst).Nodup) (hleaf : ∀ e ∈ items, e.2.canon L)
    (extra : Nat) (hm : Bool) :
    ∃ sorted : List (Int × Tok F), sorted.Perm items ∧
      (sorted.map Prod.fst).Sorted (fun a b => a < b) ∧
      decode L ((docText L (items.map indexLine)).length + 2 + extra) (-1)
          ⟨docText L (items.map indexLine), hm⟩
        = some (.ok (.seq (sorted.map (fun e => Tree.leaf e.2)), ⟨[], true⟩)) := by
  have hc : ∀ l ∈ items.map indexLine, l.canon L := by
    intro l hl
    obtain ⟨e, he, rfl⟩ := List.mem_map.1 hl
    refine ⟨?_, hleaf e he⟩
    intro k hk
    simp only [indexLine, List.mem_singleton] at hk
    subst hk
    exact hidx e he
  have hkne : ∀ l ∈ items.map indexLine, l.keys ≠ [] := by
    intro l hl
    obtain ⟨e, _, rfl⟩ := List.mem_map.1 hl
    simp [indexLine]
  have hk : ∀ l ∈ items.map indexLine, ∀ k ∈ l.keys, k.isKey = true := by
    intro l hl k hk
    obtain ⟨e, _, rfl⟩ := List.mem_map.1 hl
    simp only [indexLine, List.mem_singleton] at hk
    subst hk
    rfl
  have hnc : ∀ a ∈ items.map indexLine, ∀ b ∈ items.map indexLine,
      a.keys <+: b.keys → a.keys = b.keys := by
    intro a ha b hb hpre
    obtain ⟨ea, _, rfl⟩ := List.mem_map.1 ha
    obtain ⟨eb, _, rfl⟩ := List.mem_map.1 hb
    exact hpre.eq_of_length rfl
  obtain ⟨g, _, hg0, _, hdec⟩ := decode_doc L (items.map indexLine) hc hkne hk hnc (-1)
    (Or.inl (by decide)) extra hm
  obtain ⟨g, rfl⟩ : ∃ g1, g = g1 + 1 := ⟨g - 1, by omega⟩
  have hmP : ∀ e ∈ items.map (fun e => ((Tok.int e.1, RawVal.tok e.2) : Tok F × RawVal F)),
      e.1.isKey = true := by
    intro e he
    obtain ⟨x, _, rfl⟩ := List.mem_map.1 he
    rfl
  have hmnd : ((items.map (fun e => ((Tok.int e.1, RawVal.tok e.2) : Tok F × RawVal F))).map
      Prod.fst).Nodup := by
    have : (items.map (fun e => ((Tok.int e.1, RawVal.tok e.2) : Tok F × RawVal F))).map
        Prod.fst = (items.map Prod.fst).map Tok.int := by
      simp [List.map_map, Function.comp_def]
    rw [this]
    exact hnd.map (fun a b hab => by cases hab; rfl)
  have hnorm := norm_int_level L (g + 1)
    (items.map (fun e => ((Tok.int e.1, RawVal.tok e.2) : Tok F × RawVal F)))
    (by
      intro e he
      obtain ⟨x, _, rfl⟩ := List.mem_map.1 he
      exact ⟨x.1, rfl⟩)
    (by simpa using hne) leafOf
    (by
      intro e he
      obtain ⟨x, _, rfl⟩ := List.mem_map.1 he
      rfl)
    rfl
  have hkeys : (items.map (fun e => ((Tok.int e.1, RawVal.tok e.2) : Tok F × RawVal F))).map
      (fun e => e.1.intOf) = items.map Prod.fst := by
    simp [List.map_map, Function.comp_def, Tok.intOf]
  rw [hkeys] at hnorm
  have hperm := List.perm_insertionSort (fun a b : Int => a ≤ b) (items.map Prod.fst)
  refine ⟨((items.map Prod.fst).insertionSort (fun a b => a ≤ b)).map
    (fun k => (k, (mapGet (fun a b => a == b) items k).getD .null)), ?_, ?_, ?_⟩
  · have h1 := hperm.map (fun k => (k, (mapGet (fun a b => a == b) items k).getD
      (Tok.null : Tok F)))
    rw [List.map_map] at h1
    have h2 : items.map ((fun k => (k, (mapGet (fun a b => a == b) items k).getD
        (Tok.null : Tok F))) ∘ Prod.fst) = items := assoc_relookup items .null hnd
    rw [h2] at h1
    exact h1
  · rw [List.map_map]
    have : (Prod.fst ∘ fun k : Int => (k, (mapGet (fun a b => a == b) items k).getD
        (Tok.null : Tok F))) = id := rfl
    rw [this, List.map_id]
    exact (List.sorted_insertionSort (fun a b : Int => a ≤ b) _).lt_of_le
      (hperm.nodup_iff.2 hnd)
  · rw [hdec, build_indexLines L g items hnd, hnorm]
    have hemp : (items.map (indexLine (F := F))).isEmpty = false := by
      cases items with
      | nil => exact absurd rfl hne
      | cons x xs => rfl
    simp only [hemp, Bool.false_and, Bool.not_false, Bool.or_true, List.map_map]
    congr 4
    apply List.map_congr_left
    intro k hk
    rw [hperm.mem_iff] at hk
    obtain ⟨e, he, rfl⟩ := List.mem_map.1 hk
    have hget1 := mapGet_of_mem (Tok.keyEq L) (fun a => a.isKey = true)
      (fun a b ha => keyEq_iff L a b ha) _ hmP hmnd
      ((Tok.int e.1, RawVal.tok e.2) : Tok F × RawVal F) (List.mem_map.2 ⟨e, he, rfl⟩)
    have hget2 := mapGet_of_mem (fun a b : Int => a == b) (fun _ => True)
      (fun a b _ => by simp) items (fun _ _ => trivial) hnd e he
    simp only at hget1
    simp [hget1, hget2, leafOf]

/-- C4, witness: `#1 b`, `#0 a` decodes to the sequence `[a, b]`. -/
theorem index_ordering_witness :
    docText digitFloats (([(1, .str "b".toList), (0, .str "a".toList)] :
        List (Int × Tok Nat)).map indexLine) = "#1 b\n#0 a\n".toList ∧
      decode digitFloats 12 (-1) ⟨"#1 b\n#0 a\n".toList, false⟩
        = some (.ok (.seq [.leaf (.str "a".toList), .leaf (.str "b".toList)], ⟨[], true⟩)) ∧
      ∃ sorted : List (Int × Tok Nat),
        sorted.Perm [(1, .str "b".toList), (0, .str "a".toList)] ∧
        (sorted.map Prod.fst).Sorted (fun a b => a < b) ∧
        decode digitFloats
            ((docText digitFloats (([(1, .str "b".toList), (0, .str "a".toList)] :
              List (Int × Tok Nat)).map indexLine)).length + 2 + 0) (-1)
            ⟨docText digitFloats (([(1, .str "b".toList), (0, .str "a".toList)] :
              List (Int × Tok Nat)).map indexLine), false⟩
          = some (.ok (.seq (sorted.map (fun e => Tree.leaf e.2)), ⟨[], true⟩)) :=
  ⟨rfl, rfl, index_ordering digitFloats [(1, .str "b".toList), (0, .str "a".toList)]
    (by simp)
    (by
      intro e he
      simp only [List.mem_cons, List.mem_singleton, List.not_mem_nil, or_false] at he
      rcases he with rfl | rfl <;> exact ⟨by norm_num, by norm_num⟩)
    (by decide)
    (by
      intro e he
      simp only [List.mem_cons, List.mem_singleton, List.not_mem_nil, or_false] at he
      rcases he with rfl | rfl <;> trivial)
    0 false⟩

theorem map_strOf_str {F : Type} (ks : List Str) :
    (ks.map (Tok.str (F := F))).map Tok.strOf = ks := by
  rw [List.map_map]
  conv_rhs => rw [← List.map_id ks]
  rfl

/-- C2. For every document of lines `k1 ... km v` (m at least 1) with string
keys and string leaves in which no key path is a prefix of, or equal to, the key
path of another line, whatever the order of the lines, `decode` returns a
mapping `T`, with the scanner at the end of the document, such that: the keys
of every mapping of `T` are pairwise different and below the root there is no
sequence and no empty mapping; following the keys of every line from the root
reaches the leaf of the line; and every leaf of `T` is the leaf of a line,
reached by the keys of that line. -/
theorem prefix_merging {F : Type} (L : FloatOps F) (lines : List (List Str × Str))
    (hne : ∀ l ∈ lines, l.1 ≠ [])
    (hpw : lines.Pairwise (fun a b => ¬ a.1 <+: b.1 ∧ ¬ b.1 <+: a.1))
    (extra : Nat) (hm : Bool) :
    ∃ (T : List (Str × Tree F)) (d : Decoder),
      decode L ((docText L (lines.map strLine)).length + 2 + extra) (-1)
          ⟨docText L (lines.map strLine), hm⟩ = some (.ok (.mapping T, d)) ∧
        d.s = [] ∧ (T.map Prod.fst).Nodup ∧ nestedEntries T ∧
        (∀ l ∈ lines, Tree.get l.1 (.mapping T) = some (.leaf (.str l.2))) ∧
        (∀ ks t, Tree.get ks (.mapping T) = some (.leaf t) →
          ∃ l ∈ lines, l.1 = ks ∧ t = .str l.2) := by
  have hall : ∀ a ∈ lines, ∀ b ∈ lines, a.1 <+: b.1 → a = b := by
    have hsym : Symmetric (fun a b : List Str × Str =>
        (a.1 <+: b.1 → a = b) ∧ (b.1 <+: a.1 → a = b)) := by
      intro a b h
      exact ⟨fun hp => (h.2 hp).symm, fun hp => (h.1 hp).symm⟩
    have := List.Pairwise.forall_of_forall hsym
      (fun x _ => ⟨fun _ => rfl, fun _ => rfl⟩)
      (hpw.imp (fun {a b} h => ⟨fun hp => absurd hp h.1, fun hp => absurd hp h.2⟩))
    intro a ha b hb hp
    exact (this ha hb).1 hp
  have hc : ∀ l ∈ lines.map (strLine (F := F)), l.canon L := by
    intro l hl
    obtain ⟨e, _, rfl⟩ := List.mem_map.1 hl
    refine ⟨?_, trivial⟩
    intro k hk
    obtain ⟨s, _, rfl⟩ := List.mem_map.1 hk
    trivial
  have hkne : ∀ l ∈ lines.map (strLine (F := F)), l.keys ≠ [] := by
    intro l hl
    obtain ⟨e, he, rfl⟩ := List.mem_map.1 hl
    simpa [strLine] using hne e he
  have hk : ∀ l ∈ lines.map (strLine (F := F)), ∀ k ∈ l.keys, k.isKey = true := by
    intro l hl k hk
    obtain ⟨e, _, rfl⟩ := List.mem_map.1 hl
    obtain ⟨s, _, rfl⟩ := List.mem_map.1 hk
    rfl
  have hpre : ∀ a b : List Str × Str,
      (strLine (F := F) a).keys <+: (strLine (F := F) b).keys → a.1 <+: b.1 := by
    intro a b h
    have := h.map Tok.strOf
    simp only [strLine] at this
    rwa [map_strOf_str, map_strOf_str] at this
  have hnc : ∀ a ∈ lines.map (strLine (F := F)), ∀ b ∈ lines.map (strLine (F := F)),
      a.keys <+: b.keys → a.keys = b.keys := by
    intro a ha b hb h
    obtain ⟨ea, hea, rfl⟩ := List.mem_map.1 ha
    obtain ⟨eb, heb, rfl⟩ := List.mem_map.1 hb
    rw [hall ea hea eb heb (hpre ea eb h)]
  obtain ⟨g, _, hg0, hgd, hdec⟩ := decode_doc L (lines.map strLine) hc hkne hk hnc (-1)
    (Or.inl (by decide)) extra hm
  have hkeysOf : ∀ l ∈ lines, kvKeys (strLine (F := F) l).toKV = l.1.map Tok.str ∧
      (strLine (F := F) l).toKV.2.leafTok = .str l.2 := by
    intro l hl
    have := Line.kvKeys_toKV (strLine (F := F) l) (hkne _ (List.mem_map_of_mem _ hl))
    exact ⟨this.1, this.2.2⟩
  have hS : keysStr (kvsOfLines (lines.map (strLine (F := F)))) := by
    intro e he k hkk
    obtain ⟨l, hl, rfl⟩ := List.mem_map.1 he
    obtain ⟨l0, hl0, rfl⟩ := List.mem_map.1 hl
    rw [(hkeysOf l0 hl0).1] at hkk
    obtain ⟨s, _, rfl⟩ := List.mem_map.1 hkk
    exact ⟨s, rfl⟩
  have hsl : sameLeaf (kvsOfLines (lines.map (strLine (F := F)))) := by
    intro a ha b hb heq
    obtain ⟨la, hla, rfl⟩ := List.mem_map.1 ha
    obtain ⟨lb, hlb, rfl⟩ := List.mem_map.1 hb
    obtain ⟨a0, ha0, rfl⟩ := List.mem_map.1 hla
    obtain ⟨b0, hb0, rfl⟩ := List.mem_map.1 hlb
    rw [(hkeysOf a0 ha0).1, (hkeysOf b0 hb0).1] at heq
    have h1 : a0.1 = b0.1 := by
      have := congrArg (List.map Tok.strOf) heq
      rwa [map_strOf_str, map_strOf_str] at this
    rw [hall a0 ha0 b0 hb0 (by rw [h1])]
  obtain ⟨T, hT, hTnd, hTn, _, hTa, hTb⟩ := norm_build_str L g _ hg0 hgd hS
    (kvsOfLines_noClash _ hkne hnc) hsl
  refine ⟨T, ⟨[], (lines.map (strLine (F := F))).isEmpty && hm
    || !(lines.map (strLine (F := F))).isEmpty⟩, ?_, rfl, hTnd, hTn, ?_, ?_⟩
  · rw [hdec, hT]
  · intro l hl
    have := hTa (strLine (F := F) l).toKV
      (List.mem_map_of_mem _ (List.mem_map_of_mem _ hl))
    rw [(hkeysOf l hl).1, (hkeysOf l hl).2, map_strOf_str] at this
    exact this
  · intro ks t hget
    obtain ⟨e, he, hks, hleaf⟩ := hTb ks t hget
    obtain ⟨l, hl, rfl⟩ := List.mem_map.1 he
    obtain ⟨l0, hl0, rfl⟩ := List.mem_map.1 hl
    rw [(hkeysOf l0 hl0).1, map_strOf_str] at hks
    rw [(hkeysOf l0 hl0).2] at hleaf
    exact ⟨l0, hl0, hks, hleaf.symm⟩

/-- C2, witness: the lines `a b 1`, `c 2`, `a d 3`, where the two lines under `a`
are not adjacent, decode to `{a: {b: 1, d: 3}, c: 2}`. -/
theorem prefix_merging_witness :
    docText digitFloats (([(["a".toList, "b".toList], "1".toList), (["c".toList], "2".toList),
        (["a".toList, "d".toList], "3".toList)] : List (List Str × Str)).map strLine)
        = "a b 1\nc 2\na d 3\n".toList ∧
      decode digitFloats 18 (-1) ⟨"a b 1\nc 2\na d 3\n".toList, false⟩
        = some (.ok (.mapping [("a".toList, .mapping [("b".toList, .leaf (.str "1".toList)),
            ("d".toList, .leaf (.str "3".toList))]), ("c".toList, .leaf (.str "2".toList))],
          ⟨[], true⟩)) ∧
      ∃ (T : List (Str × Tree Nat)) (d : Decoder),
        decode digitFloats
            ((docText digitFloats (([(["a".toList, "b".toList], "1".toList),
              (["c".toList], "2".toList), (["a".toList, "d".toList], "3".toList)] :
              List (List Str × Str)).map strLine)).length + 2 + 0) (-1)
            ⟨docText digitFloats (([(["a".toList, "b".toList], "1".toList),
              (["c".toList], "2".toList), (["a".toList, "d".toList], "3".toList)] :
              List (List Str × Str)).map strLine), false⟩ = some (.ok (.mapping T, d)) ∧
          d.s = [] ∧ (T.map Prod.fst).Nodup ∧ nestedEntries T ∧
          (∀ l ∈ ([(["a".toList, "b".toList], "1".toList), (["c".toList], "2".toList),
              (["a".toList, "d".toList], "3".toList)] : List (List Str × Str)),
            Tree.get l.1 (.mapping T) = some (.leaf (.str l.2))) ∧
          (∀ ks t, Tree.get ks (.mapping T) = some (.leaf t) →
            ∃ l ∈ ([(["a".toList, "b".toList], "1".toList), (["c".toList], "2".toList),
              (["a".toList, "d".toList], "3".toList)] : List (List Str × Str)),
              l.1 = ks ∧ t = .str l.2) :=
  ⟨rfl, rfl, prefix_merging digitFloats
    [(["a".toList, "b".toList], "1".toList), (["c".toList], "2".toList),
      (["a".toList, "d".toList], "3".toList)]
    (by
      intro l hl
      simp only [List.mem_cons, List.mem_singleton, List.not_mem_nil, or_false] at hl
      rcases hl with rfl | rfl | rfl <;> simp)
    (by decide) 0 false⟩

/-- C1, as stated, fails: the null value cannot be encoded (`Encode` returns
"unsupported type", also for a null inside a sequence), and the empty sequence
is written as the empty text, which decodes to the empty mapping. The string of
the byte-order mark and `x` is written as it is, and a new decoder for that
text returns the string `x`. Positive infinity is written as `<+Inf>`, which is
not decoded: of the bracket only `+` is read as a number. The mapping with the
empty key is written as `\<> v`, which decodes to the mapping with the key
`<>`. -/
theorem round_trip_fails :
    Encode digitFloats NewEncoder (Tree.reflect (.leaf .null))
        = (NewEncoder, some .unsupportedType) ∧
      Encode digitFloats NewEncoder (Tree.reflect (.seq [.leaf .null]))
        = (NewEncoder, some .unsupportedType) ∧
      Encode digitFloats NewEncoder (Tree.reflect (.seq [])) = (⟨[], false⟩, none) ∧
      decode digitFloats 9 (-1) ⟨[], false⟩ = some (.ok (.mapping [], ⟨[], false⟩)) ∧
      (Tree.seq [] : Tree Nat) ≠ .mapping [] ∧
      Encode digitFloats NewEncoder (Tree.reflect (.leaf (.str [bom, 'x'])))
        = (⟨[bom, 'x', '\n'], false⟩, none) ∧
      Decode digitFloats 9 (NewDecoder [bom, 'x', '\n'])
        = some (.ok (.leaf (.str ['x']), ⟨[], true⟩)) ∧
      (Tree.leaf (.str ['x']) : Tree Nat) ≠ .leaf (.str [bom, 'x']) ∧
      Encode infFloats NewEncoder (Tree.reflect (.leaf (.float ())))
        = (⟨"<+Inf>\n".toList, false⟩, none) ∧
      Decode infFloats 9 (NewDecoder "<+Inf>\n".toList)
        = some (.error (.badFloat "+".toList)) ∧
      Encode digitFloats NewEncoder
          (Tree.reflect (.mapping [([], .leaf (.str "v".toList))]))
        = (⟨"\\<> v\n".toList, false⟩, none) ∧
      Decode digitFloats 9 (NewDecoder "\\<> v\n".toList)
        = some (.ok (.mapping [("<>".toList, .leaf (.str "v".toList))], ⟨[], true⟩)) :=
  ⟨rfl, rfl, rfl, rfl, (fun h => nomatch h), rfl, rfl, (by
    intro h
    injection h with h
    injection h with h
    exact absurd h (by decide)), rfl, rfl, rfl, rfl⟩

/-- For every value `x` as in `Tree.plain`, or the empty mapping: `Encode`
returns no error and writes one line per leaf of `x`, and `decode` on a scanner
that delivers the runes of that text returns `x` and leaves nothing unread. -/
theorem round_trip_text {F : Type} (L : FloatOps F) (x : Tree F)
    (hx : Tree.plain L x ∨ x = .mapping []) (extra : Nat) (hm : Bool) :
    Encode L NewEncoder (Tree.reflect x) = (⟨docText L (Tree.lines x), false⟩, none) ∧
      ∃ d, decode L ((docText L (Tree.lines x)).length + 2 + extra) (-1)
          ⟨docText L (Tree.lines x), hm⟩ = some (.ok (x, d)) ∧ d.s = [] := by
  rcases hx with hp | rfl
  · obtain ⟨hne, hc, hk, hpk, hpr⟩ := lines_spec L _ x (le_refl _) hp
    refine ⟨?_, ?_⟩
    · have hrows := toRows_lines L _ x (le_refl _) hp
      simp [Encode, hrows, writeRows_false, toStrWithWidthNotTable_strip _ hpr, NewEncoder,
        rowsText_rows]
    · cases x with
      | leaf t =>
        have hl : Tree.lines (.leaf t : Tree F) = [⟨[], t⟩] := by
          conv_lhs => unfold Tree.lines
        rw [hl] at hc ⊢
        have hlen : (docText L [(⟨[], t⟩ : Line F)]).length + 2 + extra
            = ((docText L [(⟨[], t⟩ : Line F)]).length + 1 + extra) + 1 := by omega
        have hpos : 0 < (docText L [(⟨[], t⟩ : Line F)]).length := by
          simp [docText, Line.text]
        have h := decodeLines_doc L [⟨[], t⟩] hc 0 (by simp) (-1) (Or.inl (by decide))
          ((docText L [(⟨[], t⟩ : Line F)]).length + 2 + extra)
          (by simp only [List.length_singleton]; omega) hm
        refine ⟨⟨[], true⟩, ?_, rfl⟩
        simp only [decode, decodeToMapOrV, h, List.map_cons, List.map_nil, Line.path,
          List.foldr_nil, List.length_singleton, collectKvs]
        rw [hlen]
        simp [makeKeyStringOrCvtSlice]
      | mapping m =>
        have hxl : ∀ t, (Tree.mapping m : Tree F) ≠ .leaf t := fun t h => nomatch h
        obtain ⟨g, hg, _, hd, hdec⟩ := decode_doc L (Tree.lines (.mapping m)) hc
          (lines_keys_ne _ hxl) hk
          (fun a ha b hb hab => hpk _ (List.mem_map.2 ⟨a, ha, rfl⟩) _
            (List.mem_map.2 ⟨b, hb, rfl⟩) hab)
          (-1) (Or.inl (by decide)) extra hm
        have hnorm := norm_rawOf L g (.mapping m) hp (by
          intro l hl
          have h1 := hd l.toKV (List.mem_map.2 ⟨l, hl, rfl⟩)
          have h2 := (Line.kvKeys_toKV l (lines_keys_ne _ hxl l hl)).2.1
          omega)
        have hraw : rawOf L g (.mapping m)
            = .map (build L g (kvsOfLines (Tree.lines (.mapping m)))) := rfl
        rw [hraw] at hnorm
        rw [hnorm] at hdec
        exact ⟨_, hdec, rfl⟩
      | seq s =>
        have hxl : ∀ t, (Tree.seq s : Tree F) ≠ .leaf t := fun t h => nomatch h
        obtain ⟨g, hg, _, hd, hdec⟩ := decode_doc L (Tree.lines (.seq s)) hc
          (lines_keys_ne _ hxl) hk
          (fun a ha b hb hab => hpk _ (List.mem_map.2 ⟨a, ha, rfl⟩) _
            (List.mem_map.2 ⟨b, hb, rfl⟩) hab)
          (-1) (Or.inl (by decide)) extra hm
        have hnorm := norm_rawOf L g (.seq s) hp (by
          intro l hl
          have h1 := hd l.toKV (List.mem_map.2 ⟨l, hl, rfl⟩)
          have h2 := (Line.kvKeys_toKV l (lines_keys_ne _ hxl l hl)).2.1
          omega)
        have hraw : rawOf L g (.seq s)
            = .map (build L g (kvsOfLines (Tree.lines (.seq s)))) := rfl
        rw [hraw] at hnorm
        rw [hnorm] at hdec
        exact ⟨_, hdec, rfl⟩
  · have hl : Tree.lines (.mapping [] : Tree F) = [] := by
      conv_lhs => unfold Tree.lines
      unfold linesEntries
      rfl
    rw [hl]
    refine ⟨rfl, ?_⟩
    obtain ⟨g, hg, _, _, hdec⟩ := decode_doc L [] (fun _ h => nomatch h)
      (fun _ h => nomatch h) (fun _ h => nomatch h) (fun _ h => nomatch h)
      (-1) (Or.inl (by decide)) extra hm
    rw [kvsOfLines, List.map_nil, build_nil] at hdec
    have hn : makeKeyStringOrCvtSlice L (g + 1) (.map ([] : List (Tok F × RawVal F)))
        = some (.ok (.mapping [])) := by
      simp [makeKeyStringOrCvtSlice, tryMakeKeyString, normEntries]
    rw [hn] at hdec
    exact ⟨_, hdec, rfl⟩

/-- C1, amended. For every value `x` that is a string free of reserved
characters (backslash, blank, newline, `<`, `#`), a boolean, a float whose `%v`
text is a non-empty run of number characters (digits, `.`, `e`, `+`, `-`) that
`strconv.ParseFloat` reads back as the same float, a non-empty mapping with
different, non-empty string keys free of reserved characters, or a non-empty
sequence, of such values again to any depth, or the empty mapping, and such
that the text written for `x` does not begin with the byte-order mark U+FEFF:
`Encode` returns no error and writes one line per leaf of `x`, and `Decode` on
a new decoder for the text written returns `x` and leaves nothing unread. -/
theorem round_trip {F : Type} (L : FloatOps F) (x : Tree F)
    (hx : Tree.plain L x ∨ x = .mapping [])
    (hb : (docText L (Tree.lines x)).head? ≠ some bom) (extra : Nat) :
    Encode L NewEncoder (Tree.reflect x) = (⟨docText L (Tree.lines x), false⟩, none) ∧
      ∃ d, Decode L ((docText L (Tree.lines x)).length + 2 + extra)
          (NewDecoder (docText L (Tree.lines x))) = some (.ok (x, d)) ∧ d.s = [] := by
  have h := round_trip_text L x hx extra false
  simp only [Decode, NewDecoder, scannerInit_id _ hb]
  exact h

/-- C1, witness: the mapping `{a: [x, <true>], b: {c: y}}` is written as four
lines and read back. -/
theorem round_trip_witness :
    (Tree.plain digitFloats
        (.mapping [("a".toList, .seq [.leaf (.str "x".toList), .leaf (.bool true)]),
          ("b".toList, .mapping [("c".toList, .leaf (.str "y".toList))])])
      ∨ (Tree.mapping [("a".toList, .seq [.leaf (.str "x".toList), .leaf (.bool true)]),
          ("b".toList, .mapping [("c".toList, .leaf (.str "y".toList))])] : Tree Nat)
        = .mapping []) ∧
    docText digitFloats (Tree.lines
        (.mapping [("a".toList, .seq [.leaf (.str "x".toList), .leaf (.bool true)]),
          ("b".toList, .mapping [("c".toList, .leaf (.str "y".toList))])]))
      = "a #0 x\na #1 <true>\nb c y\n".toList ∧
    (Encode digitFloats NewEncoder (Tree.reflect
        (.mapping [("a".toList, .seq [.leaf (.str "x".toList), .leaf (.bool true)]),
          ("b".toList, .mapping [("c".toList, .leaf (.str "y".toList))])]))
      = (⟨docText digitFloats (Tree.lines
          (.mapping [("a".toList, .seq [.leaf (.str "x".toList), .leaf (.bool true)]),
            ("b".toList, .mapping [("c".toList, .leaf (.str "y".toList))])])), false⟩, none) ∧
      ∃ d, Decode digitFloats ((docText digitFloats (Tree.lines
          (.mapping [("a".toList, .seq [.leaf (.str "x".toList), .leaf (.bool true)]),
            ("b".toList, .mapping [("c".toList, .leaf (.str "y".toList))])]))).length + 2 + 0)
          (NewDecoder (docText digitFloats (Tree.lines
          (.mapping [("a".toList, .seq [.leaf (.str "x".toList), .leaf (.bool true)]),
            ("b".toList, .mapping [("c".toList, .leaf (.str "y".toList))])]))))
        = some (.ok (.mapping [("a".toList, .seq [.leaf (.str "x".toList), .leaf (.bool true)]),
            ("b".toList, .mapping [("c".toList, .leaf (.str "y".toList))])], d)) ∧ d.s = []) :=
  ⟨Or.inl (by
      simp [plain_mapping, plain_seq, plain_leaf, plainEntries_iff, plainItems_iff, leafOK,
        reservedFree]),
    rfl,
    round_trip digitFloats _ (Or.inl (by
      simp [plain_mapping, plain_seq, plain_leaf, plainEntries_iff, plainItems_iff, leafOK,
        reservedFree])) (by decide) 0⟩

/-- C11. `Encode` writes the entries of a map in the order in which `MapKeys`
enumerates them: for the map `{a: b, c: d}` enumerated as `a, c` it writes
`a b`, `c d`, and for the same map enumerated as `c, a` it writes `c d`, `a b`. -/
theorem map_order_follows_enumeration {F : Type} (L : FloatOps F) :
    Encode L NewEncoder
        (.map [(.string "a".toList, .string "b".toList), (.string "c".toList, .string "d".toList)])
        = (⟨"a b\nc d\n".toList, false⟩, none) ∧
      Encode L NewEncoder
        (.map [(.string "c".toList, .string "d".toList), (.string "a".toList, .string "b".toList)])
        = (⟨"c d\na b\n".toList, false⟩, none) ∧
      "a b\nc d\n".toList ≠ "c d\na b\n".toList :=
  ⟨rfl, rfl, by decide⟩

/-- C12, as stated, fails: `Encode` of the integer 1 returns "unsupported type"
and writes nothing, not the line `<1>`. -/
theorem integer_leaf_unsupported :
    Encode digitFloats NewEncoder (.int 1) = (NewEncoder, some .unsupportedType) ∧
      Encode digitFloats NewEncoder (.slice [.string "x".toList, .int 1])
        = (NewEncoder, some .unsupportedType) ∧
      Encode digitFloats NewEncoder (.float 1) = (⟨"<1>\n".toList, false⟩, none) :=
  ⟨rfl, rfl, rfl⟩

/-- C12, amended. For every leaf of a float kind, with the value `f` that
`rv.Float()` gives for it, `Encode` returns no error and appends the line `<`,
the `%v` text of `f`, `>` to the sink, with justify on or off; for every value
of an integer kind, as for every kind other than string, boolean, float,
pointer, interface, slice, map and struct, `Encode` returns "unsupported type"
and leaves the sink as it was. -/
theorem numeric_leaves {F : Type} (L : FloatOps F) (e : Encoder) :
    (∀ f : F, Encode L e (.float f)
        = (⟨e.w ++ ('<' :: (L.FormatFloat f ++ ['>', '\n'])), e.hasPadding⟩, none)) ∧
      (∀ n : Int, Encode L e (.int n) = (e, some .unsupportedType)) ∧
      Encode L e .other = (e, some .unsupportedType) := by
  refine ⟨?_, fun n => rfl, rfl⟩
  intro f
  obtain ⟨w, hp⟩ := e
  have hrows : toRows L (.float f) = .ok [['<' :: (L.FormatFloat f ++ ['>'])]] := by
    unfold toRows
    simp [primRows, notatePrim]
  cases hp <;>
    simp [Encode, hrows, toStrWithWidthNotTable, toStrWithWidthNotTableAux, maxRowLen,
      groupRuns, col0, maxInt, writeRows, writeCols, putMargin, createMargin]

/-- C14. After every successful `Token` the scanner stands in front of a rune
that is not a blank and `More` is true exactly when that is not a newline; at
the end of the source it is therefore true: after `Token` has read `a` from the
input `a`, and after it has read `b` from `a b`, nothing is left and `More` is
true. -/
theorem more_true_at_end {F : Type} (L : FloatOps F) :
    (∀ d : Decoder, match Token L d with
      | .ok (_, d1) => More d1 = !isEOLChar (Peek d1.s) ∧ isBrank (Peek d1.s) = false
      | .error _ => True) ∧
      Token L ⟨"a".toList, false⟩ = .ok (.str "a".toList, ⟨[], true⟩) ∧
      Token L ⟨"b".toList, true⟩ = .ok (.str "b".toList, ⟨[], true⟩) ∧
      Token L ⟨"a \n".toList, false⟩ = .ok (.str "a".toList, ⟨"\n".toList, false⟩) ∧
      More ⟨[], true⟩ = true := by
  refine ⟨?_, rfl, rfl, rfl, rfl⟩
  intro d
  cases h : Token L d with
  | error e => trivial
  | ok r =>
    obtain ⟨v, d1⟩ := r
    exact Token_flag L d v d1 h

/-- C17. On the input `a`, whose only line has no newline at its end, on the
input of one newline, and on `a`, newline, blank, newline, `decode` does not
return within any depth of recursion: `decodeLine` reaches the end of the
source with `hasMore` set and calls itself for ever. -/
theorem decode_diverges_without_newline {F : Type} (L : FloatOps F) (fuel : Nat) (hm : Bool) :
    decode L fuel (-1) ⟨"a".toList, hm⟩ = none ∧
      decode L fuel (-1) ⟨"\n".toList, hm⟩ = none ∧
      decode L fuel (-1) ⟨"a\n \n".toList, hm⟩ = none ∧
      decodeLine L fuel ⟨[], hm⟩ = none := by
  refine ⟨?_, ?_, ?_, decodeLine_at_end L fuel hm⟩
  · cases fuel with
    | zero => rfl
    | succ f =>
      exact decode_none L _ _ _ (decodeLines_none L f (-1) ⟨"a".toList, hm⟩
        (fun h => nomatch h) (by decide) (decodeLine_one_token L f _ (.str "a".toList) rfl))
  · cases fuel with
    | zero => rfl
    | succ f =>
      exact decode_none L _ _ _ (decodeLines_none L f (-1) ⟨"\n".toList, hm⟩
        (fun h => nomatch h) (by decide) (decodeLine_one_token L f _ .eol rfl))
  · cases fuel with
    | zero => rfl
    | succ f =>
      cases f with
      | zero => rfl
      | succ g =>
        exact decode_none L _ _ _ (decodeLines_next_none L (g + 1) (-1) ⟨"a\n \n".toList, hm⟩
          (fun h => nomatch h) (by decide) (.leaf (.str "a".toList)) ⟨"\n".toList, false⟩ rfl
          (decodeLines_none L g (-1 - 1) ⟨"\n".toList, false⟩ (by decide) (by decide)
            (decodeLine_one_token L g _ .eol rfl)))

/-- C13. With justify enabled `Encode` of the mapping `{é: x, ab: y}` writes
`é x`, `ab y`: the key `é`, of one character and two bytes, gets no padding
beside `ab`, so that the second column is not aligned, where padding to the
width in characters gives `é  x`, `ab y`. The rest of the claim holds: for every
value on which flattening succeeds with rows that are the root-to-leaf paths of
a tree in depth-first order, the tokens under every node pairwise different,
and whose tokens have one byte per character, `Encode` with justify enabled
appends, for every row in order, its tokens joined by single blanks and a
newline, every token except the last padded on the right with blanks to the
width of its position, the largest length in characters of the tokens at that
position among all rows with the same tokens before it, and the last token
without padding; with justify disabled it appends the tokens without any
padding. The rows of every value that round-trips are such paths. -/
theorem column_alignment {F : Type} (L : FloatOps F) (e : Encoder) (v : GoVal F)
    (rows : List (List Str)) (hrows : toRows L v = .ok rows) (ht : TreeRows rows)
    (hascii : ∀ r ∈ rows, ∀ t ∈ r, strLen t = t.length) :
    (Encode L (SetJustifyColumn e true) v
        = (⟨e.w ++ alignedText List.length rows, true⟩, none) ∧
      Encode L (SetJustifyColumn e false) v = (⟨e.w ++ rowsText rows, false⟩, none) ∧
      (∀ (x : Tree F), Tree.plain L x → TreeRows ((Tree.lines x).map (Line.row L)))) ∧
    (Encode L (SetJustifyColumn NewEncoder true)
        (.map [(.string "é".toList, .string "x".toList),
          (.string "ab".toList, .string "y".toList)])
        = (⟨"é x\nab y\n".toList, true⟩, none) ∧
      toRows L (.map [(.string "é".toList, .string "x".toList),
          (.string "ab".toList, .string "y".toList)])
        = .ok [["é".toList, "x".toList], ["ab".toList, "y".toList]] ∧
      alignedText List.length [["é".toList, "x".toList], ["ab".toList, "y".toList]]
        = "é  x\nab y\n".toList ∧
      "é".toList.length = 1 ∧ strLen "é".toList = 2) := by
  refine ⟨⟨?_, ?_, fun x hx => treeRows_lines L _ x (le_refl _) hx⟩, rfl, rfl, rfl, rfl, rfl⟩
  · simp [Encode, SetJustifyColumn, hrows, writeRows_aligned rows ht,
      alignedText_congr strLen List.length rows rfl hascii]
  · have hs : stripWidths (toStrWithWidthNotTable rows) = rows := by
      rw [toStrWithWidthNotTable, aux_annotate rows ht _
        (fun r hr => Nat.lt_succ_of_le (le_maxRowLen rows r hr)), stripWidths_annotate]
    simp [Encode, SetJustifyColumn, hrows, writeRows_false, hs]

/-- C13, witness: the mapping `{a: 1, bb: 2}` of strings is written with justify
enabled as `a  1`, `bb 2`, and with justify disabled as `a 1`, `bb 2`. -/
theorem column_alignment_witness :
    ((Encode digitFloats (SetJustifyColumn NewEncoder true)
        (.map [(.string "a".toList, .string "1".toList),
          (.string "bb".toList, .string "2".toList)])
        = (⟨[] ++ alignedText List.length
            [["a".toList, "1".toList], ["bb".toList, "2".toList]], true⟩, none) ∧
      Encode digitFloats (SetJustifyColumn NewEncoder false)
        (.map [(.string "a".toList, .string "1".toList),
          (.string "bb".toList, .string "2".toList)])
        = (⟨[] ++ rowsText [["a".toList, "1".toList], ["bb".toList, "2".toList]],
            false⟩, none) ∧
      (∀ (x : Tree Nat), Tree.plain digitFloats x →
        TreeRows ((Tree.lines x).map (Line.row digitFloats)))) ∧
      (Encode digitFloats (SetJustifyColumn NewEncoder true)
          (.map [(.string "é".toList, .string "x".toList),
            (.string "ab".toList, .string "y".toList)])
          = (⟨"é x\nab y\n".toList, true⟩, none) ∧
        toRows digitFloats (.map [(.string "é".toList, .string "x".toList),
            (.string "ab".toList, .string "y".toList)])
          = .ok [["é".toList, "x".toList], ["ab".toList, "y".toList]] ∧
        alignedText List.length [["é".toList, "x".toList], ["ab".toList, "y".toList]]
          = "é  x\nab y\n".toList ∧
        "é".toList.length = 1 ∧ strLen "é".toList = 2)) ∧
    alignedText List.length [["a".toList, "1".toList], ["bb".toList, "2".toList]]
      = "a  1\nbb 2\n".toList ∧
    rowsText [["a".toList, "1".toList], ["bb".toList, "2".toList]] = "a 1\nbb 2\n".toList :=
  ⟨column_alignment digitFloats NewEncoder
      (.map [(.string "a".toList, .string "1".toList),
        (.string "bb".toList, .string "2".toList)])
      [["a".toList, "1".toList], ["bb".toList, "2".toList]] rfl
      (TreeRows.node [("a".toList, [["1".toList]]), ("bb".toList, [["2".toList]])]
        (by simp) (by decide)
        (by
          intro g hg
          simp only [List.mem_cons, List.mem_singleton, List.not_mem_nil, or_false] at hg
          rcases hg with rfl | rfl <;> exact TreeRows.leaf _))
      (by decide),
    rfl, rfl⟩

/-- C20, as stated, fails in its second half: for a map with two pointer keys
that both point to `true`, one with the value `x` and one with the value
`{x: y}`, `Encode` returns no error, yet of the row `\<true> x y` it writes only
`\<true> x`. -/
theorem row_not_written :
    toRows digitFloats
        (.map [(.ptr (some (.bool true)), .iface (some (.string "x".toList))),
          (.ptr (some (.bool true)),
            .iface (some (.map [(.string "x".toList, .string "y".toList)])))])
        = .ok [["\\<true>".toList, "x".toList], ["\\<true>".toList, "x".toList, "y".toList]] ∧
      Encode digitFloats NewEncoder
        (.map [(.ptr (some (.bool true)), .iface (some (.string "x".toList))),
          (.ptr (some (.bool true)),
            .iface (some (.map [(.string "x".toList, .string "y".toList)])))])
        = (⟨"\\<true> x\n\\<true> x\n".toList, false⟩, none) :=
  ⟨rfl, rfl⟩

/-- C20, amended. When flattening fails, `Encode` returns its error and the
sink is as it was before the call, also when leaves before the offending value
flatten successfully; when flattening succeeds, `Encode` returns no error and
has appended one line for every row, the rendering of what the aligner returns,
which has as many rows as the flattener produced and, when no row is a proper
prefix of another, the same tokens. -/
theorem encode_atomic {F : Type} (L : FloatOps F) (e : Encoder) (v : GoVal F) :
    (match toRows L v with
      | .error err => Encode L e v = (e, some err)
      | .ok rows =>
        Encode L e v
            = (⟨e.w ++ writeRows e.hasPadding (toStrWithWidthNotTable rows), e.hasPadding⟩, none) ∧
          (toStrWithWidthNotTable rows).length = rows.length ∧
          (prefixFree rows → stripWidths (toStrWithWidthNotTable rows) = rows)) ∧
      Encode L e (.slice [.string "x".toList, .int 1]) = (e, some .unsupportedType) ∧
      Encode L e (.map [(.string "k".toList, .string "x".toList), (.slice [], .string "y".toList)])
        = (e, some .unsupportedKey) ∧
      Encode L e (.struct [("K".toList, .string "x".toList), ("N".toList, .other)])
        = (e, some .unsupportedType) := by
  refine ⟨?_, rfl, rfl, rfl⟩
  cases h : toRows L v with
  | error err => simp [Encode, h]
  | ok rows =>
    refine ⟨by simp [Encode, h], aux_length _ rows, toStrWithWidthNotTable_strip rows⟩

/-- C3, amended. For every string `s` of Unicode characters that does not begin
with the byte-order mark U+FEFF, a new decoder on the one-line document
`escape s` followed by a newline returns the scalar string `s` and reads the
whole document; `Token` reads `escape s` as the one string token `s` and stops
in front of the newline; and the text of a non-empty `s` starts neither a
bracket nor an index marker. -/
theorem escape_round_trip {F : Type} (L : FloatOps F) (s : Str) (hs : s.head? ≠ some bom)
    (extra : Nat) :
    Decode L (3 + extra) (NewDecoder (escape s ++ ['\n']))
        = some (.ok (.leaf (.str s), ⟨[], true⟩)) ∧
      Token L (NewDecoder (escape s ++ ['\n'])) = .ok (.str s, ⟨['\n'], false⟩) ∧
      (s ≠ [] → Peek (escape s) ≠ some '<' ∧ Peek (escape s) ≠ some '#') := by
  have h := escape_read_back L s extra false
  simp only [Decode, NewDecoder, scannerInit_escape s hs]
  exact h

/-- C3, witness: the empty string, a string with a backslash, a blank, a
newline and the two characters backslash-n, the strings `<1>` and `#0`, and the
string `x`, each read back from its escaped text. -/
theorem escape_round_trip_witness :
    ([] : Str).head? ≠ some bom ∧
      Decode digitFloats 3 (NewDecoder (escape [] ++ ['\n']))
        = some (.ok (.leaf (.str []), ⟨[], true⟩)) ∧
      Decode digitFloats 3 (NewDecoder (escape "a\\ b\nc\\n".toList ++ ['\n']))
        = some (.ok (.leaf (.str "a\\ b\nc\\n".toList), ⟨[], true⟩)) ∧
      Decode digitFloats 3 (NewDecoder (escape "<1>".toList ++ ['\n']))
        = some (.ok (.leaf (.str "<1>".toList), ⟨[], true⟩)) ∧
      Decode digitFloats 3 (NewDecoder (escape "#0".toList ++ ['\n']))
        = some (.ok (.leaf (.str "#0".toList), ⟨[], true⟩)) ∧
      Decode digitFloats 3 (NewDecoder ("x\n".toList))
        = some (.ok (.leaf (.str "x".toList), ⟨[], true⟩)) :=
  ⟨by decide,
    (escape_round_trip digitFloats [] (by decide) 0).1,
    (escape_round_trip digitFloats "a\\ b\nc\\n".toList (by decide) 0).1,
    (escape_round_trip digitFloats "<1>".toList (by decide) 0).1,
    (escape_round_trip digitFloats "#0".toList (by decide) 0).1,
    (escape_round_trip digitFloats "x".toList (by decide) 0).1⟩

/-- C3, as worded, fails for a string that begins with the byte-order mark:
the scanner discards the mark in front of `x`, which `escape` writes as it is,
and decoding returns the string `x`. -/
theorem escape_loses_byte_order_mark :
    escape [bom, 'x'] ++ ['\n'] = [bom, 'x', '\n'] ∧
      Decode digitFloats 3 (NewDecoder (escape [bom, 'x'] ++ ['\n']))
        = some (.ok (.leaf (.str ['x']), ⟨[], true⟩)) ∧
      ['x'] ≠ [bom, 'x'] := by
  refine ⟨by decide, ?_, by decide⟩
  rfl

/-- C15. For every document that is the text of `k` lines of tokens and every
`n` from 0 to `k` there are two outcomes `r1` and `r2` (each a tree, an error
or a panic), the same for every fuel above the length of the document and for
either value of the flag `hasMore` of the decoder, such that: `Decode` on the
first `n` lines alone returns `r1` and reads them all; `DecodeNLines` with the
bound `n` on the whole document returns the same `r1` and leaves the scanner
in front of exactly the remaining lines; `Decode` on the decoder that
`DecodeNLines` has left returns `r2` and leaves nothing unread; and `Decode` on
the remaining lines alone returns the same `r2`. The flag `hasMore` of the
decoder left by a call is the flag before when the call read no line, and true
otherwise. `DecodeNLines` with a negative bound panics with "negative n". -/
theorem bounded_decoding {F : Type} (L : FloatOps F) (lines : List (Line F))
    (hc : ∀ l ∈ lines, l.canon L) (n : Nat) (hn : n ≤ lines.length) :
    (∃ r1 r2 : Result (Tree F), ∀ (extra : Nat) (hm : Bool),
      Decode L ((docText L lines).length + 2 + extra) ⟨docText L (lines.take n), hm⟩
        = some (outcome r1 ⟨[], if n = 0 then hm else true⟩) ∧
      DecodeNLines L ((docText L lines).length + 2 + extra) n ⟨docText L lines, hm⟩
        = some (outcome r1 ⟨docText L (lines.drop n), if n = 0 then hm else true⟩) ∧
      Decode L ((docText L lines).length + 2 + extra)
          ⟨docText L (lines.drop n), if n = 0 then hm else true⟩
        = some (outcome r2 ⟨[], if lines.length = 0 then hm else true⟩) ∧
      Decode L ((docText L lines).length + 2 + extra) ⟨docText L (lines.drop n), hm⟩
        = some (outcome r2 ⟨[], if n = lines.length then hm else true⟩)) ∧
      (∀ (m : Int) (d : Decoder) (fuel : Nat), m < 0 →
        (DecodeNLines L fuel m d : Option (Result (Tree F × Decoder)))
          = some (.panic "negative n")) := by
  refine ⟨?_, fun m d fuel hmneg => by simp [DecodeNLines, hmneg]⟩
  have hlen := docText_length L lines
  have hdepth : ∀ part : List (Line F), (∀ l ∈ part, l ∈ lines) →
      ∀ p ∈ part.map Line.path, p.depth < (docText L lines).length + 2 := by
    intro part hp p hpm
    obtain ⟨l, hl, rfl⟩ := List.mem_map.1 hpm
    have := le_maxKeys lines l (hp l hl)
    rw [Line.path_depth]
    omega
  have hsub1 : ∀ l ∈ lines.take n, l ∈ lines := fun l hl => List.mem_of_mem_take hl
  have hsub2 : ∀ l ∈ lines.drop n, l ∈ lines := fun l hl => List.mem_of_mem_drop hl
  obtain ⟨r1, hr1⟩ := decodePaths_total L ((docText L lines).length + 2)
    ((lines.take n).map Line.path) (by omega) (hdepth _ hsub1)
  obtain ⟨r2, hr2⟩ := decodePaths_total L ((docText L lines).length + 2)
    ((lines.drop n).map Line.path) (by omega) (hdepth _ hsub2)
  have hsplit : (docText L lines).length
      = (docText L (lines.take n)).length + (docText L (lines.drop n)).length := by
    conv_lhs => rw [← List.take_append_drop n lines, docText_append, List.length_append]
  have hn0 : ¬ ((n : Int) < 0) := by omega
  have hlast : ∀ hm : Bool, (if n = lines.length then (if n = 0 then hm else true) else true)
      = if lines.length = 0 then hm else true := by
    intro hm
    by_cases h1 : n = lines.length
    · subst h1; simp
    · have h2 : lines.length ≠ 0 := by omega
      simp [h1, h2]
  refine ⟨r1, r2, fun extra hm => ⟨?_, ?_, ?_, ?_⟩⟩
  · rw [← flag_take lines n hn hm]
    exact decode_part_paths L lines (lines.take n) (fun l hl => hc l (hsub1 l hl)) (by omega)
      r1 hr1 extra hm
  · rw [DecodeNLines, if_neg hn0, ← flag_take lines n hn hm]
    exact decode_lines_paths L lines hc n hn r1 hr1 extra hm
  · rw [← hlast hm, ← flag_drop lines n hn]
    exact decode_part_paths L lines (lines.drop n) (fun l hl => hc l (hsub2 l hl)) (by omega)
      r2 hr2 extra _
  · rw [← flag_drop lines n hn hm]
    exact decode_part_paths L lines (lines.drop n) (fun l hl => hc l (hsub2 l hl)) (by omega)
      r2 hr2 extra hm

/-- C15, witness: of the three lines `a x`, `b y`, `c z`, `DecodeNLines` with
the bound 2 returns the mapping of the first two, as `Decode` does on those two
lines alone, and leaves `c z` unread; `Decode` on the decoder left returns the
mapping of the third line, as it does on the third line alone. The one-line
document `x` is read as the string `x` with the bound 1, and the following
call returns the empty mapping. -/
theorem bounded_decoding_witness :
    ((∃ r1 r2 : Result (Tree Nat), ∀ (extra : Nat) (hm : Bool),
      Decode digitFloats ((docText digitFloats
          [⟨[.str "a".toList], .str "x".toList⟩, ⟨[.str "b".toList], .str "y".toList⟩,
            ⟨[.str "c".toList], .str "z".toList⟩]).length + 2 + extra)
          ⟨docText digitFloats (List.take 2
            [⟨[.str "a".toList], .str "x".toList⟩, ⟨[.str "b".toList], .str "y".toList⟩,
              ⟨[.str "c".toList], .str "z".toList⟩]), hm⟩
        = some (outcome r1 ⟨[], if 2 = 0 then hm else true⟩) ∧
      DecodeNLines digitFloats ((docText digitFloats
          [⟨[.str "a".toList], .str "x".toList⟩, ⟨[.str "b".toList], .str "y".toList⟩,
            ⟨[.str "c".toList], .str "z".toList⟩]).length + 2 + extra) (2 : Nat)
          ⟨docText digitFloats
            [⟨[.str "a".toList], .str "x".toList⟩, ⟨[.str "b".toList], .str "y".toList⟩,
              ⟨[.str "c".toList], .str "z".toList⟩], hm⟩
        = some (outcome r1 ⟨docText digitFloats (List.drop 2
            [⟨[.str "a".toList], .str "x".toList⟩, ⟨[.str "b".toList], .str "y".toList⟩,
              ⟨[.str "c".toList], .str "z".toList⟩]), if 2 = 0 then hm else true⟩) ∧
      Decode digitFloats ((docText digitFloats
          [⟨[.str "a".toList], .str "x".toList⟩, ⟨[.str "b".toList], .str "y".toList⟩,
            ⟨[.str "c".toList], .str "z".toList⟩]).length + 2 + extra)
          ⟨docText digitFloats (List.drop 2
            [⟨[.str "a".toList], .str "x".toList⟩, ⟨[.str "b".toList], .str "y".toList⟩,
              ⟨[.str "c".toList], .str "z".toList⟩]), if 2 = 0 then hm else true⟩
        = some (outcome r2 ⟨[], if ([⟨[.str "a".toList], .str "x".toList⟩,
            ⟨[.str "b".toList], .str "y".toList⟩,
            ⟨[.str "c".toList], .str "z".toList⟩] : List (Line Nat)).length = 0
          then hm else true⟩) ∧
      Decode digitFloats ((docText digitFloats
          [⟨[.str "a".toList], .str "x".toList⟩, ⟨[.str "b".toList], .str "y".toList⟩,
            ⟨[.str "c".toList], .str "z".toList⟩]).length + 2 + extra)
          ⟨docText digitFloats (List.drop 2
            [⟨[.str "a".toList], .str "x".toList⟩, ⟨[.str "b".toList], .str "y".toList⟩,
              ⟨[.str "c".toList], .str "z".toList⟩]), hm⟩
        = some (outcome r2 ⟨[], if 2 = ([⟨[.str "a".toList], .str "x".toList⟩,
            ⟨[.str "b".toList], .str "y".toList⟩,
            ⟨[.str "c".toList], .str "z".toList⟩] : List (Line Nat)).length
          then hm else true⟩)) ∧
      (∀ (m : Int) (d : Decoder) (fuel : Nat), m < 0 →
        (DecodeNLines digitFloats fuel m d : Option (Result (Tree Nat × Decoder)))
          = some (.panic "negative n"))) ∧
    DecodeNLines digitFloats 14 2 ⟨"a x\nb y\nc z\n".toList, false⟩
      = some (.ok (.mapping [("a".toList, .leaf (.str "x".toList)),
          ("b".toList, .leaf (.str "y".toList))], ⟨"c z\n".toList, true⟩)) ∧
    Decode digitFloats 14 ⟨"a x\nb y\n".toList, false⟩
      = some (.ok (.mapping [("a".toList, .leaf (.str "x".toList)),
          ("b".toList, .leaf (.str "y".toList))], ⟨[], true⟩)) ∧
    Decode digitFloats 14 ⟨"c z\n".toList, true⟩
      = some (.ok (.mapping [("c".toList, .leaf (.str "z".toList))], ⟨[], true⟩)) ∧
    DecodeNLines digitFloats 14 1 ⟨"x\n".toList, false⟩
      = some (.ok (.leaf (.str "x".toList), ⟨[], true⟩)) ∧
    Decode digitFloats 14 ⟨[], true⟩ = some (.ok (.mapping [], ⟨[], true⟩)) ∧
    DecodeNLines digitFloats 14 0 ⟨"x\n".toList, false⟩
      = some (.ok (.mapping [], ⟨"x\n".toList, false⟩)) :=
  ⟨bounded_decoding digitFloats
      [⟨[.str "a".toList], .str "x".toList⟩, ⟨[.str "b".toList], .str "y".toList⟩,
        ⟨[.str "c".toList], .str "z".toList⟩]
      (by
        intro l hl
        simp only [List.mem_cons, List.mem_singleton, List.not_mem_nil, or_false] at hl
        rcases hl with rfl | rfl | rfl <;> simp [Line.canon, Tok.canon])
      2 (by decide),
    rfl, rfl, rfl, rfl, rfl, rfl⟩

/-- C18, amended. For every document of lines with at least one key each, the
keys strings or indices, in which no key path is a proper prefix of another and
no two lines go on after a common key prefix one with a string key and the
other with an index, but in which several lines may have the same key path:
`decode` returns a tree, with the scanner at the end of the document, in which
the keys of every line that is the last with its key path lead to the leaf of
that line. A string key selects the entry of a mapping; an index selects the
item of a sequence at the position that the index has among the different
indices at that place, in ascending order. -/
theorem duplicate_last_wins {F : Type} (L : FloatOps F) (lines : List (Line F))
    (hc : ∀ l ∈ lines, l.canon L) (hne : ∀ l ∈ lines, l.keys ≠ [])
    (hk : ∀ l ∈ lines, ∀ k ∈ l.keys, k.isKey = true)
    (hnc : ∀ a ∈ lines, ∀ b ∈ lines, a.keys <+: b.keys → a.keys = b.keys)
    (hu : ∀ a ∈ lines, ∀ b ∈ lines, ∀ (p : List (Tok F)) (s : Str) (i : Int)
      (ra rb : List (Tok F)), a.keys = p ++ Tok.str s :: ra → b.keys ≠ p ++ Tok.int i :: rb)
    (extra : Nat) (hm : Bool) :
    ∃ (T : Tree F) (d : Decoder),
      decode L ((docText L lines).length + 2 + extra) (-1) ⟨docText L lines, hm⟩
          = some (.ok (T, d)) ∧ d.s = [] ∧
        (∀ pre l post, lines = pre ++ l :: post → (∀ b ∈ post, b.keys ≠ l.keys) →
          Tree.follow L (lines.map (fun l => l.keys)) l.keys T = some (.leaf l.leaf)) := by
  obtain ⟨g, _, hg0, hgd, hdec⟩ := decode_doc L lines hc hne hk hnc (-1)
    (Or.inl (by decide)) extra hm
  have hkeys : (kvsOfLines lines).map kvKeys = lines.map (fun l => l.keys) := by
    rw [kvsOfLines, List.map_map]
    apply List.map_congr_left
    intro l hl
    exact (Line.kvKeys_toKV l (hne l hl)).1
  have hunmixed : ∀ p, ¬ mixedAt p (kvsOfLines lines) := by
    rintro p ⟨a, ha, b, hb, s, i, ra, rb, hka, hkb⟩
    obtain ⟨la, hla, rfl⟩ := List.mem_map.1 ha
    obtain ⟨lb, hlb, rfl⟩ := List.mem_map.1 hb
    rw [(Line.kvKeys_toKV la (hne la hla)).1] at hka
    rw [(Line.kvKeys_toKV lb (hne lb hlb)).1] at hkb
    exact hu la hla lb hlb p s i ra rb hka hkb
  obtain ⟨T, hT, hlast⟩ := norm_build_follow L g _ hg0 hgd
    (kvsOfLines_keysPlain lines hne hk) (kvsOfLines_noClash _ hne hnc) hunmixed
  refine ⟨T, ⟨[], lines.isEmpty && hm || !lines.isEmpty⟩, ?_, rfl, ?_⟩
  · rw [hdec, hT]
  · intro pre l post hsplit hpost
    have hl : l ∈ lines := by rw [hsplit]; simp
    have hkv := Line.kvKeys_toKV l (hne l hl)
    have := hlast (kvsOfLines pre) l.toKV (kvsOfLines post)
      (by rw [hsplit]; simp [kvsOfLines])
      (by
        intro b hb
        obtain ⟨lb, hlb, rfl⟩ := List.mem_map.1 hb
        have hlb2 : lb ∈ lines := by rw [hsplit]; simp [hlb]
        rw [(Line.kvKeys_toKV lb (hne lb hlb2)).1, hkv.1]
        exact hpost lb hlb)
    rw [hkv.1, hkv.2.2, hkeys] at this
    exact this

/-- C18, as stated, fails: in the document `a 1`, `a 2`, `b x`, `b y z` two
lines have the key path `a` and end in a leaf, and `decode` panics with "not
kvs"; in the document `a 1`, `a 2`, `#0 x` it returns the error "invalid
map", as it does in the document `<true> 1`, `<true> 2`, whose key is neither
a string nor an index. -/
theorem duplicate_leaves_not_decoded :
    decode digitFloats 20 (-1) ⟨"a 1\na 2\nb x\nb y z\n".toList, false⟩
        = some (.panic "not kvs") ∧
      decode digitFloats 20 (-1) ⟨"a 1\na 2\n#0 x\n".toList, false⟩
        = some (.error .invalidMap) ∧
      decode digitFloats 20 (-1) ⟨"<true> 1\n<true> 2\n".toList, false⟩
        = some (.error .invalidMap) :=
  ⟨rfl, rfl, rfl⟩

/-- C18, witness: the lines `a #5 x`, `a #5 y`, `a #2 z` decode to
`{a: [z, y]}`; the lines `a 1`, `a 2` decode to `{a: 2}` and the lines `#0 a`,
`#0 b` to `[b]`. -/
theorem duplicate_last_wins_witness :
    (∃ (T : Tree Nat) (d : Decoder),
      decode digitFloats ((docText digitFloats
          [⟨[.str "a".toList, .int 5], .str "x".toList⟩,
            ⟨[.str "a".toList, .int 5], .str "y".toList⟩,
            ⟨[.str "a".toList, .int 2], .str "z".toList⟩]).length + 2 + 0) (-1)
          ⟨docText digitFloats
            [⟨[.str "a".toList, .int 5], .str "x".toList⟩,
              ⟨[.str "a".toList, .int 5], .str "y".toList⟩,
              ⟨[.str "a".toList, .int 2], .str "z".toList⟩], false⟩
          = some (.ok (T, d)) ∧ d.s = [] ∧
        (∀ pre l post,
          ([⟨[.str "a".toList, .int 5], .str "x".toList⟩,
            ⟨[.str "a".toList, .int 5], .str "y".toList⟩,
            ⟨[.str "a".toList, .int 2], .str "z".toList⟩] : List (Line Nat))
            = pre ++ l :: post →
          (∀ b ∈ post, b.keys ≠ l.keys) →
          Tree.follow digitFloats
            (([⟨[.str "a".toList, .int 5], .str "x".toList⟩,
              ⟨[.str "a".toList, .int 5], .str "y".toList⟩,
              ⟨[.str "a".toList, .int 2], .str "z".toList⟩] : List (Line Nat)).map
              (fun l => l.keys)) l.keys T = some (.leaf l.leaf))) ∧
    decode digitFloats 24 (-1) ⟨"a #5 x\na #5 y\na #2 z\n".toList, false⟩
      = some (.ok (.mapping [("a".toList,
          .seq [.leaf (.str "z".toList), .leaf (.str "y".toList)])], ⟨[], true⟩)) ∧
    Tree.follow digitFloats [[.str "a".toList, .int 5], [.str "a".toList, .int 5],
        [.str "a".toList, .int 2]] [.str "a".toList, .int 5]
        (.mapping [("a".toList, .seq [.leaf (.str "z".toList), .leaf (.str "y".toList)])])
      = some (.leaf (.str "y".toList)) ∧
    decode digitFloats 9 (-1) ⟨"a 1\na 2\n".toList, false⟩
      = some (.ok (.mapping [("a".toList, .leaf (.str "2".toList))], ⟨[], true⟩)) ∧
    decode digitFloats 11 (-1) ⟨"#0 a\n#0 b\n".toList, false⟩
      = some (.ok (.seq [.leaf (.str "b".toList)], ⟨[], true⟩)) :=
  ⟨duplicate_last_wins digitFloats
      [⟨[.str "a".toList, .int 5], .str "x".toList⟩,
        ⟨[.str "a".toList, .int 5], .str "y".toList⟩,
        ⟨[.str "a".toList, .int 2], .str "z".toList⟩]
      (by
        intro l hl
        simp only [List.mem_cons, List.mem_singleton, List.not_mem_nil, or_false] at hl
        rcases hl with rfl | rfl | rfl <;> simp [Line.canon, Tok.canon])
      (by
        intro l hl
        simp only [List.mem_cons, List.mem_singleton, List.not_mem_nil, or_false] at hl
        rcases hl with rfl | rfl | rfl <;> simp)
      (by
        intro l hl
        simp only [List.mem_cons, List.mem_singleton, List.not_mem_nil, or_false] at hl
        rcases hl with rfl | rfl | rfl <;> simp [Tok.isKey])
      (by
        intro a ha b hb
        simp only [List.mem_cons, List.mem_singleton, List.not_mem_nil, or_false] at ha hb
        rcases ha with rfl | rfl | rfl <;> rcases hb with rfl | rfl | rfl <;> simp)
      (by
        intro a ha b hb p s i ra rb h1 h2
        simp only [List.mem_cons, List.mem_singleton, List.not_mem_nil, or_false] at ha hb
        rcases p with _ | ⟨x, p⟩
        · rcases hb with rfl | rfl | rfl <;> simp at h2
        · rcases p with _ | ⟨y, p⟩
          · rcases ha with rfl | rfl | rfl <;> simp at h1
          · rcases ha with rfl | rfl | rfl <;> simp at h1)
      0 false,
    rfl, rfl, rfl, rfl⟩

end Ufml
